import Mathlib

/-!
# Verification of the DistributedKV storage core

A shallow embedding of the repository's core components and proofs about them:

* `crc32` / `encode_log_record` — the framed record codec of
  `src/include/wal_record.h`, modelled over byte sequences given as `List Nat`
  (each byte `< 256`; casts to `uint8_t`/`uint32_t` are modelled by `% 256` /
  `% 2 ^ 32` exactly where the C++ code performs a cast or relies on a fixed
  width).
* `SkipList` — the probabilistic skip list of `src/include/skiplist.h`.
  Raw `Node*` pointers are modelled as natural-number ids into an explicit
  store (`nodes_storage : List (Nat × Node K V)`), the sentinel head being
  id `0`, and null being `Option.none`.  The pseudo-random promotion draws
  (`dist(rng) < p`) are modelled by an explicit list of booleans handed to
  each insert; `random_level` is translated literally over that coin list.
  Unbounded C++ loops become fuel-bounded recursions returning `Option`;
  the fuel is always sufficient on states satisfying the structural
  invariant, and any undefined behaviour of the C++ (out-of-bounds
  `forward[i]`, dangling pointer dereference) is mapped to `none`.
* `KVStore` — the store engine of `src/include/kv_store.h`: `put`, `get`,
  `del`, `append_wal` (with the three-step write modelled by an oracle of
  three booleans telling which I/O steps succeed) and `replay_wal`.
* `SSTableBuilder` — the sorted-table builder of
  `src/include/sstable_builder.h`, with the produced file modelled as the
  list of bytes written.
-/

set_option autoImplicit false
set_option maxHeartbeats 1000000
set_option linter.unusedSectionVars false

/-! ## Byte-level helpers (little-endian integers) -/

/-- Little-endian encoding of a `uint32_t` value (the C++ code stores
`x` via `memcpy` of a `uint32_t`, i.e. `x % 2^32` in little-endian). -/
def le32 (x : Nat) : List Nat :=
  [x % 256, x / 256 % 256, x / 65536 % 256, x / 16777216 % 256]

/-- Little-endian encoding of a `uint64_t` value. -/
def le64 (x : Nat) : List Nat :=
  [x % 256, x / 2 ^ 8 % 256, x / 2 ^ 16 % 256, x / 2 ^ 24 % 256,
   x / 2 ^ 32 % 256, x / 2 ^ 40 % 256, x / 2 ^ 48 % 256, x / 2 ^ 56 % 256]

/-- Decode the first four bytes of a list as a little-endian `uint32_t`
(reading fewer than four bytes never happens on the paths that use it). -/
def dec32 : List Nat → Nat
  | b0 :: b1 :: b2 :: b3 :: _ => b0 + 256 * b1 + 65536 * b2 + 16777216 * b3
  | _ => 0

/-- Decode the first eight bytes of a list as a little-endian `uint64_t`. -/
def dec64 : List Nat → Nat
  | b0 :: b1 :: b2 :: b3 :: b4 :: b5 :: b6 :: b7 :: _ =>
      b0 + 2 ^ 8 * b1 + 2 ^ 16 * b2 + 2 ^ 24 * b3 + 2 ^ 32 * b4 +
        2 ^ 40 * b5 + 2 ^ 48 * b6 + 2 ^ 56 * b7
  | _ => 0

@[simp] theorem dec32_le32 (x : Nat) (rest : List Nat) :
    dec32 (le32 x ++ rest) = x % 2 ^ 32 := by
  simp only [le32, List.cons_append, List.nil_append, dec32]
  omega

@[simp] theorem le32_length (x : Nat) : (le32 x).length = 4 := rfl

@[simp] theorem le64_length (x : Nat) : (le64 x).length = 8 := rfl

theorem dec64_le64 (x : Nat) (rest : List Nat) (hx : x < 2 ^ 64) :
    dec64 (le64 x ++ rest) = x := by
  simp only [le64, List.cons_append, List.nil_append, dec64]
  omega

theorem le32_eq_of_lt {x : Nat} (y : Nat) (h : y % 2 ^ 32 = x) :
    le32 y = le32 x := by
  simp only [le32, List.cons.injEq, and_true]
  omega

/-! ## CRC-32 (`src/include/wal_record.h`, function `crc32`)

The C++ routine works on `uint32_t`; we model the registers as `Nat` kept
below `2 ^ 32` (proved in `crc32_lt`).  `~crc` on a `uint32_t` is
`crc ^^^ 0xFFFFFFFF`; the mask `-(crc & 1)` is `0xFFFFFFFF` when `crc` is
odd and `0` otherwise. -/

/-- The inner `for (j = 0; j < 8; j++)` loop of `crc32`. -/
def crc32_inner : Nat → Nat → Nat
  | 0, crc => crc
  | j + 1, crc =>
      let mask : Nat := if crc % 2 = 1 then 0xFFFFFFFF else 0
      crc32_inner j ((crc >>> 1) ^^^ (0xEDB88320 &&& mask))

/-- CRC-32 with reflected polynomial `0xEDB88320`, initial value
`0xFFFFFFFF` and final complement, processed byte by byte.  The
`static_cast<uint8_t>` of the C++ is the `% 256`. -/
def crc32 (data : List Nat) : Nat :=
  (data.foldl (fun crc b => crc32_inner 8 (crc ^^^ (b % 256))) 0xFFFFFFFF) ^^^ 0xFFFFFFFF

theorem crc32_inner_lt {crc : Nat} (j : Nat) (h : crc < 2 ^ 32) :
    crc32_inner j crc < 2 ^ 32 := by
  induction j generalizing crc with
  | zero => exact h
  | succ j ih =>
      apply ih
      have h1 : crc >>> 1 < 2 ^ 32 := by
        have : crc >>> 1 = crc / 2 := Nat.shiftRight_one crc
        omega
      have h2 : (0xEDB88320 &&& (if crc % 2 = 1 then 0xFFFFFFFF else 0)) < 2 ^ 32 := by
        have := Nat.and_le_left (n := 0xEDB88320)
          (m := if crc % 2 = 1 then 0xFFFFFFFF else 0)
        omega
      exact Nat.xor_lt_two_pow h1 h2

theorem crc32_lt (data : List Nat) : crc32 data < 2 ^ 32 := by
  unfold crc32
  have h : ∀ (l : List Nat) (a : Nat), a < 2 ^ 32 →
      l.foldl (fun crc b => crc32_inner 8 (crc ^^^ (b % 256))) a < 2 ^ 32 := by
    intro l
    induction l with
    | nil => intro a ha; simpa using ha
    | cons b t ih =>
        intro a ha
        simp only [List.foldl_cons]
        apply ih
        apply crc32_inner_lt
        exact Nat.xor_lt_two_pow ha (by omega)
  exact Nat.xor_lt_two_pow (h _ _ (by norm_num)) (by norm_num)

/-! ## Log records (`src/include/wal_record.h`) -/

/-- `enum class LogType : uint8_t { kPut = 0, kDelete = 1 }`. -/
inductive LogType where
  | kPut
  | kDelete
deriving DecidableEq

/-- The byte value of a `LogType` (`static_cast<uint8_t>(record.type)`). -/
def LogType.toByte : LogType → Nat
  | .kPut => 0
  | .kDelete => 1

/-- A logical WAL record; `key` and `value` are byte strings. -/
structure LogRecord where
  type : LogType
  key : List Nat
  value : List Nat

/-- Assemble one frame: `Checksum (4B) | KeyLen (4B) | ValueLen (4B) |
Kind (1B) | Key | Value`, checksum over everything after itself.  The kind
byte is written through a `uint8_t`, hence `% 256`; the lengths through
`uint32_t` (the `% 2^32` lives inside `le32`).  `encode_log_record` is this
with `kind ∈ {0, 1}`; the general `kind` is used to state what replay does
on frames whose kind byte is out of range. -/
def mkFrame (kind : Nat) (key value : List Nat) : List Nat :=
  let payload := le32 key.length ++ le32 value.length ++ [kind % 256] ++ key ++ value
  le32 (crc32 payload) ++ payload

/-- `encode_log_record` from `wal_record.h`. -/
def encode_log_record (r : LogRecord) : List Nat :=
  mkFrame r.type.toByte r.key r.value

theorem mkFrame_length (kind : Nat) (key value : List Nat) :
    (mkFrame kind key value).length = 13 + key.length + value.length := by
  simp only [mkFrame, List.length_append, le32_length, List.length_cons,
    List.length_nil]
  omega

theorem encode_log_record_length (r : LogRecord) :
    (encode_log_record r).length = 13 + r.key.length + r.value.length :=
  mkFrame_length _ _ _

/-! ## Decimal key encoding and `std::stoi`

`KVStore` writes the integer key as its decimal ASCII representation
(`std::to_string(key)`) and parses it back with `std::stoi` during replay.
`std::stoi` accepts an optional sign followed by decimal digits, ignores
trailing garbage, and fails (`throws`) when no digit is present or the
value does not fit in `int`; the leading-whitespace and `'+'` cases never
arise for engine-produced keys and are not modelled. -/

/-- ASCII digits of `n`, least significant first.  The fuel is an upper
bound on the number of digits; `n` itself is always enough. -/
def digitsRev : Nat → Nat → List Nat
  | 0, _ => []
  | fuel + 1, n => if n = 0 then [] else (48 + n % 10) :: digitsRev fuel (n / 10)

/-- Decimal ASCII representation of a natural number. -/
def natDecimal (n : Nat) : List Nat :=
  if n = 0 then [48] else (digitsRev n n).reverse

/-- `std::to_string` on a C++ `int`, as bytes. -/
def toDecimalBytes (k : Int) : List Nat :=
  if k < 0 then 45 :: natDecimal (-k).toNat else natDecimal k.toNat

/-- Accumulating decimal parse over the leading digits (trailing
non-digit bytes are ignored, as with `std::stoi`). -/
def parseNatAcc : List Nat → Nat → Nat
  | [], acc => acc
  | b :: t, acc =>
      if 48 ≤ b ∧ b ≤ 57 then parseNatAcc t (acc * 10 + (b - 48)) else acc

/-- Whether the list starts with at least one decimal digit
(`std::stoi` throws `invalid_argument` otherwise). -/
def startsWithDigit : List Nat → Bool
  | [] => false
  | b :: _ => decide (48 ≤ b ∧ b ≤ 57)

/-- Model of `std::stoi`: optional minus sign (ASCII 45), leading digits,
range check against the 32-bit `int` bounds; `none` models both
`std::invalid_argument` and `std::out_of_range`. -/
def stoiModel (bytes : List Nat) : Option Int :=
  match bytes with
  | [] => none
  | b :: rest =>
      if b = 45 then
        if startsWithDigit rest then
          let v : Int := -(parseNatAcc rest 0 : Int)
          if -(2 ^ 31) ≤ v then some v else none
        else none
      else
        if startsWithDigit (b :: rest) then
          let v : Int := (parseNatAcc (b :: rest) 0 : Int)
          if v ≤ 2 ^ 31 - 1 then some v else none
        else none

theorem digitsRev_digits {fuel n : Nat} :
    ∀ b ∈ digitsRev fuel n, 48 ≤ b ∧ b ≤ 57 := by
  induction fuel generalizing n with
  | zero => intro b hb; simp [digitsRev] at hb
  | succ fuel ih =>
      intro b hb
      simp only [digitsRev] at hb
      by_cases hn : n = 0
      · simp [hn] at hb
      · simp only [if_neg hn, List.mem_cons] at hb
        rcases hb with hb | hb
        · have : n % 10 < 10 := Nat.mod_lt _ (by norm_num)
          omega
        · exact ih _ hb

theorem parseNatAcc_append_digits {l1 l2 : List Nat}
    (h : ∀ b ∈ l1, 48 ≤ b ∧ b ≤ 57) (acc : Nat) :
    parseNatAcc (l1 ++ l2) acc = parseNatAcc l2 (parseNatAcc l1 acc) := by
  induction l1 generalizing acc with
  | nil => simp [parseNatAcc]
  | cons b t ih =>
      have hb := h b (by simp)
      simp only [List.cons_append, parseNatAcc, if_pos hb]
      exact ih (fun x hx => h x (by simp [hx])) _

theorem parseNatAcc_digitsRev {fuel n : Nat} (hfn : n ≤ fuel) (acc : Nat) :
    parseNatAcc (digitsRev fuel n).reverse acc =
      acc * 10 ^ (digitsRev fuel n).length + n := by
  induction fuel generalizing n acc with
  | zero =>
      have hn0 : n = 0 := by omega
      subst hn0
      simp [digitsRev, parseNatAcc]
  | succ fuel ih =>
      by_cases hn : n = 0
      · simp [digitsRev, hn, parseNatAcc]
      · have hrec : n / 10 ≤ fuel := by omega
        simp only [digitsRev, if_neg hn, List.reverse_cons]
        rw [parseNatAcc_append_digits
          (fun b hb => digitsRev_digits b (List.mem_reverse.mp hb))]
        rw [ih hrec]
        have hd : 48 ≤ 48 + n % 10 ∧ 48 + n % 10 ≤ 57 := by
          have : n % 10 < 10 := Nat.mod_lt _ (by norm_num)
          omega
        simp only [parseNatAcc, if_pos hd, List.length_cons]
        have hmod : 48 + n % 10 - 48 = n % 10 := by omega
        rw [hmod]
        calc (acc * 10 ^ (digitsRev fuel (n / 10)).length + n / 10) * 10 + n % 10
            = acc * (10 ^ (digitsRev fuel (n / 10)).length * 10) +
                (n / 10 * 10 + n % 10) := by ring
          _ = acc * 10 ^ ((digitsRev fuel (n / 10)).length + 1) + n := by
              rw [pow_succ]
              congr 1
              omega

theorem parseNatAcc_natDecimal (n : Nat) :
    parseNatAcc (natDecimal n) 0 = n := by
  unfold natDecimal
  by_cases hn : n = 0
  · simp [hn, parseNatAcc]
  · rw [if_neg hn, parseNatAcc_digitsRev (le_refl n)]
    simp

theorem natDecimal_startsWithDigit (n : Nat) :
    startsWithDigit (natDecimal n) = true := by
  unfold natDecimal
  by_cases hn : n = 0
  · simp [hn, startsWithDigit]
  · rw [if_neg hn]
    have hlen : (digitsRev n n).reverse ≠ [] := by
      simp only [ne_eq, List.reverse_eq_nil_iff]
      cases n with
      | zero => omega
      | succ m => simp [digitsRev]
    rcases List.exists_cons_of_ne_nil hlen with ⟨b, t, hbt⟩
    have hb : b ∈ (digitsRev n n).reverse := by simp [hbt]
    rw [List.mem_reverse] at hb
    have := digitsRev_digits b hb
    simp [hbt, startsWithDigit, this]

theorem natDecimal_digits (n : Nat) : ∀ b ∈ natDecimal n, 48 ≤ b ∧ b ≤ 57 := by
  intro b hb
  unfold natDecimal at hb
  by_cases hn : n = 0
  · simp [hn] at hb; omega
  · rw [if_neg hn, List.mem_reverse] at hb
    exact digitsRev_digits b hb

/-- Round trip: replay's `std::stoi` recovers every key written through
`std::to_string` of a 32-bit `int`. -/
theorem stoiModel_toDecimalBytes (k : Int)
    (hlo : -(2 ^ 31) ≤ k) (hhi : k ≤ 2 ^ 31 - 1) :
    stoiModel (toDecimalBytes k) = some k := by
  unfold toDecimalBytes
  by_cases hk : k < 0
  · rw [if_pos hk]
    simp only [stoiModel, if_pos rfl, natDecimal_startsWithDigit, if_pos trivial,
      parseNatAcc_natDecimal]
    have htn : ((-k).toNat : Int) = -k := Int.toNat_of_nonneg (by omega)
    rw [htn, if_pos (by omega)]
    simp
  · rw [if_neg hk]
    have h0 : (0 : Int) ≤ k := by omega
    rcases hnd : natDecimal k.toNat with _ | ⟨b, t⟩
    · exact absurd hnd (by
        unfold natDecimal
        by_cases hn : k.toNat = 0
        · simp [hn]
        · rw [if_neg hn]
          simp only [ne_eq, List.reverse_eq_nil_iff]
          cases hk2 : k.toNat with
          | zero => omega
          | succ m => simp [digitsRev])
    · have hb : 48 ≤ b ∧ b ≤ 57 := natDecimal_digits k.toNat b (by simp [hnd])
      simp only [stoiModel]
      rw [if_neg (by omega)]
      have hsw := natDecimal_startsWithDigit k.toNat
      rw [hnd] at hsw
      rw [hsw]
      have hparse := parseNatAcc_natDecimal k.toNat
      rw [hnd] at hparse
      simp only [if_pos trivial, hparse]
      have htn : (k.toNat : Int) = k := Int.toNat_of_nonneg h0
      rw [htn, if_pos (by omega)]

/-! ## The skip list (`src/include/skiplist.h`)

`Node<K, V>` carries a key, a value and a `forward` vector of length equal
to the node's height; a pointer is a natural-number id (`0` is the sentinel
head created by the constructor, other ids are handed out by an allocation
counter `next_id`), `none` is the null pointer. -/

/-- `struct Node` of `skiplist.h`.  `forward.length` is the node's height. -/
structure Node (K V : Type) where
  key : K
  value : V
  forward : List (Option Nat)
deriving DecidableEq

/-- `class SkipList` of `skiplist.h`.  `nodes_storage` is the owning store
(`std::vector<std::unique_ptr<Node>>`), keyed by node id. -/
structure SkipList (K V : Type) where
  max_level : Nat
  current_level : Nat
  nodes_storage : List (Nat × Node K V)
  next_id : Nat
deriving DecidableEq

namespace SkipList

variable {K V : Type} [LinearOrder K] [Inhabited K] [Inhabited V]

/-- Dereference a node pointer in the store. -/
def findNode (h : List (Nat × Node K V)) (a : Nat) : Option (Node K V) :=
  match h with
  | [] => none
  | (b, n) :: t => if a = b then some n else findNode t a

/-- Overwrite `forward[i]` of node `a` (the C++ `update[i]->forward[i] = x`). -/
def setFwd (h : List (Nat × Node K V)) (a i : Nat) (x : Option Nat) :
    List (Nat × Node K V) :=
  h.map fun e => if e.1 = a then (e.1, { e.2 with forward := e.2.forward.set i x }) else e

/-- Overwrite the value of node `a` (the in-place update `current->value = value`). -/
def setVal (h : List (Nat × Node K V)) (a : Nat) (v : V) : List (Nat × Node K V) :=
  h.map fun e => if e.1 = a then (e.1, { e.2 with value := v }) else e

/-- The constructor body: sentinel head of height `max_level` holding
default-constructed key and value, `current_level = 1`. -/
def init (max_level : Nat) : SkipList K V :=
  { max_level := max_level
    current_level := 1
    nodes_storage := [(0, ⟨default, default, List.replicate max_level none⟩)]
    next_id := 1 }

/-- The C++ constructor `SkipList(int max_lvl, float prob = 0.5f)` performs
no validation of either parameter; `prob` only seeds the promotion draws,
which this model abstracts into explicit coin lists, so the constructed
state does not depend on it.  `p` is taken as a rational stand-in for the
`float`. -/
def construct (max_lvl : Nat) (p : ℚ) : SkipList K V :=
  let _ := p
  init max_lvl

/-- `random_level()`: starting from 1, promote while the pseudo-random
draw `dist(rng) < p` (one boolean coin per draw) succeeds and
`level < max_level`. -/
def randomGo (max_level : Nat) : Nat → List Bool → Nat
  | level, [] => level
  | level, c :: cs =>
      if c ∧ level < max_level then randomGo max_level (level + 1) cs else level

/-- `random_level` over an explicit list of promotion coins. -/
def random_level (max_level : Nat) (coins : List Bool) : Nat :=
  randomGo max_level 1 coins

/-- The per-level scan `while (current->forward[i] && current->forward[i]->key < key)
current = current->forward[i];`.  Fuel-bounded; a dangling pointer or an
out-of-range `forward[i]` access (undefined behaviour in the C++) or fuel
exhaustion yields `none`. -/
def advance (s : SkipList K V) (key : K) (i : Nat) : Nat → Nat → Option Nat
  | 0, _ => none
  | fuel + 1, cur =>
      match findNode s.nodes_storage cur with
      | none => none
      | some n =>
          match n.forward.get? i with
          | none => none
          | some none => some cur
          | some (some nxt) =>
              match findNode s.nodes_storage nxt with
              | none => none
              | some m =>
                  if m.key < key then advance s key i fuel nxt else some cur

/-- The descending search loop shared by `insert`, `search` and `remove`:
`for (i = current_level - 1; i >= 0; i--) { scan; update[i] = current; }`.
Returns the recorded predecessors (`update[i]` for `i < levels`) and the
final `current` (the level-0 predecessor when `levels ≥ 1`). -/
def descend (s : SkipList K V) (key : K) : Nat → Nat → Option (List Nat × Nat)
  | cur, 0 => some ([], cur)
  | cur, i + 1 =>
      match advance s key i (s.nodes_storage.length + 1) cur with
      | none => none
      | some c =>
          match descend s key c i with
          | none => none
          | some (upd, fin) => some (upd ++ [c], fin)

/-- `update[i]`: levels `[current_level, new_level)` were never written by
the scan, and the C++ fills them with `head`; `upd` has length
`current_level`, so out-of-range reads give the head id `0`. -/
def updAt (upd : List Nat) (i : Nat) : Nat :=
  upd.getD i 0

/-- The splice loop of `insert`:
`for (i = 0; i < new_level; i++) { ptr->forward[i] = update[i]->forward[i];
update[i]->forward[i] = ptr; }`, processing `l` remaining levels starting
at level `i`.  Returns the rewritten store and the new node's forward
list (in level order). -/
def spliceGo (newId : Nat) (upd : List Nat) :
    List (Nat × Node K V) → Nat → Nat → Option (List (Nat × Node K V) × List (Option Nat))
  | heap, _, 0 => some (heap, [])
  | heap, i, l + 1 =>
      match findNode heap (updAt upd i) with
      | none => none
      | some pn =>
          match pn.forward.get? i with
          | none => none
          | some fi =>
              match spliceGo newId upd (setFwd heap (updAt upd i) i (some newId)) (i + 1) l with
              | none => none
              | some (hp, rest) => some (hp, fi :: rest)

/-- Steps 5–8 of `insert` on the fresh-key path: extend `update` with the
head for levels `[current_level, new_level)` (via `updAt`), raise
`current_level`, splice a new node of height `new_level`, and move it into
`nodes_storage` with a fresh id. -/
def spliceNew (s : SkipList K V) (key : K) (value : V) (new_level : Nat)
    (upd : List Nat) : Option (SkipList K V) :=
  match spliceGo s.next_id upd s.nodes_storage 0 new_level with
  | none => none
  | some (hp, fwd) =>
      some { max_level := s.max_level
             current_level := if new_level > s.current_level then new_level else s.current_level
             nodes_storage := hp ++ [(s.next_id, ⟨key, value, fwd⟩)]
             next_id := s.next_id + 1 }

/-- `insert` with the drawn level made explicit (the C++ draws it from the
RNG after the existing-key check; drawing it eagerly is equivalent since
the update path ignores it).  Returns the new state; the C++ `bool` result
is `true` on every path and is omitted. -/
def insertCore (s : SkipList K V) (key : K) (value : V) (new_level : Nat) :
    Option (SkipList K V) :=
  match descend s key 0 s.current_level with
  | none => none
  | some (upd, cur) =>
      match findNode s.nodes_storage cur with
      | none => none
      | some cn =>
          match cn.forward.get? 0 with
          | none => none
          | some (some t) =>
              match findNode s.nodes_storage t with
              | none => none
              | some tn =>
                  if tn.key = key then
                    some { s with nodes_storage := setVal s.nodes_storage t value }
                  else spliceNew s key value new_level upd
          | some none => spliceNew s key value new_level upd

/-- `SkipList::insert`, with the `random_level()` draws supplied as coins. -/
def insert (s : SkipList K V) (key : K) (value : V) (coins : List Bool) :
    Option (SkipList K V) :=
  insertCore s key value (random_level s.max_level coins)

/-- `SkipList::search`: the same descending scan (without the recorded
`update` array, which it does not use), then one step at level 0. -/
def search (s : SkipList K V) (key : K) : Option (Option V) :=
  match descend s key 0 s.current_level with
  | none => none
  | some (_, cur) =>
      match findNode s.nodes_storage cur with
      | none => none
      | some cn =>
          match cn.forward.get? 0 with
          | none => none
          | some none => some none
          | some (some t) =>
              match findNode s.nodes_storage t with
              | none => none
              | some tn => some (if tn.key = key then some tn.value else none)

/-- The unlink loop of `remove`:
`for (i = 0; i < current_level; i++) if (update[i]->forward[i] == target)
update[i]->forward[i] = target->forward[i];`. -/
def unlinkGo (t : Nat) (upd : List Nat) :
    List (Nat × Node K V) → Nat → Nat → Option (List (Nat × Node K V))
  | heap, _, 0 => some heap
  | heap, i, l + 1 =>
      match findNode heap (updAt upd i) with
      | none => none
      | some pn =>
          match pn.forward.get? i with
          | none => none
          | some fi =>
              if fi = some t then
                match findNode heap t with
                | none => none
                | some tn =>
                    match tn.forward.get? i with
                    | none => none
                    | some tf => unlinkGo t upd (setFwd heap (updAt upd i) i tf) (i + 1) l
              else unlinkGo t upd heap (i + 1) l

/-- The level-shrink loop of `remove`:
`while (current_level > 1 && head->forward[current_level - 1] == nullptr)
--current_level;`. -/
def shrinkLevel (heap : List (Nat × Node K V)) : Nat → Nat
  | 0 => 0
  | 1 => 1
  | n + 2 =>
      match findNode heap 0 with
      | none => n + 2
      | some hn =>
          match hn.forward.get? (n + 1) with
          | some none => shrinkLevel heap (n + 1)
          | _ => n + 2

/-- `SkipList::remove`: descend, test the level-0 successor, unlink,
shrink `current_level`, erase the node from `nodes_storage`. -/
def remove (s : SkipList K V) (key : K) : Option (SkipList K V × Bool) :=
  match descend s key 0 s.current_level with
  | none => none
  | some (upd, cur) =>
      match findNode s.nodes_storage cur with
      | none => none
      | some cn =>
          match cn.forward.get? 0 with
          | none => none
          | some none => some (s, false)
          | some (some t) =>
              match findNode s.nodes_storage t with
              | none => none
              | some tn =>
                  if tn.key ≠ key then some (s, false)
                  else
                    match unlinkGo t upd s.nodes_storage 0 s.current_level with
                    | none => none
                    | some hp =>
                        some ({ s with
                                current_level := shrinkLevel hp s.current_level
                                nodes_storage := hp.filter fun e => e.1 ≠ t }, true)

end SkipList

/-! ## The skip-list structural invariant

The invariant is the local successor law of the specification: for every
node `n` (the head acting as key `-∞` via `WithBot`) and every level
`i < height n`, the slot `n.forward[i]` is null exactly when no node of
height `> i` has a key above `n`, and otherwise points to the least such
node.  Together with bookkeeping facts (unique ids, unique keys, head of
height `max_level`, heights bounded by `current_level`) this determines
the whole pointer structure from the key/height multiset. -/

namespace SkipList

variable {K V : Type} [LinearOrder K] [Inhabited K] [Inhabited V]

/-- The key of a store entry as seen by the ordering (head = `⊥`). -/
def ekey (e : Nat × Node K V) : WithBot K :=
  if e.1 = 0 then ⊥ else (e.2.key : WithBot K)

/-- `e` is a candidate at level `i`: a user node of height `> i`. -/
def cand (i : Nat) (e : Nat × Node K V) : Prop :=
  e.1 ≠ 0 ∧ i < e.2.forward.length

/-- The successor law for a single forward slot with lower key `lo`. -/
def slotLaw (nodes : List (Nat × Node K V)) (lo : WithBot K) (i : Nat) :
    Option (Option Nat) → Prop
  | none => True
  | some none => ∀ f ∈ nodes, cand i f → ¬ lo < (f.2.key : WithBot K)
  | some (some b) => ∃ nb, findNode nodes b = some nb ∧ b ≠ 0 ∧ i < nb.forward.length ∧
      lo < (nb.key : WithBot K) ∧
      ∀ f ∈ nodes, cand i f → lo < (f.2.key : WithBot K) → nb.key ≤ f.2.key

/-- The structural invariant of a skip-list state. -/
structure Inv (s : SkipList K V) : Prop where
  ids_nodup : (s.nodes_storage.map Prod.fst).Nodup
  ids_lt : ∀ e ∈ s.nodes_storage, e.1 < s.next_id
  head_mem : ∃ hn, findNode s.nodes_storage 0 = some hn ∧ hn.forward.length = s.max_level
  one_le : 1 ≤ s.current_level
  cur_le : s.current_level ≤ s.max_level
  height_le : ∀ e ∈ s.nodes_storage, e.1 ≠ 0 →
    1 ≤ e.2.forward.length ∧ e.2.forward.length ≤ s.current_level
  keys_inj : ∀ e ∈ s.nodes_storage, ∀ f ∈ s.nodes_storage,
    e.1 ≠ 0 → f.1 ≠ 0 → e.2.key = f.2.key → e = f
  law : ∀ e ∈ s.nodes_storage, ∀ i, slotLaw s.nodes_storage (ekey e) i (e.2.forward.get? i)

/-! ### Store lookup lemmas -/

theorem findNode_mem {h : List (Nat × Node K V)} {a : Nat} {n : Node K V}
    (hf : findNode h a = some n) : (a, n) ∈ h := by
  induction h with
  | nil => simp [findNode] at hf
  | cons e t ih =>
      rcases e with ⟨b, m⟩
      simp only [findNode] at hf
      by_cases hab : a = b
      · rw [if_pos hab] at hf
        cases hf
        simp [hab]
      · rw [if_neg hab] at hf
        exact List.mem_cons_of_mem _ (ih hf)

theorem findNode_eq_none {h : List (Nat × Node K V)} {a : Nat}
    (ha : a ∉ h.map Prod.fst) : findNode h a = none := by
  induction h with
  | nil => rfl
  | cons e t ih =>
      simp only [List.map_cons, List.mem_cons, not_or] at ha
      simp only [findNode, if_neg ha.1]
      exact ih ha.2

theorem findNode_isSome_of_mem {h : List (Nat × Node K V)} {a : Nat} {n : Node K V}
    (hm : (a, n) ∈ h) : ∃ n', findNode h a = some n' := by
  induction h with
  | nil => simp at hm
  | cons e t ih =>
      rcases e with ⟨b, m⟩
      by_cases hab : a = b
      · exact ⟨m, by simp [findNode, hab]⟩
      · simp only [List.mem_cons, Prod.mk.injEq] at hm
        rcases hm with ⟨h1, _⟩ | hm
        · exact absurd h1 hab
        · rcases ih hm with ⟨n', hn'⟩
          exact ⟨n', by simp [findNode, hab, hn']⟩

theorem mem_findNode {h : List (Nat × Node K V)} (hnd : (h.map Prod.fst).Nodup)
    {a : Nat} {n : Node K V} (hm : (a, n) ∈ h) : findNode h a = some n := by
  induction h with
  | nil => simp at hm
  | cons e t ih =>
      rcases e with ⟨b, m⟩
      simp only [List.map_cons, List.nodup_cons] at hnd
      simp only [List.mem_cons, Prod.mk.injEq] at hm
      rcases hm with ⟨h1, h2⟩ | hm
      · simp [findNode, h1, h2]
      · have hab : a ≠ b := by
          intro hab
          exact hnd.1 (by
            subst hab
            exact List.mem_map_of_mem Prod.fst hm)
        simp only [findNode, if_neg hab]
        exact ih hnd.2 hm

/-- `findNode` through a single-slot forward rewrite. -/
theorem findNode_setFwd (h : List (Nat × Node K V)) (a i : Nat) (x : Option Nat) (b : Nat) :
    findNode (setFwd h a i x) b =
      (findNode h b).map fun n =>
        if b = a then { n with forward := n.forward.set i x } else n := by
  induction h with
  | nil => simp [findNode, setFwd]
  | cons e t ih =>
      rcases e with ⟨c, m⟩
      by_cases hca : c = a
      · subst hca
        have hrw : setFwd ((c, m) :: t) c i x =
            (c, { m with forward := m.forward.set i x }) :: setFwd t c i x := by
          simp [setFwd]
        rw [hrw]
        by_cases hbc : b = c
        · simp [findNode, hbc]
        · simp only [findNode, if_neg hbc]
          rw [ih]
          simp [hbc]
      · have hrw : setFwd ((c, m) :: t) a i x = (c, m) :: setFwd t a i x := by
          simp [setFwd, hca]
        rw [hrw]
        by_cases hbc : b = c
        · subst hbc
          simp [findNode, hca]
        · simp only [findNode, if_neg hbc]
          exact ih

/-- `findNode` through an in-place value overwrite. -/
theorem findNode_setVal (h : List (Nat × Node K V)) (a : Nat) (v : V) (b : Nat) :
    findNode (setVal h a v) b =
      (findNode h b).map fun n => if b = a then { n with value := v } else n := by
  induction h with
  | nil => simp [findNode, setVal]
  | cons e t ih =>
      rcases e with ⟨c, m⟩
      by_cases hca : c = a
      · subst hca
        have hrw : setVal ((c, m) :: t) c v =
            (c, { m with value := v }) :: setVal t c v := by
          simp [setVal]
        rw [hrw]
        by_cases hbc : b = c
        · simp [findNode, hbc]
        · simp only [findNode, if_neg hbc]
          rw [ih]
          simp [hbc]
      · have hrw : setVal ((c, m) :: t) a v = (c, m) :: setVal t a v := by
          simp [setVal, hca]
        rw [hrw]
        by_cases hbc : b = c
        · subst hbc
          simp [findNode, hca]
        · simp only [findNode, if_neg hbc]
          exact ih

@[simp] theorem setFwd_map_fst (h : List (Nat × Node K V)) (a i : Nat) (x : Option Nat) :
    (setFwd h a i x).map Prod.fst = h.map Prod.fst := by
  simp only [setFwd, List.map_map]
  apply List.map_congr_left
  intro e _
  by_cases hea : e.1 = a <;> simp [hea]

@[simp] theorem setVal_map_fst (h : List (Nat × Node K V)) (a : Nat) (v : V) :
    (setVal h a v).map Prod.fst = h.map Prod.fst := by
  simp only [setVal, List.map_map]
  apply List.map_congr_left
  intro e _
  by_cases hea : e.1 = a <;> simp [hea]

/-- `findNode` over an appended store. -/
theorem findNode_append (h1 h2 : List (Nat × Node K V)) (a : Nat) :
    findNode (h1 ++ h2) a =
      match findNode h1 a with
      | some n => some n
      | none => findNode h2 a := by
  induction h1 with
  | nil => simp [findNode]
  | cons e t ih =>
      rcases e with ⟨b, m⟩
      by_cases hab : a = b
      · simp [findNode, hab]
      · simp only [List.cons_append, findNode, if_neg hab]
        exact ih

/-- `findNode` over a store with the entries of id `t` erased. -/
theorem findNode_filter_ne (h : List (Nat × Node K V)) (t a : Nat) :
    findNode (h.filter fun e => e.1 ≠ t) a =
      if a = t then none else findNode h a := by
  induction h with
  | nil => simp [findNode]
  | cons e t' ih =>
      rcases e with ⟨b, m⟩
      by_cases hbt : b = t
      · subst hbt
        rw [List.filter_cons_of_neg (by simp)]
        rw [ih]
        by_cases hab : a = b
        · simp [hab]
        · simp [findNode, hab]
      · rw [List.filter_cons_of_pos (by simp [hbt])]
        by_cases hab : a = b
        · subst hab
          simp [findNode, if_neg hbt]
        · simp only [findNode, if_neg hab]
          exact ih

/-! ### Predecessors and the scan lemmas -/

/-- The key at a pointer (head and dangling ids give `⊥`; dangling ids
never occur under `Inv`). -/
def ekeyA (s : SkipList K V) (a : Nat) : WithBot K :=
  if a = 0 then ⊥
  else
    match findNode s.nodes_storage a with
    | some n => (n.key : WithBot K)
    | none => ⊥

/-- A valid scan position at level `i`: the head, or a live node of
height `> i`. -/
def Pos (s : SkipList K V) (i a : Nat) : Prop :=
  a = 0 ∨ ∃ n, findNode s.nodes_storage a = some n ∧ i < n.forward.length

/-- `a` is the level-`i` predecessor of `key`: a valid position whose key
is below `key`, dominating every level-`i` candidate below `key`. -/
def IsPred (s : SkipList K V) (key : K) (i a : Nat) : Prop :=
  Pos s i a ∧ ekeyA s a < (key : WithBot K) ∧
    ∀ f ∈ s.nodes_storage, cand i f → (f.2.key : WithBot K) < (key : WithBot K) →
      (f.2.key : WithBot K) ≤ ekeyA s a

/-- Number of stored nodes with key strictly above `lo`; the strict
measure of the per-level scan. -/
def countAbove (s : SkipList K V) (lo : WithBot K) : Nat :=
  s.nodes_storage.countP fun e => decide (lo < (e.2.key : WithBot K))

theorem countAbove_le (s : SkipList K V) (lo : WithBot K) :
    countAbove s lo ≤ s.nodes_storage.length :=
  List.countP_le_length _

theorem countP_lt_of {α : Type} (l : List α) (p q : α → Bool)
    (himp : ∀ x ∈ l, p x = true → q x = true)
    (x : α) (hx : x ∈ l) (hqx : q x = true) (hpx : ¬ p x = true) :
    l.countP p < l.countP q := by
  rcases List.append_of_mem hx with ⟨l1, l2, rfl⟩
  have h1 : l1.countP p ≤ l1.countP q :=
    List.countP_mono_left fun a ha => himp a (by simp [ha])
  have h2 : l2.countP p ≤ l2.countP q :=
    List.countP_mono_left fun a ha => himp a (by simp [ha])
  have hpf : p x = false := by simpa using hpx
  simp [List.countP_append, List.countP_cons, hqx, hpf]
  omega

theorem pos_mono {s : SkipList K V} {i j a : Nat} (hji : j ≤ i) (h : Pos s i a) :
    Pos s j a := by
  rcases h with h | ⟨n, hn, hlen⟩
  · exact Or.inl h
  · exact Or.inr ⟨n, hn, lt_of_le_of_lt hji hlen⟩

theorem pos_of_isPred {s : SkipList K V} {key : K} {i a : Nat} (h : IsPred s key i a) :
    Pos s i a := h.1

theorem ekeyA_zero (s : SkipList K V) : ekeyA s 0 = ⊥ := by simp [ekeyA]

theorem ekeyA_of_findNode {s : SkipList K V} {a : Nat} {n : Node K V}
    (ha : a ≠ 0) (h : findNode s.nodes_storage a = some n) :
    ekeyA s a = (n.key : WithBot K) := by
  simp [ekeyA, ha, h]

theorem ekey_eq_ekeyA {s : SkipList K V} {a : Nat} {n : Node K V}
    (h : findNode s.nodes_storage a = some n) : ekey (a, n) = ekeyA s a := by
  by_cases ha : a = 0
  · subst ha; simp [ekey, ekeyA]
  · simp [ekey, ekeyA, ha, h]

/-- The head is the level-`j` predecessor of every key once `j` reaches
`current_level` (no node is that tall). -/
theorem isPred_head_of_level_ge {s : SkipList K V} (hInv : Inv s) (target : K)
    {j : Nat} (hj : s.current_level ≤ j) : IsPred s target j 0 := by
  refine ⟨Or.inl rfl, ?_, ?_⟩
  · rw [ekeyA_zero]
    exact WithBot.bot_lt_coe target
  · intro f hf hc _
    exact absurd (lt_of_le_of_lt hj hc.2) (not_lt.mpr ((hInv.height_le f hf hc.1).2))

/-- Correctness and termination of the per-level scan: starting from any
valid position below `target` with enough fuel, `advance` lands on the
level-`i` predecessor of `target`. -/
theorem advance_spec {s : SkipList K V} (hInv : Inv s) (target : K) {i : Nat}
    (hi : i < s.max_level) :
    ∀ (fuel : Nat) (a : Nat), Pos s i a → ekeyA s a < (target : WithBot K) →
      countAbove s (ekeyA s a) < fuel →
      ∃ b, advance s target i fuel a = some b ∧ IsPred s target i b := by
  intro fuel
  induction fuel with
  | zero => intro a _ _ hcnt; omega
  | succ fuel ih =>
      intro a hpos hlt hcnt
      obtain ⟨n, hfind, hilen⟩ :
          ∃ n, findNode s.nodes_storage a = some n ∧ i < n.forward.length := by
        rcases hpos with rfl | ⟨n, hn, hlen⟩
        · rcases hInv.head_mem with ⟨hn, hfind, hlen⟩
          exact ⟨hn, hfind, by omega⟩
        · exact ⟨n, hn, hlen⟩
      have hmem : (a, n) ∈ s.nodes_storage := findNode_mem hfind
      have hekey : ekey (a, n) = ekeyA s a := ekey_eq_ekeyA hfind
      have hlaw := hInv.law (a, n) hmem i
      have hget : n.forward.get? i = some (n.forward.get ⟨i, hilen⟩) :=
        List.get?_eq_get hilen
      rw [hget, hekey] at hlaw
      rcases hx : n.forward.get ⟨i, hilen⟩ with _ | b
      · -- null link: `a` is already the predecessor
        rw [hx] at hlaw
        simp only [slotLaw] at hlaw
        refine ⟨a, ?_, hpos, hlt, ?_⟩
        · simp only [advance, hfind, hget, hx]
        · intro f hf hc hkf
          by_contra hcon
          exact (hlaw f hf hc) (lt_of_not_le hcon)
      · rw [hx] at hlaw
        simp only [slotLaw] at hlaw
        rcases hlaw with ⟨nb, hfb, hb0, hblen, hbgt, hbmin⟩
        by_cases hkb : nb.key < target
        · -- keep scanning from `b`
          have hekb : ekeyA s b = (nb.key : WithBot K) := ekeyA_of_findNode hb0 hfb
          have hcnt' : countAbove s (ekeyA s b) < fuel := by
            have hstep : countAbove s (ekeyA s b) < countAbove s (ekeyA s a) := by
              apply countP_lt_of _ _ _ ?_ (b, nb) (findNode_mem hfb) ?_ ?_
              · intro x _ hpx
                rw [decide_eq_true_eq] at hpx ⊢
                exact lt_trans hbgt (hekb ▸ hpx)
              · rw [decide_eq_true_eq]
                exact hbgt
              · rw [decide_eq_true_eq, hekb]
                exact lt_irrefl _
            omega
          have := ih b (Or.inr ⟨nb, hfb, hblen⟩)
            (by rw [hekb]; exact WithBot.coe_lt_coe.mpr hkb) hcnt'
          rcases this with ⟨c, hc, hcpred⟩
          refine ⟨c, ?_, hcpred⟩
          simp only [advance, hfind, hget, hx, hfb, if_pos hkb]
          exact hc
        · -- successor is at or past `target`: `a` is the predecessor
          refine ⟨a, ?_, hpos, hlt, ?_⟩
          · simp only [advance, hfind, hget, hx, hfb, if_neg hkb]
          · intro f hf hc hkf
            by_contra hcon
            have hle := hbmin f hf hc (lt_of_not_le hcon)
            have : (nb.key : WithBot K) < (target : WithBot K) :=
              lt_of_le_of_lt (WithBot.coe_le_coe.mpr hle) hkf
            exact hkb (WithBot.coe_lt_coe.mp this)

theorem updAt_append_lt {upd : List Nat} {c : Nat} {j : Nat} (h : j < upd.length) :
    updAt (upd ++ [c]) j = updAt upd j := by
  simp only [updAt, List.getD]
  rw [List.get?_append h]

theorem updAt_append_eq (upd : List Nat) (c : Nat) :
    updAt (upd ++ [c]) upd.length = c := by
  simp only [updAt, List.getD]
  rw [List.get?_append_right (le_refl upd.length)]
  simp

theorem updAt_ge {upd : List Nat} {j : Nat} (h : upd.length ≤ j) : updAt upd j = 0 := by
  simp only [updAt, List.getD]
  rw [List.get?_eq_none.mpr h]
  rfl

/-- Correctness of the full descending scan: descending from a valid
position (in particular from the head at `current_level`) produces the
per-level predecessors of `target` in `update` and leaves `current` at
the level-0 predecessor. -/
theorem descend_spec {s : SkipList K V} (hInv : Inv s) (target : K) :
    ∀ (i : Nat), i ≤ s.current_level → ∀ a, Pos s i a →
      ekeyA s a < (target : WithBot K) →
      ∃ upd fin, descend s target a i = some (upd, fin) ∧ upd.length = i ∧
        (∀ j, j < i → IsPred s target j (updAt upd j)) ∧
        ((i = 0 ∧ fin = a) ∨ (1 ≤ i ∧ fin = updAt upd 0)) := by
  intro i
  induction i with
  | zero =>
      intro _ a hpos hlt
      exact ⟨[], a, rfl, rfl, by omega, Or.inl ⟨rfl, rfl⟩⟩
  | succ i ih =>
      intro hle a hpos hlt
      have hi : i < s.max_level := by
        have := hInv.cur_le
        omega
      obtain ⟨c, hc, hcpred⟩ := advance_spec hInv target hi (s.nodes_storage.length + 1)
        a (pos_mono (by omega) hpos) hlt
        (by have := countAbove_le s (ekeyA s a); omega)
      obtain ⟨upd, fin, hd, hlen, hpreds, hfin⟩ :=
        ih (by omega) c (pos_of_isPred hcpred) hcpred.2.1
      refine ⟨upd ++ [c], fin, ?_, ?_, ?_, ?_⟩
      · simp only [descend, hc, hd]
      · simp [hlen]
      · intro j hj
        by_cases hji : j < i
        · rw [updAt_append_lt (by omega)]
          exact hpreds j hji
        · have hjeq : j = i := by omega
          subst hjeq
          have hrw := updAt_append_eq upd c
          rw [hlen] at hrw
          rw [hrw]
          exact hcpred
      · refine Or.inr ⟨by omega, ?_⟩
        rcases hfin with ⟨hi0, hfa⟩ | ⟨hi1, hfu⟩
        · subst hfa
          have hnil : upd = [] := List.length_eq_zero.mp (by omega)
          subst hnil
          simp [updAt]
        · subst hfu
          rw [updAt_append_lt (by omega)]

/-! ### The splice loop of `insert` -/

theorem get?_set_self {A : Type} (l : List A) (i : Nat) (x : A) :
    (l.set i x).get? i = (l.get? i).map fun _ => x := by
  induction l generalizing i with
  | nil => rfl
  | cons a t ih =>
      cases i with
      | zero => rfl
      | succ i => exact ih i

theorem get?_set_other {A : Type} (l : List A) (i j : Nat) (x : A) (h : i ≠ j) :
    (l.set i x).get? j = l.get? j := by
  induction l generalizing i j with
  | nil => rfl
  | cons a t ih =>
      cases i with
      | zero =>
          cases j with
          | zero => exact absurd rfl h
          | succ j => rfl
      | succ i =>
          cases j with
          | zero => rfl
          | succ j => exact ih i j (fun hc => h (by omega))

/-- The forward slot of the node `a` at level `j`, read through the store. -/
def fwdAt (heap : List (Nat × Node K V)) (a j : Nat) : Option (Option Nat) :=
  match findNode heap a with
  | none => none
  | some n => n.forward.get? j

theorem fwdAt_setFwd_ne (heap : List (Nat × Node K V)) (a i : Nat) (x : Option Nat)
    (b j : Nat) (h : j ≠ i) : fwdAt (setFwd heap a i x) b j = fwdAt heap b j := by
  unfold fwdAt
  rw [findNode_setFwd]
  rcases hf : findNode heap b with _ | n
  · rfl
  · rw [Option.map_some']
    show (if b = a then { n with forward := n.forward.set i x } else n).forward.get? j =
      n.forward.get? j
    by_cases hba : b = a
    · rw [if_pos hba]
      exact get?_set_other _ _ _ _ (fun hc => h hc.symm)
    · rw [if_neg hba]

theorem length_preserved_set (l : List (Option Nat)) (i : Nat) (x : Option Nat) :
    (l.set i x).length = l.length := List.length_set ..

/-- Full characterization of the splice loop: it succeeds whenever every
`update[j]` (for the processed levels) is live with height `> j`; the
collected forward list holds the pre-splice successors, and the store is
rewritten exactly at the slots `(update[j], j)`, which now point to the
new node. -/
theorem spliceGo_spec (newId : Nat) (upd : List Nat) :
    ∀ (l i : Nat) (heap : List (Nat × Node K V)),
      (∀ j, i ≤ j → j < i + l →
        ∃ pn, findNode heap (updAt upd j) = some pn ∧ j < pn.forward.length) →
      ∃ hp F, spliceGo newId upd heap i l = some (hp, F) ∧ F.length = l ∧
        (∀ jj, jj < l → F.get? jj = fwdAt heap (updAt upd (i + jj)) (i + jj)) ∧
        hp.map Prod.fst = heap.map Prod.fst ∧
        (∀ b, findNode heap b = none → findNode hp b = none) ∧
        (∀ b n, findNode heap b = some n →
          ∃ n', findNode hp b = some n' ∧ n'.key = n.key ∧ n'.value = n.value ∧
            n'.forward.length = n.forward.length ∧
            ∀ j, n'.forward.get? j =
              if i ≤ j ∧ j < i + l ∧ updAt upd j = b then
                (n.forward.get? j).map fun _ => some newId
              else n.forward.get? j) := by
  intro l
  induction l with
  | zero =>
      intro i heap _
      refine ⟨heap, [], rfl, rfl, by omega, rfl, fun b h => h, ?_⟩
      intro b n hbn
      refine ⟨n, hbn, rfl, rfl, rfl, ?_⟩
      intro j
      rw [if_neg (by omega)]
  | succ l ih =>
      intro i heap hpre
      obtain ⟨pn, hpn, hplen⟩ := hpre i (le_refl i) (by omega)
      have hget : pn.forward.get? i = some (pn.forward.get ⟨i, hplen⟩) :=
        List.get?_eq_get hplen
      set fi := pn.forward.get ⟨i, hplen⟩ with hfi
      set heap1 := setFwd heap (updAt upd i) i (some newId) with hheap1
      have hpre1 : ∀ j, i + 1 ≤ j → j < i + 1 + l →
          ∃ pn, findNode heap1 (updAt upd j) = some pn ∧ j < pn.forward.length := by
        intro j hj1 hj2
        obtain ⟨pj, hpj, hpjlen⟩ := hpre j (by omega) (by omega)
        rw [hheap1, findNode_setFwd, hpj]
        by_cases hc : updAt upd j = updAt upd i
        · exact ⟨_, by rw [Option.map_some', if_pos hc],
            by simpa [List.length_set] using hpjlen⟩
        · exact ⟨_, by rw [Option.map_some', if_neg hc], hpjlen⟩
      obtain ⟨hp, F', hrun, hFlen, hFval, hids, hnone, hpatch⟩ := ih (i + 1) heap1 hpre1
      refine ⟨hp, fi :: F', ?_, by simp [hFlen], ?_, ?_, ?_, ?_⟩
      · simp only [spliceGo, hpn, hget, ← hheap1, hrun]
      · intro jj hjj
        cases jj with
        | zero =>
            simp only [List.get?, fwdAt, Nat.add_zero, hpn]
            exact hget.symm
        | succ jj =>
            simp only [List.get?]
            rw [hFval jj (by omega)]
            have harith : i + 1 + jj = i + (jj + 1) := by omega
            rw [← harith, hheap1, fwdAt_setFwd_ne _ _ _ _ _ _ (by omega)]
      · rw [hids, hheap1, setFwd_map_fst]
      · intro b hb
        apply hnone
        rw [hheap1, findNode_setFwd, hb]
        rfl
      · intro b n hbn
        have hb1 : findNode heap1 b =
            some (if b = updAt upd i then { n with forward := n.forward.set i (some newId) } else n) := by
          rw [hheap1, findNode_setFwd, hbn]
          by_cases hc : b = updAt upd i
          · rw [Option.map_some', if_pos hc]
          · rw [Option.map_some', if_neg hc]
        obtain ⟨n', hn', hkey, hval, hlen', hslots⟩ := hpatch b _ hb1
        refine ⟨n', hn', ?_, ?_, ?_, ?_⟩
        · rw [hkey]; by_cases hc : b = updAt upd i <;> simp [hc]
        · rw [hval]; by_cases hc : b = updAt upd i <;> simp [hc]
        · rw [hlen']; by_cases hc : b = updAt upd i <;> simp [hc, List.length_set]
        · intro j
          rw [hslots j]
          have hn1 : (if b = updAt upd i then
              { n with forward := n.forward.set i (some newId) } else n).forward.get? j =
              if j = i ∧ b = updAt upd i then (n.forward.get? j).map (fun _ => some newId)
              else n.forward.get? j := by
            by_cases hc : b = updAt upd i
            · rw [if_pos hc]
              by_cases hji : j = i
              · subst hji
                rw [if_pos ⟨rfl, hc⟩]
                exact get?_set_self ..
              · rw [if_neg (fun hx => hji hx.1)]
                exact get?_set_other _ _ _ _ (fun h2 => hji h2.symm)
            · rw [if_neg hc, if_neg (fun hx => hc hx.2)]
          by_cases hcond1 : i + 1 ≤ j ∧ j < i + 1 + l ∧ updAt upd j = b
          · rw [if_pos hcond1, hn1, if_neg (fun hx => by omega),
              if_pos ⟨by omega, by omega, hcond1.2.2⟩]
          · rw [if_neg hcond1, hn1]
            by_cases hji : j = i ∧ b = updAt upd i
            · rw [if_pos hji, if_pos ⟨by omega, by omega, by rw [hji.1]; exact hji.2.symm⟩]
            · rw [if_neg hji, if_neg ?_]
              rintro ⟨h1, h2, h3⟩
              by_cases hj : j = i
              · rw [hj] at h3
                exact hji ⟨hj, h3.symm⟩
              · exact hcond1 ⟨by omega, by omega, h3⟩

/-! ### The key/value abstraction -/

/-- The store maps `k` to `v`: some user node carries that pair.  Under
`Inv` this relation is functional in `k` (`mapsTo_unique`). -/
def MapsTo (s : SkipList K V) (k : K) (v : V) : Prop :=
  ∃ a n, (a, n) ∈ s.nodes_storage ∧ a ≠ 0 ∧ n.key = k ∧ n.value = v

theorem entry_eq_of_mem {s : SkipList K V} (hInv : Inv s) {a : Nat} {n n' : Node K V}
    (h1 : (a, n) ∈ s.nodes_storage) (h2 : (a, n') ∈ s.nodes_storage) : n = n' := by
  have e1 := mem_findNode hInv.ids_nodup h1
  have e2 := mem_findNode hInv.ids_nodup h2
  rw [e1] at e2
  exact Option.some.inj e2

theorem mapsTo_unique {s : SkipList K V} (hInv : Inv s) {k : K} {v v' : V}
    (h1 : MapsTo s k v) (h2 : MapsTo s k v') : v = v' := by
  obtain ⟨a, n, hm, ha, hk, hv⟩ := h1
  obtain ⟨a', n', hm', ha', hk', hv'⟩ := h2
  have hef := hInv.keys_inj (a, n) hm (a', n') hm' ha ha' (by rw [hk, hk'])
  rw [Prod.mk.injEq] at hef
  rw [← hv, ← hv', hef.2]

/-- The head of a state satisfying the invariant. -/
theorem head_node {s : SkipList K V} (hInv : Inv s) :
    ∃ hn, findNode s.nodes_storage 0 = some hn ∧ hn.forward.length = s.max_level :=
  hInv.head_mem

/-- The full scan from the head, with the predecessor array extended by
the head to all levels below `max_level` (as `insert` does for levels in
`[current_level, new_level)`). -/
theorem descend_full {s : SkipList K V} (hInv : Inv s) (key : K) :
    ∃ upd fin cn, descend s key 0 s.current_level = some (upd, fin) ∧
      upd.length = s.current_level ∧
      (∀ j, j < s.max_level → IsPred s key j (updAt upd j)) ∧
      IsPred s key 0 fin ∧ findNode s.nodes_storage fin = some cn ∧
      0 < cn.forward.length := by
  obtain ⟨upd, fin, hrun, hlen, hpreds, hfin⟩ :=
    descend_spec hInv key s.current_level (le_refl _) 0 (Or.inl rfl)
      (by rw [ekeyA_zero]; exact WithBot.bot_lt_coe key)
  have hfp : IsPred s key 0 fin := by
    rcases hfin with ⟨h0, _⟩ | ⟨_, hfu⟩
    · exact absurd h0 (by have := hInv.one_le; omega)
    · rw [hfu]
      exact hpreds 0 hInv.one_le
  obtain ⟨cn, hcn, hclen⟩ :
      ∃ cn, findNode s.nodes_storage fin = some cn ∧ 0 < cn.forward.length := by
    rcases hfp.1 with rfl | ⟨n, hn, hnl⟩
    · obtain ⟨hn, hfindh, hhl⟩ := head_node hInv
      refine ⟨hn, hfindh, ?_⟩
      rw [hhl]
      have := hInv.one_le
      have := hInv.cur_le
      omega
    · exact ⟨n, hn, by omega⟩
  refine ⟨upd, fin, cn, hrun, hlen, ?_, hfp, hcn, hclen⟩
  intro j hj
  by_cases hjc : j < s.current_level
  · exact hpreds j hjc
  · rw [updAt_ge (by omega)]
    exact isPred_head_of_level_ge hInv key (by omega)

/-- Reading the level-0 successor of the level-0 predecessor. -/
theorem zero_succ {s : SkipList K V} (hInv : Inv s) {key : K} {fin : Nat} {cn : Node K V}
    (hpred : IsPred s key 0 fin) (hcn : findNode s.nodes_storage fin = some cn)
    (hclen : 0 < cn.forward.length) :
    ∃ x, cn.forward.get? 0 = some x ∧ slotLaw s.nodes_storage (ekeyA s fin) 0 (some x) := by
  have hget : cn.forward.get? 0 = some (cn.forward.get ⟨0, hclen⟩) := List.get?_eq_get hclen
  refine ⟨cn.forward.get ⟨0, hclen⟩, hget, ?_⟩
  have := hInv.law (fin, cn) (findNode_mem hcn) 0
  rw [hget, ekey_eq_ekeyA hcn] at this
  exact this

/-- If the level-0 successor of the predecessor is null, `key` is absent. -/
theorem keyFree_of_succ_none {s : SkipList K V} (hInv : Inv s) {key : K} {fin : Nat}
    (hpred : IsPred s key 0 fin)
    (hlaw : slotLaw s.nodes_storage (ekeyA s fin) 0 (some none)) :
    ∀ f ∈ s.nodes_storage, f.1 ≠ 0 → f.2.key ≠ key := by
  intro f hf hf0 hfk
  simp only [slotLaw] at hlaw
  have hcand : cand 0 f := ⟨hf0, (hInv.height_le f hf hf0).1⟩
  exact hlaw f hf hcand (by rw [hfk]; exact hpred.2.1)

/-- If the level-0 successor exists but carries a different key, `key` is
absent. -/
theorem keyFree_of_succ_ne {s : SkipList K V} (hInv : Inv s) {key : K} {fin t : Nat}
    {tn : Node K V} (hpred : IsPred s key 0 fin)
    (hlaw : slotLaw s.nodes_storage (ekeyA s fin) 0 (some (some t)))
    (htn : findNode s.nodes_storage t = some tn) (hne : tn.key ≠ key) :
    ∀ f ∈ s.nodes_storage, f.1 ≠ 0 → f.2.key ≠ key := by
  intro f hf hf0 hfk
  simp only [slotLaw] at hlaw
  obtain ⟨nb, hnb, hb0, hblen, hbgt, hbmin⟩ := hlaw
  rw [htn] at hnb
  cases hnb
  have hcand : cand 0 f := ⟨hf0, (hInv.height_le f hf hf0).1⟩
  have hle : tn.key ≤ f.2.key := hbmin f hf hcand (by rw [hfk]; exact hpred.2.1)
  have hge : ¬ tn.key < key := by
    intro hcon
    have := hpred.2.2 (t, tn) (findNode_mem htn) ⟨hb0, hblen⟩ (WithBot.coe_lt_coe.mpr hcon)
    exact absurd (lt_of_lt_of_le hbgt this) (lt_irrefl _)
  rw [hfk] at hle
  exact hne (le_antisymm hle (not_lt.mp hge))

theorem lt_length_of_get?_eq_some {A : Type} {l : List A} {n : Nat} {a : A}
    (h : l.get? n = some a) : n < l.length := by
  by_contra hc
  rw [List.get?_eq_none.mpr (by omega)] at h
  cases h

/-- Invariant preservation and effect of the fresh-node splice
(`insert`, steps 5–8), given the predecessor array from the scan and the
freshness of the key. -/
theorem spliceNew_spec {s : SkipList K V} (hInv : Inv s) (key : K) (value : V)
    {h : Nat} (h1 : 1 ≤ h) (h2 : h ≤ s.max_level) {upd : List Nat}
    (hulen : upd.length = s.current_level)
    (hpreds : ∀ j, j < s.max_level → IsPred s key j (updAt upd j))
    (hfree : ∀ f ∈ s.nodes_storage, f.1 ≠ 0 → f.2.key ≠ key) :
    ∃ s', spliceNew s key value h upd = some s' ∧ Inv s' ∧
      s'.max_level = s.max_level ∧ s'.current_level = max s.current_level h ∧
      (∀ k v, MapsTo s' k v ↔ (k = key ∧ v = value) ∨ (k ≠ key ∧ MapsTo s k v)) := by
  -- positions recorded in `update` are live with the right heights
  have hpre : ∀ j, 0 ≤ j → j < 0 + h →
      ∃ pn, findNode s.nodes_storage (updAt upd j) = some pn ∧ j < pn.forward.length := by
    intro j _ hj
    rcases (hpreds j (by omega)).1 with hz | ⟨pn, hpn, hlen⟩
    · obtain ⟨hn, hfh, hhl⟩ := head_node hInv
      rw [hz]
      exact ⟨hn, hfh, by omega⟩
    · exact ⟨pn, hpn, hlen⟩
  obtain ⟨hp, F, hrun, hFlen, hFval, hids, hnone, hpatch⟩ :=
    spliceGo_spec s.next_id upd h 0 s.nodes_storage hpre
  have hnid0 : s.next_id ≠ 0 := by
    obtain ⟨hn, hfh, _⟩ := head_node hInv
    have := hInv.ids_lt (0, hn) (findNode_mem hfh)
    omega
  have hnidfree : findNode s.nodes_storage s.next_id = none := by
    apply findNode_eq_none
    intro hmem
    obtain ⟨e, he, hfst⟩ := List.mem_map.mp hmem
    have := hInv.ids_lt e he
    omega
  have hnidhp : findNode hp s.next_id = none := hnone _ hnidfree
  -- the new state
  set nd : Node K V := ⟨key, value, F⟩ with hnd
  set s2 : SkipList K V :=
    { max_level := s.max_level
      current_level := if h > s.current_level then h else s.current_level
      nodes_storage := hp ++ [(s.next_id, nd)]
      next_id := s.next_id + 1 } with hs2
  have hfind2 : ∀ b, findNode s2.nodes_storage b =
      if b = s.next_id then some nd else findNode hp b := by
    intro b
    show findNode (hp ++ [(s.next_id, nd)]) b = _
    rw [findNode_append]
    by_cases hb : b = s.next_id
    · rw [if_pos hb, hb, hnidhp]
      simp [findNode]
    · rw [if_neg hb]
      rcases hfp : findNode hp b with _ | n
      · simp [findNode, hb]
      · rfl
  have hhpnodup : (hp.map Prod.fst).Nodup := by rw [hids]; exact hInv.ids_nodup
  -- transfer: an entry of `hp` comes from an entry of the old store with
  -- the same id, key and value, patched forwards
  have htrans : ∀ e ∈ hp, ∃ n0, (e.1, n0) ∈ s.nodes_storage ∧
      findNode s.nodes_storage e.1 = some n0 ∧
      e.2.key = n0.key ∧ e.2.value = n0.value ∧
      e.2.forward.length = n0.forward.length ∧
      (∀ j, e.2.forward.get? j =
        if 0 ≤ j ∧ j < 0 + h ∧ updAt upd j = e.1 then
          (n0.forward.get? j).map fun _ => some s.next_id
        else n0.forward.get? j) := by
    intro e he
    have hfe : findNode hp e.1 = some e.2 := mem_findNode hhpnodup he
    obtain ⟨n0, hn0⟩ : ∃ n0, findNode s.nodes_storage e.1 = some n0 := by
      rcases hq : findNode s.nodes_storage e.1 with _ | n0
      · rw [hnone e.1 hq] at hfe
        cases hfe
      · exact ⟨n0, rfl⟩
    obtain ⟨n', hn', hk, hv, hl, hs⟩ := hpatch e.1 n0 hn0
    rw [hfe] at hn'
    cases hn'
    exact ⟨n0, findNode_mem hn0, hn0, hk, hv, hl, hs⟩
  -- membership in the new store
  have hmem2 : ∀ e, e ∈ s2.nodes_storage ↔ e ∈ hp ∨ e = (s.next_id, nd) := by
    intro e
    show e ∈ hp ++ [(s.next_id, nd)] ↔ _
    simp [List.mem_append]
  refine ⟨s2, ?_, ?_, rfl, ?_, ?_⟩
  · -- the splice runs
    simp only [spliceNew, hrun]
  · -- the invariant
    have hmax1 : 1 ≤ s.max_level := le_trans h1 h2
    refine ⟨?_, ?_, ?_, ?_, ?_, ?_, ?_, ?_⟩
    · -- ids_nodup
      show ((hp ++ [(s.next_id, nd)]).map Prod.fst).Nodup
      rw [List.map_append, hids]
      simp only [List.map_cons, List.map_nil]
      rw [List.nodup_append]
      refine ⟨hInv.ids_nodup, List.nodup_singleton _, ?_⟩
      intro a ha hb
      simp only [List.mem_singleton] at hb
      obtain ⟨e, he, hfst⟩ := List.mem_map.mp ha
      have := hInv.ids_lt e he
      omega
    · -- ids_lt
      intro e he
      show e.1 < s.next_id + 1
      rcases (hmem2 e).mp he with hold | hnew
      · obtain ⟨n0, hm0, -, -, -, -, -⟩ := htrans e hold
        have := hInv.ids_lt (e.1, n0) hm0
        omega
      · rw [hnew]
        omega
    · -- head_mem
      obtain ⟨hn, hfh, hhl⟩ := head_node hInv
      obtain ⟨hn', hfh', -, -, hl', -⟩ := hpatch 0 hn hfh
      refine ⟨hn', ?_, ?_⟩
      · rw [hfind2 0, if_neg (fun hc => hnid0 hc.symm)]
        exact hfh'
      · rw [hl', hhl]
    · -- one_le
      show 1 ≤ (if h > s.current_level then h else s.current_level)
      have := hInv.one_le
      split <;> omega
    · -- cur_le
      show (if h > s.current_level then h else s.current_level) ≤ s.max_level
      have := hInv.cur_le
      split <;> omega
    · -- height_le
      intro e he he0
      rcases (hmem2 e).mp he with hold | hnew
      · obtain ⟨n0, hm0, -, -, -, hlen0, -⟩ := htrans e hold
        have hold2 : 1 ≤ n0.forward.length ∧ n0.forward.length ≤ s.current_level :=
          hInv.height_le (e.1, n0) hm0 he0
        refine ⟨by rw [hlen0]; exact hold2.1, ?_⟩
        show e.2.forward.length ≤ (if h > s.current_level then h else s.current_level)
        rw [hlen0]
        have := hold2.2
        split <;> omega
      · rw [hnew]
        show 1 ≤ F.length ∧ F.length ≤ (if h > s.current_level then h else s.current_level)
        rw [hFlen]
        refine ⟨h1, ?_⟩
        split <;> omega
    · -- keys_inj
      intro e he f hf he0 hf0 hkey
      rcases (hmem2 e).mp he with holde | hnewe <;> rcases (hmem2 f).mp hf with holdf | hnewf
      · obtain ⟨n0, hm0, -, hk0, -, -, -⟩ := htrans e holde
        obtain ⟨m0, hm1, -, hk1, -, -, -⟩ := htrans f holdf
        have heq := hInv.keys_inj (e.1, n0) hm0 (f.1, m0) hm1 he0 hf0
          (by rw [← hk0, ← hk1, hkey])
        rw [Prod.mk.injEq] at heq
        have hfe : findNode hp e.1 = some e.2 := mem_findNode hhpnodup holde
        have hff : findNode hp f.1 = some f.2 := mem_findNode hhpnodup holdf
        rw [← heq.1, hfe] at hff
        exact Prod.ext heq.1 (Option.some.inj hff)
      · obtain ⟨n0, hm0, -, hk0, -, -, -⟩ := htrans e holde
        rw [hnewf] at hkey
        exact absurd (by rw [← hk0]; exact hkey) (hfree (e.1, n0) hm0 he0)
      · obtain ⟨m0, hm1, -, hk1, -, -, -⟩ := htrans f holdf
        rw [hnewe] at hkey
        exact absurd (by rw [← hk1]; exact hkey.symm) (hfree (f.1, m0) hm1 hf0)
      · rw [hnewe, hnewf]
    · -- the successor law
      intro e2 he2 i
      rcases (hmem2 e2).mp he2 with holde | hnewe
      · -- a patched old entry
        obtain ⟨n0, hm0, hfn0, hk0, hv0, hl0, hslots⟩ := htrans e2 holde
        have hekey : ekey e2 = ekey (e2.1, n0) := by
          simp only [ekey, hk0]
        -- an old candidate strictly between this entry and `key`, available
        -- whenever the predecessor at the level is a different node
        have hmid : ∀ i', i' < h → updAt upd i' ≠ e2.1 → i' < n0.forward.length →
            ekey (e2.1, n0) < (key : WithBot K) →
            ∃ pn, findNode s.nodes_storage (updAt upd i') = some pn ∧
              updAt upd i' ≠ 0 ∧ i' < pn.forward.length ∧
              ekey (e2.1, n0) < (pn.key : WithBot K) ∧ pn.key < key := by
          intro i' hi'h hne hilen hlo
          have hp_i := hpreds i' (by omega)
          by_cases hz : updAt upd i' = 0
          · exfalso
            by_cases hb0 : e2.1 = 0
            · exact hne (by rw [hz, hb0])
            · have hlosimp : ekey (e2.1, n0) = (n0.key : WithBot K) := by
                simp [ekey, hb0]
              have hble := hp_i.2.2 (e2.1, n0) hm0 ⟨hb0, hilen⟩
                (by rw [← hlosimp]; exact hlo)
              rw [hz, ekeyA_zero] at hble
              simp at hble
          · obtain ⟨pn, hpn, hplen⟩ :
                ∃ pn, findNode s.nodes_storage (updAt upd i') = some pn ∧
                  i' < pn.forward.length := by
              rcases hp_i.1 with hz' | hh
              · exact absurd hz' hz
              · exact hh
            have hpkey : ekeyA s (updAt upd i') = (pn.key : WithBot K) :=
              ekeyA_of_findNode hz hpn
            by_cases hdic : ekey (e2.1, n0) < (pn.key : WithBot K)
            · exact ⟨pn, hpn, hz, hplen, hdic,
                WithBot.coe_lt_coe.mp (hpkey ▸ hp_i.2.1)⟩
            · exfalso
              have hnd2 : (pn.key : WithBot K) ≤ ekey (e2.1, n0) := not_lt.mp hdic
              by_cases hb0 : e2.1 = 0
              · rw [show ekey (e2.1, n0) = (⊥ : WithBot K) from by simp [ekey, hb0]] at hnd2
                simp at hnd2
              · have hlosimp : ekey (e2.1, n0) = (n0.key : WithBot K) := by
                  simp [ekey, hb0]
                have hble := hp_i.2.2 (e2.1, n0) hm0 ⟨hb0, hilen⟩
                  (by rw [← hlosimp]; exact hlo)
                rw [hpkey] at hble
                rw [hlosimp] at hnd2
                have hkeq : pn.key = n0.key :=
                  le_antisymm (WithBot.coe_le_coe.mp hnd2) (WithBot.coe_le_coe.mp hble)
                have heq := hInv.keys_inj (updAt upd i', pn) (findNode_mem hpn)
                  (e2.1, n0) hm0 hz hb0 hkeq
                rw [Prod.mk.injEq] at heq
                exact hne heq.1
        by_cases htouch : i < h ∧ updAt upd i = e2.1
        · -- a rewritten slot: it now points to the new node
          rw [hslots i, if_pos ⟨by omega, by omega, htouch.2⟩]
          obtain ⟨pn, hpn, hplen⟩ := hpre i (by omega) (by omega)
          rw [htouch.2, hfn0] at hpn
          obtain rfl := Option.some.inj hpn
          have hgi : n0.forward.get? i = some (n0.forward.get ⟨i, hplen⟩) :=
            List.get?_eq_get hplen
          rw [hgi, Option.map_some']
          simp only [slotLaw]
          have hpi := hpreds i (by omega)
          rw [htouch.2] at hpi
          refine ⟨nd, by rw [hfind2, if_pos rfl], hnid0, ?_, ?_, ?_⟩
          · show i < F.length
            omega
          · rw [hekey, ekey_eq_ekeyA hfn0]
            exact hpi.2.1
          · intro f hf hcf hlt
            show key ≤ f.2.key
            rcases (hmem2 f).mp hf with hfo | hfn
            · obtain ⟨f0, hfm, -, hfk, -, hflen, -⟩ := htrans f hfo
              by_contra hcon
              have hmax := hpi.2.2 (f.1, f0) hfm ⟨hcf.1, by rw [← hflen]; exact hcf.2⟩
                (by rw [← hfk]; exact WithBot.coe_lt_coe.mpr (lt_of_not_le hcon))
              rw [← ekey_eq_ekeyA hfn0, ← hekey] at hmax
              rw [hfk] at hlt
              exact absurd (lt_of_lt_of_le hlt (hfk ▸ hmax)) (lt_irrefl _)
            · rw [hfn]
        · -- an untouched slot
          rw [hslots i, if_neg (fun hx => htouch ⟨by omega, hx.2.2⟩)]
          have hlaw0 : slotLaw s.nodes_storage (ekey (e2.1, n0)) i (n0.forward.get? i) :=
            hInv.law (e2.1, n0) hm0 i
          rw [hekey]
          rcases hgi : n0.forward.get? i with _ | x
          · exact trivial
          · rw [hgi] at hlaw0
            have hilen : i < n0.forward.length := lt_length_of_get?_eq_some hgi
            rcases x with _ | c
            · -- null slot stays lawful
              simp only [slotLaw] at hlaw0 ⊢
              intro f hf hcf hlt
              rcases (hmem2 f).mp hf with hfo | hfn
              · obtain ⟨f0, hfm, -, hfk, -, hflen, -⟩ := htrans f hfo
                exact hlaw0 (f.1, f0) hfm ⟨hcf.1, by rw [← hflen]; exact hcf.2⟩
                  (hfk ▸ hlt)
              · have hih : i < h := by
                  have h2c := hcf.2
                  rw [hfn] at h2c
                  show i < h
                  have : i < F.length := h2c
                  omega
                have hbne : updAt upd i ≠ e2.1 := fun hx => htouch ⟨hih, hx⟩
                have hlok : ekey (e2.1, n0) < (key : WithBot K) := by
                  have := hlt
                  rw [hfn] at this
                  exact this
                obtain ⟨pn, hpn, hpne0, hplen, hmidgt, hmidlt⟩ :=
                  hmid i hih hbne hilen hlok
                exact hlaw0 (updAt upd i, pn) (findNode_mem hpn) ⟨hpne0, hplen⟩ hmidgt
            · -- a live slot stays lawful
              simp only [slotLaw] at hlaw0 ⊢
              obtain ⟨nc, hnc, hc0, hclen, hcgt, hcmin⟩ := hlaw0
              obtain ⟨nc', hnc', hck, -, hcl, -⟩ := hpatch c nc hnc
              have hcnid : c ≠ s.next_id := by
                intro hcc
                rw [hcc, hnidfree] at hnc
                cases hnc
              refine ⟨nc', by rw [hfind2, if_neg hcnid]; exact hnc', hc0,
                by rw [hcl]; exact hclen, by rw [hck]; exact hcgt, ?_⟩
              intro f hf hcf hlt
              rcases (hmem2 f).mp hf with hfo | hfn
              · obtain ⟨f0, hfm, -, hfk, -, hflen, -⟩ := htrans f hfo
                rw [hck, hfk]
                exact hcmin (f.1, f0) hfm ⟨hcf.1, by rw [← hflen]; exact hcf.2⟩
                  (hfk ▸ hlt)
              · have hih : i < h := by
                  have h2c := hcf.2
                  rw [hfn] at h2c
                  have : i < F.length := h2c
                  omega
                have hbne : updAt upd i ≠ e2.1 := fun hx => htouch ⟨hih, hx⟩
                have hlok : ekey (e2.1, n0) < (key : WithBot K) := by
                  have := hlt
                  rw [hfn] at this
                  exact this
                obtain ⟨pn, hpn, hpne0, hplen, hmidgt, hmidlt⟩ :=
                  hmid i hih hbne hilen hlok
                have hkey2 := hcmin (updAt upd i, pn) (findNode_mem hpn)
                  ⟨hpne0, hplen⟩ hmidgt
                rw [hck, hfn]
                show nc.key ≤ key
                exact le_of_lt (lt_of_le_of_lt hkey2 hmidlt)
      · -- the new node
        rw [hnewe]
        have hekey : ekey (s.next_id, nd) = (key : WithBot K) := by
          simp [ekey, hnid0]
        by_cases hih : i < h
        · have hFv := hFval i (by omega)
          simp only [Nat.zero_add] at hFv
          obtain ⟨pn, hpn, hplen⟩ := hpre i (by omega) (by omega)
          have hgetp : pn.forward.get? i = some (pn.forward.get ⟨i, hplen⟩) :=
            List.get?_eq_get hplen
          have hndi : nd.forward.get? i = some (pn.forward.get ⟨i, hplen⟩) := by
            show F.get? i = _
            rw [hFv]
            unfold fwdAt
            rw [hpn]
            exact hgetp
          show slotLaw s2.nodes_storage (ekey (s.next_id, nd)) i (nd.forward.get? i)
          rw [hndi, hekey]
          have hplaw : slotLaw s.nodes_storage (ekey (updAt upd i, pn)) i
              (pn.forward.get? i) := hInv.law (updAt upd i, pn) (findNode_mem hpn) i
          rw [hgetp, ekey_eq_ekeyA hpn] at hplaw
          have hpk : ekeyA s (updAt upd i) < (key : WithBot K) :=
            (hpreds i (by omega)).2.1
          rcases hx : pn.forward.get ⟨i, hplen⟩ with _ | c
          · rw [hx] at hplaw
            simp only [slotLaw] at hplaw ⊢
            intro f hf hcf hlt
            rcases (hmem2 f).mp hf with hfo | hfn
            · obtain ⟨f0, hfm, -, hfk, -, hflen, -⟩ := htrans f hfo
              exact hplaw (f.1, f0) hfm ⟨hcf.1, by rw [← hflen]; exact hcf.2⟩
                (lt_trans hpk (hfk ▸ hlt))
            · rw [hfn] at hlt
              exact absurd hlt (lt_irrefl _)
          · rw [hx] at hplaw
            simp only [slotLaw] at hplaw ⊢
            obtain ⟨nc, hnc, hc0, hclen, hcgt, hcmin⟩ := hplaw
            obtain ⟨nc', hnc', hck, -, hcl, -⟩ := hpatch c nc hnc
            have hcnid : c ≠ s.next_id := by
              intro hcc
              rw [hcc, hnidfree] at hnc
              cases hnc
            refine ⟨nc', by rw [hfind2, if_neg hcnid]; exact hnc', hc0,
              by rw [hcl]; exact hclen, ?_, ?_⟩
            · rw [hck]
              have hnotlt : ¬ nc.key < key := by
                intro hcon
                have := (hpreds i (by omega)).2.2 (c, nc) (findNode_mem hnc)
                  ⟨hc0, hclen⟩ (WithBot.coe_lt_coe.mpr hcon)
                exact absurd (lt_of_lt_of_le hcgt this) (lt_irrefl _)
              have hne := hfree (c, nc) (findNode_mem hnc) hc0
              exact WithBot.coe_lt_coe.mpr
                (lt_of_le_of_ne (not_lt.mp hnotlt) (Ne.symm hne))
            · intro f hf hcf hlt
              rcases (hmem2 f).mp hf with hfo | hfn
              · obtain ⟨f0, hfm, -, hfk, -, hflen, -⟩ := htrans f hfo
                rw [hck, hfk]
                exact hcmin (f.1, f0) hfm ⟨hcf.1, by rw [← hflen]; exact hcf.2⟩
                  (lt_trans hpk (hfk ▸ hlt))
              · rw [hfn] at hlt
                exact absurd hlt (lt_irrefl _)
        · have hslot : nd.forward.get? i = none := by
            show F.get? i = none
            exact List.get?_eq_none.mpr (by rw [hFlen]; omega)
          show slotLaw s2.nodes_storage (ekey (s.next_id, nd)) i (nd.forward.get? i)
          rw [hslot]
          exact trivial
  · -- current_level
    show (if h > s.current_level then h else s.current_level) = max s.current_level h
    by_cases hc : h > s.current_level
    · rw [if_pos hc]; omega
    · rw [if_neg hc]; omega
  · -- the key/value abstraction
    intro k v
    constructor
    · rintro ⟨a, n, hmem, ha0, hk, hv⟩
      rcases (hmem2 (a, n)).mp hmem with hold | hnew
      · obtain ⟨n0, hm0, _, hkk, hvv, _, _⟩ := htrans (a, n) hold
        refine Or.inr ⟨?_, a, n0, hm0, ha0, by rw [← hkk]; exact hk, by rw [← hvv]; exact hv⟩
        rw [← hk, hkk]
        exact hfree (a, n0) hm0 ha0
      · rw [Prod.mk.injEq] at hnew
        left
        rw [← hk, ← hv, hnew.2]
        exact ⟨rfl, rfl⟩
    · rintro (⟨hk, hv⟩ | ⟨hkne, a, n0, hm0, ha0, hk0, hv0⟩)
      · exact ⟨s.next_id, nd, (hmem2 _).mpr (Or.inr rfl), hnid0, hk.symm, hv.symm⟩
      · have hf0 : findNode s.nodes_storage a = some n0 := mem_findNode hInv.ids_nodup hm0
        obtain ⟨n', hn', hk', hv', _, _⟩ := hpatch a n0 hf0
        refine ⟨a, n', (hmem2 _).mpr (Or.inl (findNode_mem hn')), ha0,
          by rw [hk', hk0], by rw [hv', hv0]⟩

/-- Invariant preservation and effect of the in-place value update
(`insert` on an existing key). -/
theorem setVal_spec {s : SkipList K V} (hInv : Inv s) {t : Nat} {tn : Node K V}
    (htn : findNode s.nodes_storage t = some tn) (ht0 : t ≠ 0) (value : V) :
    Inv { s with nodes_storage := setVal s.nodes_storage t value } ∧
    ∀ k v, MapsTo { s with nodes_storage := setVal s.nodes_storage t value } k v ↔
      (k = tn.key ∧ v = value) ∨ (k ≠ tn.key ∧ MapsTo s k v) := by
  have htmem : (t, tn) ∈ s.nodes_storage := findNode_mem htn
  have htrans : ∀ e ∈ setVal s.nodes_storage t value, ∃ e0 ∈ s.nodes_storage,
      e.1 = e0.1 ∧ e.2.key = e0.2.key ∧ e.2.forward = e0.2.forward := by
    intro e he
    obtain ⟨e0, he0, hfe⟩ := List.mem_map.mp he
    refine ⟨e0, he0, ?_, ?_, ?_⟩ <;>
      · rw [← hfe]
        by_cases hc : e0.1 = t <;> simp [hc]
  have hlawT : ∀ (lo : WithBot K) (i : Nat) (fw : Option (Option Nat)),
      slotLaw s.nodes_storage lo i fw →
      slotLaw (setVal s.nodes_storage t value) lo i fw := by
    intro lo i fw hl
    rcases fw with _ | x
    · exact trivial
    rcases x with _ | c
    · simp only [slotLaw] at hl ⊢
      intro f hf hcf hlt
      obtain ⟨f0, hf0, hid, hk, hfwd⟩ := htrans f hf
      exact hl f0 hf0 ⟨by rw [← hid]; exact hcf.1, by rw [← hfwd]; exact hcf.2⟩
        (by rw [← hk]; exact hlt)
    · simp only [slotLaw] at hl ⊢
      obtain ⟨nc, hnc, hc0, hclen, hcgt, hcmin⟩ := hl
      by_cases hct : c = t
      · refine ⟨{ nc with value := value },
          by rw [findNode_setVal, hnc, Option.map_some', if_pos hct],
          hc0, hclen, hcgt, ?_⟩
        intro f hf hcf hlt
        obtain ⟨f0, hf0, hid, hk, hfwd⟩ := htrans f hf
        rw [hk]
        exact hcmin f0 hf0 ⟨by rw [← hid]; exact hcf.1, by rw [← hfwd]; exact hcf.2⟩
          (by rw [← hk]; exact hlt)
      · refine ⟨nc,
          by rw [findNode_setVal, hnc, Option.map_some', if_neg hct],
          hc0, hclen, hcgt, ?_⟩
        intro f hf hcf hlt
        obtain ⟨f0, hf0, hid, hk, hfwd⟩ := htrans f hf
        rw [hk]
        exact hcmin f0 hf0 ⟨by rw [← hid]; exact hcf.1, by rw [← hfwd]; exact hcf.2⟩
          (by rw [← hk]; exact hlt)
  constructor
  · refine ⟨?_, ?_, ?_, hInv.one_le, hInv.cur_le, ?_, ?_, ?_⟩
    · show ((setVal s.nodes_storage t value).map Prod.fst).Nodup
      rw [setVal_map_fst]
      exact hInv.ids_nodup
    · intro e he
      obtain ⟨e0, he0, hid, -, -⟩ := htrans e he
      have := hInv.ids_lt e0 he0
      show e.1 < s.next_id
      omega
    · obtain ⟨hn, hfh, hhl⟩ := head_node hInv
      exact ⟨hn, by
        show findNode (setVal s.nodes_storage t value) 0 = some hn
        rw [findNode_setVal, hfh, Option.map_some', if_neg (fun hc => ht0 hc.symm)], hhl⟩
    · intro e he he0
      obtain ⟨e0, he0m, hid, -, hfwd⟩ := htrans e he
      have := hInv.height_le e0 he0m (by rw [← hid]; exact he0)
      rw [hfwd]
      exact this
    · intro e he f hf he0 hf0 hk
      obtain ⟨e0, he0m, hfe⟩ := List.mem_map.mp he
      obtain ⟨f0, hf0m, hff⟩ := List.mem_map.mp hf
      have hide : e.1 = e0.1 := by rw [← hfe]; by_cases hc : e0.1 = t <;> simp [hc]
      have hidf : f.1 = f0.1 := by rw [← hff]; by_cases hc : f0.1 = t <;> simp [hc]
      have hke : e.2.key = e0.2.key := by rw [← hfe]; by_cases hc : e0.1 = t <;> simp [hc]
      have hkf : f.2.key = f0.2.key := by rw [← hff]; by_cases hc : f0.1 = t <;> simp [hc]
      have : e0 = f0 := hInv.keys_inj e0 he0m f0 hf0m (by rw [← hide]; exact he0)
        (by rw [← hidf]; exact hf0) (by rw [← hke, ← hkf, hk])
      rw [← hfe, ← hff, this]
    · intro e he i
      obtain ⟨e0, he0m, hid, hk, hfwd⟩ := htrans e he
      have hlaw0 := hInv.law e0 he0m i
      have hekey : ekey e = ekey e0 := by simp only [ekey, hid, hk]
      show slotLaw (setVal s.nodes_storage t value) (ekey e) i (e.2.forward.get? i)
      rw [hekey, hfwd]
      exact hlawT _ _ _ hlaw0
  · intro k v
    constructor
    · rintro ⟨a, n, hmem, ha0, hk, hv⟩
      obtain ⟨e0, he0m, hfe⟩ := List.mem_map.mp hmem
      by_cases hct : e0.1 = t
      · have he0t : e0 = (t, tn) := by
          have : (t, e0.2) ∈ s.nodes_storage := by rw [← hct]; exact he0m
          have := entry_eq_of_mem hInv this htmem
          rw [← this, ← hct]
        obtain ⟨ha', hn'⟩ : t = a ∧ { tn with value := value } = n := by
          rw [he0t] at hfe
          simpa using hfe
        left
        exact ⟨by rw [← hk, ← hn'], by rw [← hv, ← hn']⟩
      · have hfe2 : (a, n) = e0 := by rw [← hfe, if_neg hct]
        rw [Prod.mk.injEq] at hfe2
        right
        constructor
        · intro hkey
          apply hct
          have heq := hInv.keys_inj e0 he0m (t, tn) htmem
            (by rw [← hfe2.1]; exact ha0) ht0
            (by rw [← hfe2.2, hk, hkey])
          rw [Prod.mk.injEq] at heq
          exact heq.1
        · exact ⟨a, n, by rw [hfe2.1, hfe2.2]; exact he0m, ha0, hk, hv⟩
    · rintro (⟨hk, hv⟩ | ⟨hkne, a, n, hmem, ha0, hk, hv⟩)
      · refine ⟨t, { tn with value := value }, ?_, ht0, hk.symm, hv.symm⟩
        apply List.mem_map.mpr
        exact ⟨(t, tn), htmem, by simp⟩
      · have hat : a ≠ t := by
          intro hc
          apply hkne
          rw [← hk]
          have hmem2 : (t, n) ∈ s.nodes_storage := by rw [← hc]; exact hmem
          rw [entry_eq_of_mem hInv hmem2 htmem]
        exact ⟨a, n, List.mem_map.mpr ⟨(a, n), hmem, by simp [hat]⟩, ha0, hk, hv⟩

/-- Functional correctness and invariant preservation of `insert` (with
the drawn level as a parameter in `[1, max_level]`, which is the range
`random_level` produces). -/
theorem insertCore_spec {s : SkipList K V} (hInv : Inv s) (key : K) (value : V)
    {h : Nat} (h1 : 1 ≤ h) (h2 : h ≤ s.max_level) :
    ∃ s', insertCore s key value h = some s' ∧ Inv s' ∧
      s'.max_level = s.max_level ∧
      (∀ k v, MapsTo s' k v ↔ (k = key ∧ v = value) ∨ (k ≠ key ∧ MapsTo s k v)) := by
  obtain ⟨upd, fin, cn, hrun, hulen, hpreds, hfp, hcn, hclen⟩ := descend_full hInv key
  obtain ⟨x, hx, hxlaw⟩ := zero_succ hInv hfp hcn hclen
  rcases x with _ | t
  · have hfree := keyFree_of_succ_none hInv hfp hxlaw
    obtain ⟨s', hsp, hinv', hml, -, hiff⟩ :=
      spliceNew_spec hInv key value h1 h2 hulen hpreds hfree
    exact ⟨s', by simp only [insertCore, hrun, hcn, hx]; exact hsp, hinv', hml, hiff⟩
  · have hlaw' := hxlaw
    simp only [slotLaw] at hlaw'
    obtain ⟨tn, htn, ht0, htlen, htgt, htmin⟩ := hlaw'
    by_cases hkey : tn.key = key
    · obtain ⟨hinv', hiff⟩ := setVal_spec hInv htn ht0 value
      refine ⟨_, by simp only [insertCore, hrun, hcn, hx, htn, if_pos hkey], hinv', rfl, ?_⟩
      intro k v
      rw [hiff k v, hkey]
    · have hfree := keyFree_of_succ_ne hInv hfp hxlaw htn hkey
      obtain ⟨s', hsp, hinv', hml, -, hiff⟩ :=
        spliceNew_spec hInv key value h1 h2 hulen hpreds hfree
      exact ⟨s', by simp only [insertCore, hrun, hcn, hx, htn, if_neg hkey]; exact hsp,
        hinv', hml, hiff⟩

/-- `random_level` always returns a level in `[1, max_level]` when
`max_level ≥ 1`. -/
theorem random_level_bounds {max_level : Nat} (hm : 1 ≤ max_level) (coins : List Bool) :
    1 ≤ random_level max_level coins ∧ random_level max_level coins ≤ max_level := by
  have hgo : ∀ (cs : List Bool) (lv : Nat), 1 ≤ lv → lv ≤ max_level →
      1 ≤ randomGo max_level lv cs ∧ randomGo max_level lv cs ≤ max_level := by
    intro cs
    induction cs with
    | nil => intro lv h1 h2; exact ⟨h1, h2⟩
    | cons c t ih =>
        intro lv h1 h2
        simp only [randomGo]
        by_cases hc : c = true ∧ lv < max_level
        · rw [if_pos hc]
          exact ih (lv + 1) (by omega) (by omega)
        · rw [if_neg hc]
          exact ⟨h1, h2⟩
  exact hgo coins 1 (le_refl 1) hm

/-- `SkipList::insert` through the coin-oracle wrapper. -/
theorem insert_spec {s : SkipList K V} (hInv : Inv s) (hm : 1 ≤ s.max_level)
    (key : K) (value : V) (coins : List Bool) :
    ∃ s', insert s key value coins = some s' ∧ Inv s' ∧
      s'.max_level = s.max_level ∧
      (∀ k v, MapsTo s' k v ↔ (k = key ∧ v = value) ∨ (k ≠ key ∧ MapsTo s k v)) := by
  obtain ⟨hb1, hb2⟩ := random_level_bounds hm coins
  exact insertCore_spec hInv key value hb1 hb2

/-- Functional correctness of `SkipList::search`. -/
theorem search_spec {s : SkipList K V} (hInv : Inv s) (key : K) :
    ∃ r, search s key = some r ∧ ∀ v, r = some v ↔ MapsTo s key v := by
  obtain ⟨upd, fin, cn, hrun, hulen, hpreds, hfp, hcn, hclen⟩ := descend_full hInv key
  obtain ⟨x, hx, hxlaw⟩ := zero_succ hInv hfp hcn hclen
  rcases x with _ | t
  · refine ⟨none, by simp only [search, hrun, hcn, hx], ?_⟩
    intro v
    constructor
    · intro hc; cases hc
    · intro hmt
      obtain ⟨a, n, hmem, ha0, hk, hv⟩ := hmt
      exact absurd hk (keyFree_of_succ_none hInv hfp hxlaw (a, n) hmem ha0)
  · have hlaw' := hxlaw
    simp only [slotLaw] at hlaw'
    obtain ⟨tn, htn, ht0, htlen, htgt, htmin⟩ := hlaw'
    by_cases hkey : tn.key = key
    · refine ⟨some tn.value,
        by simp only [search, hrun, hcn, hx, htn, if_pos hkey], ?_⟩
      intro v
      constructor
      · intro hc
        cases hc
        exact ⟨t, tn, findNode_mem htn, ht0, hkey, rfl⟩
      · intro hmt
        have : v = tn.value :=
          mapsTo_unique hInv hmt ⟨t, tn, findNode_mem htn, ht0, hkey, rfl⟩
        rw [this]
    · refine ⟨none, by simp only [search, hrun, hcn, hx, htn, if_neg hkey], ?_⟩
      intro v
      constructor
      · intro hc; cases hc
      · intro hmt
        obtain ⟨a, n, hmem, ha0, hk, hv⟩ := hmt
        exact absurd hk (keyFree_of_succ_ne hInv hfp hxlaw htn hkey (a, n) hmem ha0)

/-! ### The unlink loop of `remove` -/

/-- Full characterization of the unlink loop: it rewrites exactly the
slots `(update[j], j)` that point at `t`, replacing them by `t`'s own
successor at that level; all other slots are untouched. -/
theorem unlinkGo_spec (t : Nat) (upd : List Nat) {tn : Node K V} :
    ∀ (l i : Nat) (heap : List (Nat × Node K V)),
      (∀ j, i ≤ j → j < i + l →
        ∃ pn, findNode heap (updAt upd j) = some pn ∧ j < pn.forward.length) →
      findNode heap t = some tn →
      (∀ j, i ≤ j → j < i + l → updAt upd j ≠ t) →
      (∀ j, i ≤ j → j < i + l → fwdAt heap (updAt upd j) j = some (some t) →
        j < tn.forward.length) →
      ∃ hp, unlinkGo t upd heap i l = some hp ∧
        hp.map Prod.fst = heap.map Prod.fst ∧
        (∀ b, findNode heap b = none → findNode hp b = none) ∧
        (∀ b n, findNode heap b = some n →
          ∃ n', findNode hp b = some n' ∧ n'.key = n.key ∧ n'.value = n.value ∧
            n'.forward.length = n.forward.length ∧
            ∀ j, n'.forward.get? j =
              if i ≤ j ∧ j < i + l ∧ updAt upd j = b ∧ n.forward.get? j = some (some t) then
                tn.forward.get? j
              else n.forward.get? j) := by
  intro l
  induction l with
  | zero =>
      intro i heap _ _ _ _
      refine ⟨heap, rfl, rfl, fun b h => h, ?_⟩
      intro b n hbn
      refine ⟨n, hbn, rfl, rfl, rfl, fun j => by rw [if_neg (by omega)]⟩
  | succ l ih =>
      intro i heap hpre htfind hnt hheight
      obtain ⟨pn, hpn, hplen⟩ := hpre i (le_refl i) (by omega)
      have hget : pn.forward.get? i = some (pn.forward.get ⟨i, hplen⟩) :=
        List.get?_eq_get hplen
      set fi := pn.forward.get ⟨i, hplen⟩ with hfi
      by_cases hfit : fi = some t
      · -- this level points at the target: rewrite
        have htl : i < tn.forward.length := by
          apply hheight i (le_refl i) (by omega)
          unfold fwdAt
          rw [hpn]
          show pn.forward.get? i = some (some t)
          rw [hget, hfit]
        have hgt : tn.forward.get? i = some (tn.forward.get ⟨i, htl⟩) :=
          List.get?_eq_get htl
        set tf := tn.forward.get ⟨i, htl⟩ with htf
        set heap1 := setFwd heap (updAt upd i) i tf with hheap1
        have hpre1 : ∀ j, i + 1 ≤ j → j < i + 1 + l →
            ∃ pn, findNode heap1 (updAt upd j) = some pn ∧ j < pn.forward.length := by
          intro j hj1 hj2
          obtain ⟨pj, hpj, hpjlen⟩ := hpre j (by omega) (by omega)
          rw [hheap1, findNode_setFwd, hpj]
          by_cases hc : updAt upd j = updAt upd i
          · exact ⟨_, by rw [Option.map_some', if_pos hc],
              by simpa [List.length_set] using hpjlen⟩
          · exact ⟨_, by rw [Option.map_some', if_neg hc], hpjlen⟩
        have htfind1 : findNode heap1 t = some tn := by
          rw [hheap1, findNode_setFwd, htfind, Option.map_some',
            if_neg (fun hc => hnt i (le_refl i) (by omega) (by rw [hc]))]
        have hheight1 : ∀ j, i + 1 ≤ j → j < i + 1 + l →
            fwdAt heap1 (updAt upd j) j = some (some t) → j < tn.forward.length := by
          intro j hj1 hj2 hfw
          apply hheight j (by omega) (by omega)
          rw [← hfw, hheap1, fwdAt_setFwd_ne _ _ _ _ _ _ (by omega)]
        obtain ⟨hp, hrun, hids, hnone, hpatch⟩ :=
          ih (i + 1) heap1 hpre1 htfind1
            (fun j hj1 hj2 => hnt j (by omega) (by omega))
            hheight1
        refine ⟨hp, ?_, ?_, ?_, ?_⟩
        · simp only [unlinkGo, hpn, hget, if_pos hfit, htfind, hgt, ← hheap1, hrun]
        · rw [hids, hheap1, setFwd_map_fst]
        · intro b hb
          apply hnone
          rw [hheap1, findNode_setFwd, hb]
          rfl
        · intro b n hbn
          have hb1 : findNode heap1 b =
              some (if b = updAt upd i then { n with forward := n.forward.set i tf }
                else n) := by
            rw [hheap1, findNode_setFwd, hbn]
            by_cases hc : b = updAt upd i
            · rw [Option.map_some', if_pos hc]
            · rw [Option.map_some', if_neg hc]
          obtain ⟨n', hn', hkey, hval, hlen', hslots⟩ := hpatch b _ hb1
          refine ⟨n', hn', ?_, ?_, ?_, ?_⟩
          · rw [hkey]; by_cases hc : b = updAt upd i <;> simp [hc]
          · rw [hval]; by_cases hc : b = updAt upd i <;> simp [hc]
          · rw [hlen']; by_cases hc : b = updAt upd i <;> simp [hc, List.length_set]
          · intro j
            rw [hslots j]
            have hn1 : (if b = updAt upd i then
                { n with forward := n.forward.set i tf } else n).forward.get? j =
                if j = i ∧ b = updAt upd i then (n.forward.get? j).map (fun _ => tf)
                else n.forward.get? j := by
              by_cases hc : b = updAt upd i
              · rw [if_pos hc]
                by_cases hji : j = i
                · subst hji
                  rw [if_pos ⟨rfl, hc⟩]
                  exact get?_set_self ..
                · rw [if_neg (fun hx => hji hx.1)]
                  exact get?_set_other _ _ _ _ (fun h2 => hji h2.symm)
              · rw [if_neg hc, if_neg (fun hx => hc hx.2)]
            by_cases hcond1 : i + 1 ≤ j ∧ j < i + 1 + l ∧ updAt upd j = b ∧
                (if b = updAt upd i then { n with forward := n.forward.set i tf }
                  else n).forward.get? j = some (some t)
            · -- rewritten by the recursive call
              rw [if_pos hcond1]
              have hji : j ≠ i := by omega
              have hsame : n.forward.get? j = some (some t) := by
                have := hcond1.2.2.2
                rw [hn1, if_neg (fun hx => hji hx.1)] at this
                exact this
              rw [if_pos ⟨by omega, by omega, hcond1.2.2.1, hsame⟩]
            · rw [if_neg hcond1, hn1]
              by_cases hji : j = i ∧ b = updAt upd i
              · -- the slot rewritten at this level
                have hpn2 : pn = n := by
                  have h1 := hpn
                  rw [← hji.2, hbn] at h1
                  exact (Option.some.inj h1).symm
                have hni : n.forward.get? j = some (some t) := by
                  rw [hji.1, ← hpn2, hget, hfit]
                rw [if_pos hji,
                  if_pos ⟨by omega, by omega, by rw [hji.1]; exact hji.2.symm, hni⟩, hni]
                rw [Option.map_some', hji.1, hgt]
              · rw [if_neg hji]
                by_cases hcond : i ≤ j ∧ j < i + (l + 1) ∧ updAt upd j = b ∧
                    n.forward.get? j = some (some t)
                · exfalso
                  by_cases hjeq : j = i
                  · exact hji ⟨hjeq, by rw [← hjeq]; exact hcond.2.2.1.symm⟩
                  · apply hcond1
                    refine ⟨by omega, by omega, hcond.2.2.1, ?_⟩
                    rw [hn1, if_neg (fun hx => hjeq hx.1)]
                    exact hcond.2.2.2
                · rw [if_neg hcond]
      · -- this level does not point at the target: skip
        obtain ⟨hp, hrun, hids, hnone, hpatch⟩ :=
          ih (i + 1) heap
            (fun j hj1 hj2 => hpre j (by omega) (by omega)) htfind
            (fun j hj1 hj2 => hnt j (by omega) (by omega))
            (fun j hj1 hj2 => hheight j (by omega) (by omega))
        refine ⟨hp, ?_, hids, hnone, ?_⟩
        · simp only [unlinkGo, hpn, hget, if_neg hfit, hrun]
        · intro b n hbn
          obtain ⟨n', hn', hkey, hval, hlen', hslots⟩ := hpatch b n hbn
          refine ⟨n', hn', hkey, hval, hlen', ?_⟩
          intro j
          rw [hslots j]
          by_cases hcond1 : i + 1 ≤ j ∧ j < i + 1 + l ∧ updAt upd j = b ∧
              n.forward.get? j = some (some t)
          · rw [if_pos hcond1, if_pos ⟨by omega, by omega, hcond1.2.2.1, hcond1.2.2.2⟩]
          · rw [if_neg hcond1]
            by_cases hcond : i ≤ j ∧ j < i + (l + 1) ∧ updAt upd j = b ∧
                n.forward.get? j = some (some t)
            · exfalso
              by_cases hjeq : j = i
              · -- at this level the slot does not point at `t`
                apply hfit
                have hpn2 : pn = n := by
                  have h1 := hpn
                  rw [← hjeq, hcond.2.2.1, hbn] at h1
                  exact (Option.some.inj h1).symm
                have hthis := hcond.2.2.2
                rw [hjeq, ← hpn2, hget] at hthis
                exact Option.some.inj hthis
              · exact hcond1 ⟨by omega, by omega, hcond.2.2.1, hcond.2.2.2⟩
            · rw [if_neg hcond]

/-- If the level-`i` predecessor of `key` is not the node `b` itself,
then whenever `b` sits (with a live level-`i` slot) strictly below `key`,
some other node lies at level `i` strictly between `b` and `key`. -/
theorem pred_between {s : SkipList K V} (hInv : Inv s) {key : K} {upd : List Nat}
    (hpreds : ∀ j, j < s.max_level → IsPred s key j (updAt upd j))
    {b : Nat} {n : Node K V} (hm0 : (b, n) ∈ s.nodes_storage) :
    ∀ i, i < s.max_level → updAt upd i ≠ b → i < n.forward.length →
      ekey (b, n) < (key : WithBot K) →
      ∃ pn, findNode s.nodes_storage (updAt upd i) = some pn ∧
        updAt upd i ≠ 0 ∧ i < pn.forward.length ∧
        ekey (b, n) < (pn.key : WithBot K) ∧ pn.key < key := by
  intro i hih hne hilen hlo
  have hp_i := hpreds i hih
  by_cases hz : updAt upd i = 0
  · exfalso
    by_cases hb0 : b = 0
    · exact hne (by rw [hz, hb0])
    · have hlosimp : ekey (b, n) = (n.key : WithBot K) := by simp [ekey, hb0]
      have hble := hp_i.2.2 (b, n) hm0 ⟨hb0, hilen⟩ (by rw [← hlosimp]; exact hlo)
      rw [hz, ekeyA_zero] at hble
      simp at hble
  · obtain ⟨pn, hpn, hplen⟩ :
        ∃ pn, findNode s.nodes_storage (updAt upd i) = some pn ∧
          i < pn.forward.length := by
      rcases hp_i.1 with hz' | hh
      · exact absurd hz' hz
      · exact hh
    have hpkey : ekeyA s (updAt upd i) = (pn.key : WithBot K) :=
      ekeyA_of_findNode hz hpn
    by_cases hdic : ekey (b, n) < (pn.key : WithBot K)
    · exact ⟨pn, hpn, hz, hplen, hdic, WithBot.coe_lt_coe.mp (hpkey ▸ hp_i.2.1)⟩
    · exfalso
      have hnd2 : (pn.key : WithBot K) ≤ ekey (b, n) := not_lt.mp hdic
      by_cases hb0 : b = 0
      · rw [show ekey (b, n) = (⊥ : WithBot K) from by simp [ekey, hb0]] at hnd2
        simp at hnd2
      · have hlosimp : ekey (b, n) = (n.key : WithBot K) := by simp [ekey, hb0]
        have hble := hp_i.2.2 (b, n) hm0 ⟨hb0, hilen⟩ (by rw [← hlosimp]; exact hlo)
        rw [hpkey] at hble
        rw [hlosimp] at hnd2
        have hkeq : pn.key = n.key :=
          le_antisymm (WithBot.coe_le_coe.mp hnd2) (WithBot.coe_le_coe.mp hble)
        have heq := hInv.keys_inj (updAt upd i, pn) (findNode_mem hpn)
          (b, n) hm0 hz hb0 hkeq
        rw [Prod.mk.injEq] at heq
        exact hne heq.1

/-- The level-shrink loop of `remove`, for an arbitrary monotone
postcondition driven by null head slots. -/
theorem shrinkLevel_spec (heap : List (Nat × Node K V)) (Q : Nat → Prop)
    (hstep : ∀ n, 1 ≤ n → Q (n + 1) →
      (∃ hn, findNode heap 0 = some hn ∧ hn.forward.get? n = some none) → Q n) :
    ∀ cl, 1 ≤ cl → Q cl →
      1 ≤ shrinkLevel heap cl ∧ shrinkLevel heap cl ≤ cl ∧ Q (shrinkLevel heap cl) := by
  intro cl
  induction cl with
  | zero => intro h; omega
  | succ m ih =>
      intro _ hQ
      cases m with
      | zero => exact ⟨le_refl 1, le_refl 1, hQ⟩
      | succ m' =>
          show 1 ≤ shrinkLevel heap (m' + 2) ∧ _
          rcases hfh : findNode heap 0 with _ | hn
          · refine ⟨?_, ?_, ?_⟩ <;> simp only [shrinkLevel, hfh] <;> first | omega | exact hQ
          · rcases hslot : hn.forward.get? (m' + 1) with _ | x
            · refine ⟨?_, ?_, ?_⟩ <;> simp only [shrinkLevel, hfh, hslot] <;>
                first | omega | exact hQ
            · rcases x with _ | c
              · have hrec := ih (by omega)
                  (hstep (m' + 1) (by omega) hQ ⟨hn, hfh, hslot⟩)
                refine ⟨?_, ?_, ?_⟩ <;> simp only [shrinkLevel, hfh, hslot]
                · omega
                · omega
                · exact hrec.2.2
              · refine ⟨?_, ?_, ?_⟩ <;> simp only [shrinkLevel, hfh, hslot] <;>
                  first | omega | exact hQ

/-- Functional correctness and invariant preservation of
`SkipList::remove`. -/
theorem remove_spec {s : SkipList K V} (hInv : Inv s) (key : K) :
    ∃ s' b, remove s key = some (s', b) ∧ Inv s' ∧ s'.max_level = s.max_level ∧
      (b = true ↔ ∃ v, MapsTo s key v) ∧
      (∀ k v, MapsTo s' k v ↔ (k ≠ key ∧ MapsTo s k v)) := by
  obtain ⟨upd, fin, cn, hrun, hulen, hpreds, hfp, hcn, hclen⟩ := descend_full hInv key
  obtain ⟨x, hx, hxlaw⟩ := zero_succ hInv hfp hcn hclen
  have hclemax := hInv.cur_le
  rcases x with _ | t
  · -- null successor: nothing to remove
    have hfree := keyFree_of_succ_none hInv hfp hxlaw
    refine ⟨s, false, by simp only [remove, hrun, hcn, hx], hInv, rfl, ?_, ?_⟩
    · constructor
      · intro h; cases h
      · rintro ⟨v, a, n, hm, h0, hk, -⟩
        exact absurd hk (hfree (a, n) hm h0)
    · intro k v
      constructor
      · intro h
        refine ⟨?_, h⟩
        intro hke
        obtain ⟨a, n, hm, h0, hk, -⟩ := h
        exact hfree (a, n) hm h0 (by rw [hk, hke])
      · exact fun h => h.2
  · have hlaw' := hxlaw
    simp only [slotLaw] at hlaw'
    obtain ⟨tn, htn, ht0, htlen, htgt, htmin⟩ := hlaw'
    by_cases hkey : tn.key = key
    · -- the node is found: unlink, shrink, erase
      have htmem : (t, tn) ∈ s.nodes_storage := findNode_mem htn
      have hpreU : ∀ j, 0 ≤ j → j < 0 + s.current_level →
          ∃ pn, findNode s.nodes_storage (updAt upd j) = some pn ∧
            j < pn.forward.length := by
        intro j _ hj
        rcases (hpreds j (by omega)).1 with hz | hh
        · obtain ⟨hn, hfh, hhl⟩ := head_node hInv
          rw [hz]
          exact ⟨hn, hfh, by omega⟩
        · exact hh
      have hntU : ∀ j, 0 ≤ j → j < 0 + s.current_level → updAt upd j ≠ t := by
        intro j _ hj hc
        have hpj := (hpreds j (by omega)).2.1
        rw [hc, ekeyA_of_findNode ht0 htn, hkey] at hpj
        exact absurd hpj (lt_irrefl _)
      have hhtU : ∀ j, 0 ≤ j → j < 0 + s.current_level →
          fwdAt s.nodes_storage (updAt upd j) j = some (some t) →
          j < tn.forward.length := by
        intro j _ hj hfw
        obtain ⟨pj, hpj, hpjlen⟩ := hpreU j (by omega) hj
        have hl : slotLaw s.nodes_storage (ekey (updAt upd j, pj)) j
            (pj.forward.get? j) := hInv.law (updAt upd j, pj) (findNode_mem hpj) j
        have hfw2 : pj.forward.get? j = some (some t) := by
          unfold fwdAt at hfw
          rw [hpj] at hfw
          exact hfw
        rw [hfw2] at hl
        simp only [slotLaw] at hl
        obtain ⟨nb, hnb, -, hnblen, -, -⟩ := hl
        rw [htn] at hnb
        cases Option.some.inj hnb
        exact hnblen
      obtain ⟨hp, hrunU, hidsU, hnoneU, hpatchU⟩ :=
        unlinkGo_spec t upd s.current_level 0 s.nodes_storage hpreU htn hntU hhtU
      obtain ⟨hn, hfh, hhl⟩ := head_node hInv
      obtain ⟨hn', hfh', hk_h, hv_h, hl_h, hslots_h⟩ := hpatchU 0 hn hfh
      -- the shrink loop drives the height bound down
      have hstep : ∀ n, 1 ≤ n →
          (∀ e ∈ s.nodes_storage, e.1 ≠ 0 → e.1 ≠ t → e.2.forward.length ≤ n + 1) →
          (∃ hh, findNode hp 0 = some hh ∧ hh.forward.get? n = some none) →
          (∀ e ∈ s.nodes_storage, e.1 ≠ 0 → e.1 ≠ t → e.2.forward.length ≤ n) := by
        intro n hn1 hQ ⟨hh, hfhh, hslot⟩
        rw [hfh'] at hfhh
        cases Option.some.inj hfhh
        intro e he he0 het
        by_contra hcon
        have hecand : cand n e := ⟨he0, by omega⟩
        rw [hslots_h n] at hslot
        by_cases hcondh : 0 ≤ n ∧ n < 0 + s.current_level ∧ updAt upd n = 0 ∧
            hn.forward.get? n = some (some t)
        · rw [if_pos hcondh] at hslot
          have hheadlaw : slotLaw s.nodes_storage (ekey (0, hn)) n
              (hn.forward.get? n) := hInv.law (0, hn) (findNode_mem hfh) n
          rw [hcondh.2.2.2] at hheadlaw
          simp only [slotLaw] at hheadlaw
          obtain ⟨nb, hnb, -, -, -, hbmin⟩ := hheadlaw
          rw [htn] at hnb
          cases Option.some.inj hnb
          have htlaw : slotLaw s.nodes_storage (ekey (t, tn)) n
              (tn.forward.get? n) := hInv.law (t, tn) htmem n
          rw [hslot] at htlaw
          simp only [slotLaw] at htlaw
          have hekt : ekey (t, tn) = (tn.key : WithBot K) := by simp [ekey, ht0]
          rw [hekt] at htlaw
          rcases lt_trichotomy e.2.key tn.key with hlt | heq | hgt
          · have hge := hbmin e he hecand
              (by rw [show ekey (0, hn) = (⊥ : WithBot K) from by simp [ekey]]
                  exact WithBot.bot_lt_coe _)
            exact absurd (lt_of_le_of_lt hge hlt) (lt_irrefl _)
          · have heid := hInv.keys_inj e he (t, tn) htmem he0 ht0 heq
            rw [Prod.mk.injEq] at heid
            exact het heid.1
          · exact htlaw e he hecand (WithBot.coe_lt_coe.mpr hgt)
        · rw [if_neg hcondh] at hslot
          have hheadlaw : slotLaw s.nodes_storage (ekey (0, hn)) n
              (hn.forward.get? n) := hInv.law (0, hn) (findNode_mem hfh) n
          rw [hslot] at hheadlaw
          simp only [slotLaw] at hheadlaw
          exact hheadlaw e he hecand
            (by rw [show ekey (0, hn) = (⊥ : WithBot K) from by simp [ekey]]
                exact WithBot.bot_lt_coe _)
      have hshr := shrinkLevel_spec hp
        (fun m => ∀ e ∈ s.nodes_storage, e.1 ≠ 0 → e.1 ≠ t → e.2.forward.length ≤ m)
        hstep s.current_level hInv.one_le
        (fun e he he0 _ => (hInv.height_le e he he0).2)
      set cl2 := shrinkLevel hp s.current_level with hcl2
      set s2 : SkipList K V := ({ s with
        current_level := cl2
        nodes_storage := hp.filter (fun e => e.1 ≠ t) } : SkipList K V) with hs2
      have hfind3 : ∀ b, findNode s2.nodes_storage b =
          if b = t then none else findNode hp b := by
        intro b
        show findNode (hp.filter fun e => e.1 ≠ t) b = _
        exact findNode_filter_ne hp t b
      have hhpnodup : (hp.map Prod.fst).Nodup := by rw [hidsU]; exact hInv.ids_nodup
      have htransU : ∀ e ∈ hp, ∃ n0, (e.1, n0) ∈ s.nodes_storage ∧
          findNode s.nodes_storage e.1 = some n0 ∧
          e.2.key = n0.key ∧ e.2.value = n0.value ∧
          e.2.forward.length = n0.forward.length ∧
          (∀ j, e.2.forward.get? j =
            if 0 ≤ j ∧ j < 0 + s.current_level ∧ updAt upd j = e.1 ∧
                n0.forward.get? j = some (some t) then
              tn.forward.get? j
            else n0.forward.get? j) := by
        intro e he
        have hfe : findNode hp e.1 = some e.2 := mem_findNode hhpnodup he
        obtain ⟨n0, hn0⟩ : ∃ n0, findNode s.nodes_storage e.1 = some n0 := by
          rcases hq : findNode s.nodes_storage e.1 with _ | n0
          · rw [hnoneU e.1 hq] at hfe
            cases hfe
          · exact ⟨n0, rfl⟩
        obtain ⟨n', hn', hk, hv, hl, hsl⟩ := hpatchU e.1 n0 hn0
        rw [hfe] at hn'
        cases hn'
        exact ⟨n0, findNode_mem hn0, hn0, hk, hv, hl, hsl⟩
      have hmem3 : ∀ e, e ∈ s2.nodes_storage ↔ e ∈ hp ∧ e.1 ≠ t := by
        intro e
        show e ∈ hp.filter (fun e => e.1 ≠ t) ↔ _
        rw [List.mem_filter]
        simp
      refine ⟨s2, true, ?_, ?_, rfl, ?_, ?_⟩
      · -- the run reaches this state
        show remove s key = some (s2, true)
        rw [hs2]
        simp only [remove, hrun, hcn, hx, htn, if_neg (not_not_intro hkey), hrunU]
      · -- the invariant
        refine ⟨?_, ?_, ?_, ?_, ?_, ?_, ?_, ?_⟩
        · show ((hp.filter fun e => e.1 ≠ t).map Prod.fst).Nodup
          exact List.Nodup.sublist (List.Sublist.map Prod.fst (List.filter_sublist hp))
            hhpnodup
        · intro e he
          obtain ⟨hehp, -⟩ := (hmem3 e).mp he
          obtain ⟨n0, hm0, -, -, -, -, -⟩ := htransU e hehp
          have := hInv.ids_lt (e.1, n0) hm0
          show e.1 < s.next_id
          omega
        · refine ⟨hn', ?_, by rw [hl_h, hhl]⟩
          rw [hfind3 0, if_neg (fun hc => ht0 hc.symm)]
          exact hfh'
        · show 1 ≤ cl2
          exact hshr.1
        · show cl2 ≤ s.max_level
          have := hshr.2.1
          omega
        · intro e he he0
          obtain ⟨hehp, het⟩ := (hmem3 e).mp he
          obtain ⟨n0, hm0, -, -, -, hlen0, -⟩ := htransU e hehp
          constructor
          · rw [hlen0]
            exact (hInv.height_le (e.1, n0) hm0 he0).1
          · show e.2.forward.length ≤ cl2
            rw [hlen0]
            exact hshr.2.2 (e.1, n0) hm0 he0 het
        · intro e he f hf he0 hf0 hk
          obtain ⟨hehp, -⟩ := (hmem3 e).mp he
          obtain ⟨hfhp, -⟩ := (hmem3 f).mp hf
          obtain ⟨n0, hm0, -, hk0, -, -, -⟩ := htransU e hehp
          obtain ⟨m0, hm1, -, hk1, -, -, -⟩ := htransU f hfhp
          have heq := hInv.keys_inj (e.1, n0) hm0 (f.1, m0) hm1 he0 hf0
            (by rw [← hk0, ← hk1, hk])
          rw [Prod.mk.injEq] at heq
          have hfe : findNode hp e.1 = some e.2 := mem_findNode hhpnodup hehp
          have hff : findNode hp f.1 = some f.2 := mem_findNode hhpnodup hfhp
          rw [← heq.1, hfe] at hff
          exact Prod.ext heq.1 (Option.some.inj hff)
        · -- the successor law after the unlink and erase
          intro e2 he2 i
          obtain ⟨hehp, het⟩ := (hmem3 e2).mp he2
          obtain ⟨n0, hm0, hfn0, hk0, hv0, hl0, hslots⟩ := htransU e2 hehp
          have hekey : ekey e2 = ekey (e2.1, n0) := by simp only [ekey, hk0]
          have hcand3 : ∀ f, f ∈ s2.nodes_storage → cand i f →
              ∃ f0, (f.1, f0) ∈ s.nodes_storage ∧ f.1 ≠ t ∧ f.2.key = f0.key ∧
                cand i (f.1, f0) := by
            intro f hf hcf
            obtain ⟨hfhp, hft⟩ := (hmem3 f).mp hf
            obtain ⟨f0, hfm, -, hfk, -, hflen, -⟩ := htransU f hfhp
            exact ⟨f0, hfm, hft, hfk, ⟨hcf.1, by rw [← hflen]; exact hcf.2⟩⟩
          by_cases hcondR : 0 ≤ i ∧ i < 0 + s.current_level ∧ updAt upd i = e2.1 ∧
              n0.forward.get? i = some (some t)
          · -- this slot was unlinked: it holds `t`'s old successor
            rw [hslots i, if_pos hcondR]
            have hlaw0 : slotLaw s.nodes_storage (ekey (e2.1, n0)) i
                (n0.forward.get? i) := hInv.law (e2.1, n0) hm0 i
            rw [hcondR.2.2.2] at hlaw0
            simp only [slotLaw] at hlaw0
            obtain ⟨nb, hnb, -, hnblen, hbgt2, hbmin2⟩ := hlaw0
            rw [htn] at hnb
            cases Option.some.inj hnb
            have hstrict : ∀ f0 a0, (a0, f0) ∈ s.nodes_storage → a0 ≠ 0 → a0 ≠ t →
                cand i (a0, f0) → ekey (e2.1, n0) < (f0.key : WithBot K) →
                tn.key < f0.key := by
              intro f0 a0 hfm ha0 hat hcf hgt
              have hle := hbmin2 (a0, f0) hfm hcf hgt
              rcases lt_or_eq_of_le hle with hlt | heq2
              · exact hlt
              · exfalso
                have := hInv.keys_inj (t, tn) htmem (a0, f0) hfm ht0 ha0 heq2
                rw [Prod.mk.injEq] at this
                exact hat this.1.symm
            have hgt2 : tn.forward.get? i = some (tn.forward.get ⟨i, hnblen⟩) :=
              List.get?_eq_get hnblen
            have htlaw : slotLaw s.nodes_storage (ekey (t, tn)) i
                (tn.forward.get? i) := hInv.law (t, tn) htmem i
            rw [hgt2] at htlaw
            have hekt : ekey (t, tn) = (tn.key : WithBot K) := by simp [ekey, ht0]
            rw [hekt] at htlaw
            rw [hgt2, hekey]
            rcases hy : tn.forward.get ⟨i, hnblen⟩ with _ | c
            · rw [hy] at htlaw
              simp only [slotLaw] at htlaw ⊢
              intro f hf hcf hlt
              obtain ⟨f0, hfm, hft, hfk, hcf0⟩ := hcand3 f hf hcf
              rw [hfk] at hlt
              exact htlaw (f.1, f0) hfm hcf0
                (WithBot.coe_lt_coe.mpr (hstrict f0 f.1 hfm hcf.1 hft hcf0 hlt))
            · rw [hy] at htlaw
              simp only [slotLaw] at htlaw ⊢
              obtain ⟨nc, hnc, hc0, hclen2, hcgt, hcmin⟩ := htlaw
              have hct : c ≠ t := by
                intro hcc
                rw [hcc, htn] at hnc
                cases Option.some.inj hnc
                exact absurd hcgt (lt_irrefl _)
              obtain ⟨nc', hnc', hck, -, hcl, -⟩ := hpatchU c nc hnc
              refine ⟨nc', by rw [hfind3 c, if_neg hct]; exact hnc', hc0,
                by rw [hcl]; exact hclen2, ?_, ?_⟩
              · rw [hck]
                exact lt_trans hbgt2 hcgt
              · intro f hf hcf hlt
                obtain ⟨f0, hfm, hft, hfk, hcf0⟩ := hcand3 f hf hcf
                rw [hck, hfk]
                rw [hfk] at hlt
                exact hcmin (f.1, f0) hfm hcf0
                  (WithBot.coe_lt_coe.mpr (hstrict f0 f.1 hfm hcf.1 hft hcf0 hlt))
          · -- an untouched slot
            rw [hslots i, if_neg hcondR]
            have hlaw0 : slotLaw s.nodes_storage (ekey (e2.1, n0)) i
                (n0.forward.get? i) := hInv.law (e2.1, n0) hm0 i
            rw [hekey]
            rcases hgi : n0.forward.get? i with _ | x2
            · exact trivial
            · rw [hgi] at hlaw0
              have hilen : i < n0.forward.length := lt_length_of_get?_eq_some hgi
              rcases x2 with _ | c
              · simp only [slotLaw] at hlaw0 ⊢
                intro f hf hcf hlt
                obtain ⟨f0, hfm, hft, hfk, hcf0⟩ := hcand3 f hf hcf
                exact hlaw0 (f.1, f0) hfm hcf0 (by rw [← hfk]; exact hlt)
              · have hct : c ≠ t := by
                  intro hcc
                  rw [hcc] at hlaw0 hgi
                  simp only [slotLaw] at hlaw0
                  obtain ⟨nb, hnb, -, hnblen, hbgt2, hbmin2⟩ := hlaw0
                  rw [htn] at hnb
                  cases Option.some.inj hnb
                  by_cases hicl : i < s.current_level
                  · have hne2 : updAt upd i ≠ e2.1 := by
                      intro hup
                      exact hcondR ⟨by omega, by omega, hup, hgi⟩
                    have hlo2 : ekey (e2.1, n0) < (key : WithBot K) := by
                      rw [← hkey]
                      exact hbgt2
                    obtain ⟨pn, hpn, hpz, hplen, hmgt, hmlt⟩ :=
                      pred_between hInv hpreds hm0 i (by omega) hne2 hilen hlo2
                    have hle := hbmin2 (updAt upd i, pn) (findNode_mem hpn)
                      ⟨hpz, hplen⟩ hmgt
                    rw [hkey] at hle
                    exact absurd (lt_of_le_of_lt hle hmlt) (lt_irrefl _)
                  · have hhh : tn.forward.length ≤ s.current_level :=
                      (hInv.height_le (t, tn) htmem ht0).2
                    omega
                simp only [slotLaw] at hlaw0 ⊢
                obtain ⟨nc, hnc, hc0, hclen2, hcgt, hcmin⟩ := hlaw0
                obtain ⟨nc', hnc', hck, -, hcl, -⟩ := hpatchU c nc hnc
                refine ⟨nc', by rw [hfind3 c, if_neg hct]; exact hnc', hc0,
                  by rw [hcl]; exact hclen2, by rw [hck]; exact hcgt, ?_⟩
                intro f hf hcf hlt
                obtain ⟨f0, hfm, hft, hfk, hcf0⟩ := hcand3 f hf hcf
                rw [hck, hfk]
                exact hcmin (f.1, f0) hfm hcf0 (by rw [← hfk]; exact hlt)
      · -- the return flag
        exact ⟨fun _ => ⟨tn.value, t, tn, htmem, ht0, hkey, rfl⟩, fun _ => rfl⟩
      · -- the key/value abstraction
        intro k v
        constructor
        · rintro ⟨a, n, hmem, ha0, hk, hv⟩
          obtain ⟨hahp, hat⟩ := (hmem3 (a, n)).mp hmem
          obtain ⟨n0, hm0, -, hk0, hv0, -, -⟩ := htransU (a, n) hahp
          refine ⟨?_, a, n0, hm0, ha0, by rw [← hk0]; exact hk, by rw [← hv0]; exact hv⟩
          intro hke
          apply hat
          have heq := hInv.keys_inj (a, n0) hm0 (t, tn) htmem ha0 ht0
            (by rw [← hk0, hk, hke, hkey])
          rw [Prod.mk.injEq] at heq
          exact heq.1
        · rintro ⟨hkne, a, n, hmem, ha0, hk, hv⟩
          have hfa : findNode s.nodes_storage a = some n :=
            mem_findNode hInv.ids_nodup hmem
          obtain ⟨n', hn', hk', hv', -, -⟩ := hpatchU a n hfa
          have hat : a ≠ t := by
            intro hc
            apply hkne
            rw [← hk]
            have hmem2 : (t, n) ∈ s.nodes_storage := by rw [← hc]; exact hmem
            rw [entry_eq_of_mem hInv hmem2 htmem]
            exact hkey
          exact ⟨a, n', (hmem3 (a, n')).mpr ⟨findNode_mem hn', hat⟩, ha0,
            by rw [hk', hk], by rw [hv', hv]⟩
    · -- key mismatch: nothing to remove
      have hfree := keyFree_of_succ_ne hInv hfp hxlaw htn hkey
      refine ⟨s, false,
        by simp only [remove, hrun, hcn, hx, htn, if_pos hkey], hInv, rfl, ?_, ?_⟩
      · constructor
        · intro h; cases h
        · rintro ⟨v, a, n, hm, h0, hk, -⟩
          exact absurd hk (hfree (a, n) hm h0)
      · intro k v
        constructor
        · intro h
          refine ⟨?_, h⟩
          intro hke
          obtain ⟨a, n, hm, h0, hk, -⟩ := h
          exact hfree (a, n) hm h0 (by rw [hk, hke])
        · exact fun h => h.2

/-! ### Per-level chains (for the strict-increase invariant) -/

/-- The keys along the forward chain at level `i` starting from the given
pointer (fuel-bounded; `nodes_storage.length + 1` always suffices under
`Inv`). -/
def chainFrom (s : SkipList K V) (i : Nat) : Nat → Option Nat → List K
  | _, none => []
  | 0, some _ => []
  | fuel + 1, some a =>
      match findNode s.nodes_storage a with
      | none => []
      | some n => n.key :: chainFrom s i fuel (n.forward.get? i).join

/-- The keys along the level-`i` chain hanging off the head. -/
def levelChain (s : SkipList K V) (i : Nat) : List K :=
  match findNode s.nodes_storage 0 with
  | none => []
  | some hn => chainFrom s i (s.nodes_storage.length + 1) (hn.forward.get? i).join

theorem chainFrom_sorted {s : SkipList K V} (hInv : Inv s) (i : Nat) :
    ∀ (fuel : Nat) (b : Nat) (nb : Node K V),
      findNode s.nodes_storage b = some nb → b ≠ 0 → i < nb.forward.length →
      List.Chain' (· < ·) (chainFrom s i fuel (some b)) ∧
      ∀ k ∈ chainFrom s i fuel (some b), nb.key ≤ k := by
  intro fuel
  induction fuel with
  | zero =>
      intro b nb _ _ _
      exact ⟨List.chain'_nil, by intro k hk; cases hk⟩
  | succ fuel ih =>
      intro b nb hfb hb0 hlen
      have hget : nb.forward.get? i = some (nb.forward.get ⟨i, hlen⟩) :=
        List.get?_eq_get hlen
      have hlaw : slotLaw s.nodes_storage (ekey (b, nb)) i (nb.forward.get? i) :=
        hInv.law (b, nb) (findNode_mem hfb) i
      rw [hget] at hlaw
      have hchain : chainFrom s i (fuel + 1) (some b) =
          nb.key :: chainFrom s i fuel (nb.forward.get? i).join := by
        simp only [chainFrom, hfb]
      rcases hx : nb.forward.get ⟨i, hlen⟩ with _ | c
      · rw [hx] at hlaw
        have hjoin : (nb.forward.get? i).join = none := by rw [hget, hx]; rfl
        have hnil : chainFrom s i fuel none = [] := by cases fuel <;> rfl
        rw [hchain, hjoin, hnil]
        exact ⟨List.chain'_singleton _, by
          intro k hk
          rw [List.mem_singleton] at hk
          rw [hk]⟩
      · rw [hx] at hlaw
        simp only [slotLaw] at hlaw
        obtain ⟨nc, hnc, hc0, hclen, hcgt, -⟩ := hlaw
        have hjoin : (nb.forward.get? i).join = some c := by rw [hget, hx]; rfl
        have hkey : nb.key < nc.key := by
          have : ekey (b, nb) = (nb.key : WithBot K) := by simp [ekey, hb0]
          rw [this] at hcgt
          exact WithBot.coe_lt_coe.mp hcgt
        obtain ⟨hch, hbd⟩ := ih c nc hnc hc0 hclen
        rw [hchain, hjoin]
        constructor
        · rw [List.chain'_cons']
          refine ⟨?_, hch⟩
          intro y hy
          have hymem : y ∈ chainFrom s i fuel (some c) := by
            rcases hhd : (chainFrom s i fuel (some c)).head? with _ | z
            · rw [hhd] at hy; cases hy
            · rw [hhd] at hy
              cases hy
              exact List.mem_of_mem_head? hhd
          exact lt_of_lt_of_le hkey (hbd y hymem)
        · intro k hk
          rcases List.mem_cons.mp hk with hk | hk
          · rw [hk]
          · exact le_trans (le_of_lt hkey) (hbd k hk)

/-- At every level the chain of keys reachable from the head is strictly
increasing. -/
theorem levelChain_sorted {s : SkipList K V} (hInv : Inv s) (i : Nat) :
    List.Chain' (· < ·) (levelChain s i) := by
  unfold levelChain
  rcases hfh : findNode s.nodes_storage 0 with _ | hn
  · exact List.chain'_nil
  · show List.Chain' (· < ·)
      (chainFrom s i (s.nodes_storage.length + 1) (hn.forward.get? i).join)
    rcases hgi : hn.forward.get? i with _ | x
    · exact List.chain'_nil
    · rcases x with _ | c
      · exact List.chain'_nil
      · have hlaw : slotLaw s.nodes_storage (ekey (0, hn)) i (hn.forward.get? i) :=
          hInv.law (0, hn) (findNode_mem hfh) i
        rw [hgi] at hlaw
        simp only [slotLaw] at hlaw
        obtain ⟨nc, hnc, hc0, hclen, -, -⟩ := hlaw
        exact (chainFrom_sorted hInv i _ c nc hnc hc0 hclen).1

/-- The initial state satisfies the invariant whenever `max_level ≥ 1`
(the constructor itself performs no validation; `max_level = 0` yields a
state on which the operations hit out-of-bounds accesses). -/
theorem init_inv {max_level : Nat} (hm : 1 ≤ max_level) :
    Inv (init max_level : SkipList K V) := by
  refine ⟨?_, ?_, ?_, le_refl 1, hm, ?_, ?_, ?_⟩
  · simp [init]
  · intro e he
    simp only [init, List.mem_singleton] at he
    rw [he]
    exact Nat.zero_lt_one
  · exact ⟨⟨default, default, List.replicate max_level none⟩, by simp [init, findNode],
      by simp [init]⟩
  · intro e he h0
    simp only [init, List.mem_singleton] at he
    rw [he] at h0
    exact absurd rfl h0
  · intro e he f hf he0 _ _
    simp only [init, List.mem_singleton] at he
    rw [he] at he0
    exact absurd rfl he0
  · intro e he i
    simp only [init, List.mem_singleton] at he
    subst he
    show slotLaw (init max_level : SkipList K V).nodes_storage
      (ekey ((0 : Nat), (⟨default, default, List.replicate max_level none⟩ : Node K V))) i
      ((List.replicate max_level (none : Option Nat)).get? i)
    rcases hgi : (List.replicate max_level (none : Option Nat)).get? i with _ | x
    · exact trivial
    · have hx : x = none := List.eq_of_mem_replicate (List.get?_mem hgi)
      subst hx
      simp only [slotLaw]
      intro f hf hcf
      simp only [init, List.mem_singleton] at hf
      rw [hf] at hcf
      exact absurd rfl hcf.1

/-- The empty state maps no key. -/
theorem init_mapsTo (max_level : Nat) (k : K) (v : V) :
    ¬ MapsTo (init max_level : SkipList K V) k v := by
  rintro ⟨a, n, hm, h0, -, -⟩
  simp only [init, List.mem_singleton] at hm
  rw [Prod.mk.injEq] at hm
  exact h0 hm.1

end SkipList

/-! ## The store engine (`src/include/kv_store.h`)

`KVStore` binds a `SkipList Int (List Nat)` memtable (the C++
`SkipList<int, std::string>` with `max_level = 6`) to the WAL file,
modelled as the list of bytes it contains.  The three I/O steps of
`append_wal` (`fwrite` / `fflush` / `fsync`) are driven by an oracle of
three booleans; a C++ exception becomes an `Except.error` carrying the
exception message, and the store object as it is left when the exception
propagates. -/

/-- Success/failure of the three I/O steps of one `append_wal` call. -/
structure IoOutcome where
  write : Bool
  flush : Bool
  sync : Bool
deriving DecidableEq

/-- All three steps succeed. -/
def ioOk : IoOutcome := ⟨true, true, true⟩

structure KVStore where
  memtable : SkipList Int (List Nat)
  wal_file : List Nat
deriving DecidableEq

namespace KVStore

/-- The constructor on a directory with no (or an empty) WAL:
a fresh memtable (`SkipList<int, std::string> memtable_{6}`) and an
empty log. -/
def openFresh : KVStore :=
  { memtable := SkipList.init 6, wal_file := [] }

/-- `append_wal`: write to the user buffer, flush to the kernel, sync to
media; the first failing step throws.  A failing `fwrite` (short write)
leaves unspecified user-buffer contents, modelled as leaving the file
unchanged; after a failing flush/sync the bytes are in the buffer/page
cache, so the file keeps them. -/
def append_wal (file data : List Nat) (io : IoOutcome) : List Nat × Option String :=
  if io.write = false then (file, some "Failed to write to WAL file")
  else if io.flush = false then (file ++ data, some "WAL flush failed")
  else if io.sync = false then (file ++ data, some "WAL sync (fsync) failed")
  else (file ++ data, none)

/-- `KVStore::put`: log, then apply.  `none` marks skip-list undefined
behaviour (never reached from a valid store). -/
def put (st : KVStore) (key : Int) (value : List Nat) (coins : List Bool)
    (io : IoOutcome) : Option (KVStore × Except String Unit) :=
  let record : LogRecord := ⟨LogType.kPut, toDecimalBytes key, value⟩
  match append_wal st.wal_file (encode_log_record record) io with
  | (file2, some e) => some ({ st with wal_file := file2 }, Except.error e)
  | (file2, none) =>
      match SkipList.insert st.memtable key value coins with
      | none => none
      | some mt => some ({ memtable := mt, wal_file := file2 }, Except.ok ())

/-- `KVStore::get`: a pure memtable lookup. -/
def get (st : KVStore) (key : Int) : Option (Option (List Nat)) :=
  SkipList.search st.memtable key

/-- `KVStore::del`: log a `kDelete` record (empty value), then remove,
reporting `remove`'s boolean. -/
def del (st : KVStore) (key : Int) (io : IoOutcome) :
    Option (KVStore × Except String Bool) :=
  let record : LogRecord := ⟨LogType.kDelete, toDecimalBytes key, []⟩
  match append_wal st.wal_file (encode_log_record record) io with
  | (file2, some e) => some ({ st with wal_file := file2 }, Except.error e)
  | (file2, none) =>
      match SkipList.remove st.memtable key with
      | none => none
      | some (mt, b) => some ({ memtable := mt, wal_file := file2 }, Except.ok b)

/-- The replay loop of `replay_wal`: read a 13-byte header (checksum,
key_len, value_len, kind), the key and value bytes, verify the CRC over
the rebuilt buffer, and apply; stop at the first short read or checksum
mismatch; skip records whose key fails `std::stoi` (and, the kind being
neither 0 nor 1, apply nothing and continue).  `coinss` supplies the
promotion coins of the replayed inserts, one list per applied insert;
the fuel (one unit per frame, `bytes.length` suffices) makes the loop
structurally recursive. -/
def replay_go : SkipList Int (List Nat) → List (List Bool) → List Nat → Nat →
    Option (SkipList Int (List Nat))
  | mt, _, _, 0 => some mt
  | mt, coinss, bytes, fuel + 1 =>
    if bytes.length < 4 then some mt else
    let stored_checksum := dec32 bytes
    let r1 := bytes.drop 4
    if r1.length < 4 then some mt else
    let key_len := dec32 r1
    let r2 := r1.drop 4
    if r2.length < 4 then some mt else
    let value_len := dec32 r2
    let r3 := r2.drop 4
    if r3.length < 1 then some mt else
    let type_u8 := r3.headD 0
    let r4 := r3.drop 1
    if r4.length < key_len then some mt else
    let key := r4.take key_len
    let r5 := r4.drop key_len
    if r5.length < value_len then some mt else
    let value := r5.take value_len
    let rest := r5.drop value_len
    let verify_buffer := le32 key_len ++ le32 value_len ++ [type_u8] ++ key ++ value
    if stored_checksum ≠ crc32 verify_buffer then some mt
    else
      match stoiModel key with
      | none => replay_go mt coinss rest fuel
      | some key_int =>
          if type_u8 = 0 then
            match SkipList.insert mt key_int value (coinss.headD []) with
            | none => none
            | some mt2 => replay_go mt2 coinss.tail rest fuel
          else if type_u8 = 1 then
            match SkipList.remove mt key_int with
            | none => none
            | some (mt2, _) => replay_go mt2 coinss rest fuel
          else replay_go mt coinss rest fuel

/-- `KVStore::replay_wal` applied by the constructor to a non-empty
existing log: replay into a fresh memtable. -/
def replay_wal (bytes : List Nat) (coinss : List (List Bool)) :
    Option (SkipList Int (List Nat)) :=
  replay_go (SkipList.init 6) coinss bytes bytes.length

/-- Reopening a directory holding the given WAL bytes: replay, then hold
the file open for append. -/
def reopen (bytes : List Nat) (coinss : List (List Bool)) : Option KVStore :=
  (replay_wal bytes coinss).map fun mt => { memtable := mt, wal_file := bytes }

end KVStore

/-- A client operation against the store engine (the promotion coins of
each put made explicit). -/
inductive SEOp where
  | putOp (key : Int) (value : List Nat) (coins : List Bool)
  | delOp (key : Int)

/-- Run a sequence of operations with all I/O succeeding. -/
def KVStore.runOps : KVStore → List SEOp → Option KVStore
  | st, [] => some st
  | st, SEOp.putOp k v coins :: ops =>
      match KVStore.put st k v coins ioOk with
      | some (st2, Except.ok _) => KVStore.runOps st2 ops
      | _ => none
  | st, SEOp.delOp k :: ops =>
      match KVStore.del st k ioOk with
      | some (st2, Except.ok _) => KVStore.runOps st2 ops
      | _ => none

/-- The bytes the write path appends for one operation. -/
def SEOp.frame : SEOp → List Nat
  | .putOp k v _ => encode_log_record ⟨LogType.kPut, toDecimalBytes k, v⟩
  | .delOp k => encode_log_record ⟨LogType.kDelete, toDecimalBytes k, []⟩

/-- The WAL contents produced by a sequence of operations. -/
def logBytes : List SEOp → List Nat
  | [] => []
  | op :: ops => op.frame ++ logBytes ops

/-- The specification-side state: a plain function from keys to optional
values. -/
def modelStep (m : Int → Option (List Nat)) : SEOp → Int → Option (List Nat)
  | .putOp k v _ => fun q => if q = k then some v else m q
  | .delOp k => fun q => if q = k then none else m q

def runModel (m : Int → Option (List Nat)) (ops : List SEOp) : Int → Option (List Nat) :=
  ops.foldl modelStep m

/-- The "most recent put, unless deleted afterwards" reading used by the
specification, as a fold over the operation sequence. -/
def lastWrite (ops : List SEOp) (k : Int) : Option (List Nat) :=
  ops.foldl
    (fun acc op =>
      match op with
      | SEOp.putOp q v _ => if q = k then some v else acc
      | SEOp.delOp q => if q = k then none else acc)
    none

/-- A key representable as a C++ `int`, and a value whose length fits the
`uint32_t` length field. -/
def SEOp.wf : SEOp → Prop
  | .putOp k v _ => -(2 ^ 31) ≤ k ∧ k ≤ 2 ^ 31 - 1 ∧ v.length < 2 ^ 32
  | .delOp k => -(2 ^ 31) ≤ k ∧ k ≤ 2 ^ 31 - 1

/-! ## The sorted-table builder (`src/include/sstable_builder.h`)

The builder's file is the list of bytes written so far; `offset_` is a
`uint64_t`, so it advances modulo `2 ^ 64`.  `Finish` throws on a second
call, modelled with `Except`. -/

/-- `Footer::kTableMagicNumber`. -/
def kTableMagicNumber : Nat := 0xdb4775248b80fb57

structure SSTableBuilder where
  offset : Nat
  finished : Bool
  data_block_buffer : List Nat
  index_block_buffer : List Nat
  last_key : List Nat
  file : List Nat
deriving DecidableEq

namespace SSTableBuilder

/-- The constructor (on a path whose file can be created). -/
def create : SSTableBuilder :=
  { offset := 0, finished := false, data_block_buffer := [],
    index_block_buffer := [], last_key := [], file := [] }

/-- `AppendUint32`: append a `uint32_t` little-endian. -/
def AppendUint32 (buf : List Nat) (val : Nat) : List Nat := buf ++ le32 val

/-- `AppendUint64`: append a `uint64_t` little-endian. -/
def AppendUint64 (buf : List Nat) (val : Nat) : List Nat := buf ++ le64 val

/-- `WriteBlock`: flush the data-block buffer (with its CRC) to the file
and append an index entry `keyLen | key | offset(8B) | size(8B)` for it. -/
def WriteBlock (b : SSTableBuilder) : SSTableBuilder :=
  if b.data_block_buffer = [] then b
  else
    let buf := AppendUint32 b.data_block_buffer (crc32 b.data_block_buffer)
    let block_size := buf.length
    { b with
      file := b.file ++ buf
      offset := (b.offset + block_size) % 2 ^ 64
      index_block_buffer :=
        AppendUint64
          (AppendUint64 (AppendUint32 b.index_block_buffer b.last_key.length ++ b.last_key)
            b.offset)
          block_size
      data_block_buffer := [] }

/-- `Add`: append `keyLen | valueLen | key | value` to the data-block
buffer, remember the key, and flush once the buffer reaches 4096 bytes. -/
def Add (b : SSTableBuilder) (key value : List Nat) : SSTableBuilder :=
  let b2 := { b with
    data_block_buffer :=
      AppendUint32 (AppendUint32 b.data_block_buffer key.length) value.length
        ++ key ++ value
    last_key := key }
  if 4096 ≤ b2.data_block_buffer.length then WriteBlock b2 else b2

/-- `WriteFooter`: 48 bytes — a zero metaindex handle (20B), the index
handle's offset at byte 20 and size at byte 28, 4 bytes of padding, and
the magic number at byte 40. -/
def WriteFooter (b : SSTableBuilder) (handle_offset handle_size : Nat) : SSTableBuilder :=
  let footer := List.replicate 20 0 ++ le64 handle_offset ++ le64 handle_size ++
    List.replicate 4 0 ++ le64 kTableMagicNumber
  { b with file := b.file ++ footer, offset := (b.offset + 48) % 2 ^ 64 }

/-- `Finish`: flush any pending data block, write the index block (CRC
appended) recording its handle, then the footer; a second call throws. -/
def Finish (b : SSTableBuilder) : Except String SSTableBuilder :=
  if b.finished then Except.error "Finish() called twice"
  else
    let b1 := if b.data_block_buffer ≠ [] then WriteBlock b else b
    let step :=
      if b1.index_block_buffer ≠ [] then
        let ib := AppendUint32 b1.index_block_buffer (crc32 b1.index_block_buffer)
        (({ b1 with
            file := b1.file ++ ib
            offset := (b1.offset + ib.length) % 2 ^ 64
            index_block_buffer := ib } : SSTableBuilder),
          b1.offset, ib.length)
      else (b1, 0, 0)
    let b2 := WriteFooter step.1 step.2.1 step.2.2
    Except.ok { b2 with finished := true }

/-- `FileSize`. -/
def FileSize (b : SSTableBuilder) : Nat := b.offset

/-- `Finished`. -/
def Finished (b : SSTableBuilder) : Bool := b.finished

/-- Build a table from a list of (key, value) pairs, in order. -/
def build (kvs : List (List Nat × List Nat)) : SSTableBuilder :=
  kvs.foldl (fun b kv => Add b kv.1 kv.2) create

end SSTableBuilder

/-! ## Running operation sequences against the store -/

theorem option_eq_of_some_iff {A : Type} {r m : Option A}
    (h : ∀ v, r = some v ↔ m = some v) : r = m := by
  cases r with
  | none =>
      cases m with
      | none => rfl
      | some w => exact absurd ((h w).mpr rfl) (by simp)
  | some w => exact ((h w).mp rfl).symm

theorem runModel_foldl (ops : List SEOp) :
    ∀ (m : Int → Option (List Nat)) (k : Int),
      runModel m ops k =
        ops.foldl
          (fun acc op =>
            match op with
            | SEOp.putOp q v _ => if q = k then some v else acc
            | SEOp.delOp q => if q = k then none else acc)
          (m k) := by
  induction ops with
  | nil => intro m k; rfl
  | cons op ops ih =>
      intro m k
      cases op with
      | putOp q v coins =>
          show runModel (modelStep m (SEOp.putOp q v coins)) ops k = _
          rw [ih]
          simp only [List.foldl_cons, modelStep]
          by_cases hq : k = q
          · rw [if_pos hq, if_pos hq.symm]
          · rw [if_neg hq, if_neg fun h => hq h.symm]
      | delOp q =>
          show runModel (modelStep m (SEOp.delOp q)) ops k = _
          rw [ih]
          simp only [List.foldl_cons, modelStep]
          by_cases hq : k = q
          · rw [if_pos hq, if_pos hq.symm]
          · rw [if_neg hq, if_neg fun h => hq h.symm]

theorem runModel_none_lastWrite (ops : List SEOp) (k : Int) :
    runModel (fun _ => none) ops k = lastWrite ops k :=
  runModel_foldl ops (fun _ => none) k

/-- Every operation of a run succeeds when I/O succeeds, the invariant is
preserved, the log grows by exactly the operations' frames, and the
memtable tracks the functional model pointwise. -/
theorem runOps_spec (ops : List SEOp) :
    ∀ (st : KVStore) (m : Int → Option (List Nat)),
      SkipList.Inv st.memtable → 1 ≤ st.memtable.max_level →
      (∀ k v, SkipList.MapsTo st.memtable k v ↔ m k = some v) →
      ∃ st2, KVStore.runOps st ops = some st2 ∧ SkipList.Inv st2.memtable ∧
        st2.memtable.max_level = st.memtable.max_level ∧
        st2.wal_file = st.wal_file ++ logBytes ops ∧
        (∀ k v, SkipList.MapsTo st2.memtable k v ↔ runModel m ops k = some v) := by
  induction ops with
  | nil =>
      intro st m hInv hm hmod
      exact ⟨st, rfl, hInv, rfl, by simp [logBytes], fun k v => hmod k v⟩
  | cons op ops ih =>
      intro st m hInv hm hmod
      cases op with
      | putOp k v coins =>
          obtain ⟨mt, hins, hInv2, hml, hiff⟩ := SkipList.insert_spec hInv hm k v coins
          have hmod2 : ∀ q w, SkipList.MapsTo mt q w ↔
              modelStep m (SEOp.putOp k v coins) q = some w := by
            intro q w
            rw [hiff q w]
            show _ ↔ (if q = k then some v else m q) = some w
            by_cases hq : q = k
            · rw [if_pos hq]
              constructor
              · rintro (⟨-, rfl⟩ | ⟨hne, -⟩)
                · rfl
                · exact absurd hq hne
              · intro h
                exact Or.inl ⟨hq, (Option.some.inj h).symm⟩
            · rw [if_neg hq]
              constructor
              · rintro (⟨hqk, -⟩ | ⟨-, hmt⟩)
                · exact absurd hqk hq
                · exact (hmod q w).mp hmt
              · intro h
                exact Or.inr ⟨hq, (hmod q w).mpr h⟩
          obtain ⟨st2, hrun, hInv3, hml3, hwal3, hmod3⟩ :=
            ih ⟨mt, st.wal_file ++ (SEOp.putOp k v coins).frame⟩
              (modelStep m (SEOp.putOp k v coins)) hInv2 (by rw [hml]; exact hm) hmod2
          have hput : KVStore.put st k v coins ioOk =
              some (⟨mt, st.wal_file ++ (SEOp.putOp k v coins).frame⟩, Except.ok ()) := by
            simp [KVStore.put, KVStore.append_wal, ioOk, hins, SEOp.frame]
          refine ⟨st2, ?_, hInv3, by rw [hml3]; exact hml, ?_, fun q w => hmod3 q w⟩
          · show KVStore.runOps st (SEOp.putOp k v coins :: ops) = some st2
            simp only [KVStore.runOps, hput]
            exact hrun
          · rw [hwal3]
            simp [logBytes, List.append_assoc]
      | delOp k =>
          obtain ⟨mt, b, hrm, hInv2, hml, hbiff, hiff⟩ := SkipList.remove_spec hInv k
          have hmod2 : ∀ q w, SkipList.MapsTo mt q w ↔
              modelStep m (SEOp.delOp k) q = some w := by
            intro q w
            rw [hiff q w]
            show _ ↔ (if q = k then none else m q) = some w
            by_cases hq : q = k
            · rw [if_pos hq]
              constructor
              · rintro ⟨hne, -⟩
                exact absurd hq hne
              · intro h
                cases h
            · rw [if_neg hq]
              constructor
              · rintro ⟨-, hmt⟩
                exact (hmod q w).mp hmt
              · intro h
                exact ⟨hq, (hmod q w).mpr h⟩
          obtain ⟨st2, hrun, hInv3, hml3, hwal3, hmod3⟩ :=
            ih ⟨mt, st.wal_file ++ (SEOp.delOp k).frame⟩
              (modelStep m (SEOp.delOp k)) hInv2 (by rw [hml]; exact hm) hmod2
          have hdel : KVStore.del st k ioOk =
              some (⟨mt, st.wal_file ++ (SEOp.delOp k).frame⟩, Except.ok b) := by
            simp [KVStore.del, KVStore.append_wal, ioOk, hrm, SEOp.frame]
          refine ⟨st2, ?_, hInv3, by rw [hml3]; exact hml, ?_, fun q w => hmod3 q w⟩
          · show KVStore.runOps st (SEOp.delOp k :: ops) = some st2
            simp only [KVStore.runOps, hdel]
            exact hrun
          · rw [hwal3]
            simp [logBytes, List.append_assoc]

/-! ## Replay: frame consumption -/

@[simp] theorem drop_four_le32 (x : Nat) (l : List Nat) : (le32 x ++ l).drop 4 = l := by
  rw [← le32_length x]
  exact List.drop_left _ _

/-- Short input (a torn tail of fewer than 13 bytes): the loop breaks at
one of the header reads, leaving the memtable as it is. -/
theorem replay_go_torn (mt : SkipList Int (List Nat)) (coinss : List (List Bool))
    (bytes : List Nat) (fuel : Nat) (h : bytes.length < 13) :
    KVStore.replay_go mt coinss bytes fuel = some mt := by
  cases fuel with
  | zero => rfl
  | succ n =>
      simp only [KVStore.replay_go, List.length_drop]
      by_cases h1 : bytes.length < 4
      · rw [if_pos h1]
      · rw [if_neg h1]
        by_cases h2 : bytes.length - 4 < 4
        · rw [if_pos h2]
        · rw [if_neg h2]
          by_cases h3 : bytes.length - 4 - 4 < 4
          · rw [if_pos h3]
          · rw [if_neg h3, if_pos (by omega)]

/-- Consuming one well-formed frame from the head of the input: all the
header/body reads succeed, the checksum verifies, and the loop applies
the record and continues on the remaining bytes with one unit of fuel
spent. -/
theorem replay_go_frame (mt : SkipList Int (List Nat)) (coinss : List (List Bool))
    (r : LogRecord) (rest : List Nat) (fuel : Nat)
    (hk : r.key.length < 2 ^ 32) (hv : r.value.length < 2 ^ 32) :
    KVStore.replay_go mt coinss (encode_log_record r ++ rest) (fuel + 1) =
      match stoiModel r.key with
      | none => KVStore.replay_go mt coinss rest fuel
      | some key_int =>
          match r.type with
          | LogType.kPut =>
              match SkipList.insert mt key_int r.value (coinss.headD []) with
              | none => none
              | some mt2 => KVStore.replay_go mt2 coinss.tail rest fuel
          | LogType.kDelete =>
              match SkipList.remove mt key_int with
              | none => none
              | some (mt2, _) => KVStore.replay_go mt2 coinss rest fuel := by
  obtain ⟨t, key, value⟩ := r
  simp only at hk hv
  have hbytes : encode_log_record ⟨t, key, value⟩ ++ rest =
      le32 (crc32 (le32 key.length ++ (le32 value.length ++
          ([t.toByte % 256] ++ (key ++ value))))) ++
        (le32 key.length ++ (le32 value.length ++
          ([t.toByte % 256] ++ (key ++ (value ++ rest))))) := by
    simp only [encode_log_record, mkFrame, List.append_assoc]
  rw [hbytes]
  simp only [KVStore.replay_go, drop_four_le32, dec32_le32,
    Nat.mod_eq_of_lt hk, Nat.mod_eq_of_lt hv, List.singleton_append,
    List.headD_cons, List.drop_succ_cons, List.drop_zero,
    List.length_append, le32_length, List.length_cons]
  rw [if_neg (by omega), if_neg (by omega), if_neg (by omega), if_neg (by omega)]
  rw [if_neg (by simp), if_neg (by simp)]
  rw [List.take_left, List.drop_left, List.take_left, List.drop_left]
  rw [Nat.mod_eq_of_lt (crc32_lt _)]
  rw [if_neg fun hcc => hcc rfl]
  cases t with
  | kPut =>
      simp [LogType.toByte]
  | kDelete =>
      simp [LogType.toByte]

theorem digitsRev_length (fuel : Nat) : ∀ n, (digitsRev fuel n).length ≤ fuel := by
  induction fuel with
  | zero => intro n; simp [digitsRev]
  | succ f ih =>
      intro n
      by_cases hn : n = 0
      · simp [digitsRev, hn]
      · simp only [digitsRev, if_neg hn, List.length_cons]
        exact Nat.succ_le_succ (ih (n / 10))

theorem natDecimal_length (n : Nat) : (natDecimal n).length ≤ n + 1 := by
  by_cases hn : n = 0
  · simp [natDecimal, hn]
  · simp only [natDecimal, if_neg hn, List.length_reverse]
    exact le_trans (digitsRev_length n n) (Nat.le_succ n)

theorem toDecimalBytes_length {k : Int} (hlo : -(2 ^ 31) ≤ k) (hhi : k ≤ 2 ^ 31 - 1) :
    (toDecimalBytes k).length < 2 ^ 32 := by
  unfold toDecimalBytes
  by_cases hk : k < 0
  · rw [if_pos hk]
    simp only [List.length_cons]
    have h1 := natDecimal_length (-k).toNat
    have h2 : (-k).toNat ≤ 2 ^ 31 := by omega
    omega
  · rw [if_neg hk]
    have h1 := natDecimal_length k.toNat
    have h2 : k.toNat ≤ 2 ^ 31 := by omega
    omega

theorem modelStep_put_iff {mt mt2 : SkipList Int (List Nat)}
    {m : Int → Option (List Nat)} (k : Int) (v : List Nat) (coins : List Bool)
    (hmod : ∀ q w, SkipList.MapsTo mt q w ↔ m q = some w)
    (hiff : ∀ q w, SkipList.MapsTo mt2 q w ↔
      (q = k ∧ w = v) ∨ (q ≠ k ∧ SkipList.MapsTo mt q w)) :
    ∀ q w, SkipList.MapsTo mt2 q w ↔
      modelStep m (SEOp.putOp k v coins) q = some w := by
  intro q w
  rw [hiff q w]
  show _ ↔ (if q = k then some v else m q) = some w
  by_cases hq : q = k
  · rw [if_pos hq]
    constructor
    · rintro (⟨-, rfl⟩ | ⟨hne, -⟩)
      · rfl
      · exact absurd hq hne
    · intro h
      exact Or.inl ⟨hq, (Option.some.inj h).symm⟩
  · rw [if_neg hq]
    constructor
    · rintro (⟨hqk, -⟩ | ⟨-, hmt⟩)
      · exact absurd hqk hq
      · exact (hmod q w).mp hmt
    · intro h
      exact Or.inr ⟨hq, (hmod q w).mpr h⟩

theorem modelStep_del_iff {mt mt2 : SkipList Int (List Nat)}
    {m : Int → Option (List Nat)} (k : Int)
    (hmod : ∀ q w, SkipList.MapsTo mt q w ↔ m q = some w)
    (hiff : ∀ q w, SkipList.MapsTo mt2 q w ↔ (q ≠ k ∧ SkipList.MapsTo mt q w)) :
    ∀ q w, SkipList.MapsTo mt2 q w ↔ modelStep m (SEOp.delOp k) q = some w := by
  intro q w
  rw [hiff q w]
  show _ ↔ (if q = k then none else m q) = some w
  by_cases hq : q = k
  · rw [if_pos hq]
    constructor
    · rintro ⟨hne, -⟩
      exact absurd hq hne
    · intro h
      cases h
  · rw [if_neg hq]
    constructor
    · rintro ⟨-, hmt⟩
      exact (hmod q w).mp hmt
    · intro h
      exact ⟨hq, (hmod q w).mpr h⟩

/-- Replaying the frames of a well-formed operation sequence followed by
a short torn tail applies exactly those operations. -/
theorem replay_frames (ops : List SEOp) :
    ∀ (mt : SkipList Int (List Nat)) (coinss : List (List Bool))
      (m : Int → Option (List Nat)) (tail : List Nat) (fuel : Nat),
      SkipList.Inv mt → 1 ≤ mt.max_level →
      (∀ k v, SkipList.MapsTo mt k v ↔ m k = some v) →
      (∀ op ∈ ops, op.wf) → tail.length < 13 →
      (logBytes ops ++ tail).length ≤ fuel →
      ∃ mt2, KVStore.replay_go mt coinss (logBytes ops ++ tail) fuel = some mt2 ∧
        SkipList.Inv mt2 ∧ mt2.max_level = mt.max_level ∧
        (∀ k v, SkipList.MapsTo mt2 k v ↔ runModel m ops k = some v) := by
  induction ops with
  | nil =>
      intro mt coinss m tail fuel hInv hm hmod _ htail _
      exact ⟨mt, replay_go_torn mt coinss tail fuel htail, hInv, rfl, fun k v => hmod k v⟩
  | cons op ops ih =>
      intro mt coinss m tail fuel hInv hm hmod hwf htail hfuel
      have hwfop := hwf op (List.mem_cons_self op ops)
      have hwfops : ∀ o ∈ ops, o.wf := fun o ho => hwf o (List.mem_cons_of_mem op ho)
      cases op with
      | putOp k v coins =>
          obtain ⟨hlo, hhi, hvlen⟩ := hwfop
          have hsplit : logBytes (SEOp.putOp k v coins :: ops) ++ tail =
              encode_log_record ⟨LogType.kPut, toDecimalBytes k, v⟩ ++
                (logBytes ops ++ tail) := by
            simp [logBytes, SEOp.frame, List.append_assoc]
          have hflen : (encode_log_record
              (⟨LogType.kPut, toDecimalBytes k, v⟩ : LogRecord)).length =
              13 + (toDecimalBytes k).length + v.length := encode_log_record_length _
          cases fuel with
          | zero =>
              rw [hsplit, List.length_append, hflen] at hfuel
              omega
          | succ f =>
              obtain ⟨mt', hins, hInv2, hml, hiff⟩ := SkipList.insert_spec hInv hm k v
                (coinss.headD [])
              have hmod2 := modelStep_put_iff k v coins hmod hiff
              obtain ⟨mt2, hrest, hInv3, hml3, hmod3⟩ :=
                ih mt' coinss.tail (modelStep m (SEOp.putOp k v coins)) tail f hInv2
                  (by rw [hml]; exact hm) hmod2 hwfops htail
                  (by rw [hsplit, List.length_append, hflen] at hfuel; omega)
              refine ⟨mt2, ?_, hInv3, by rw [hml3]; exact hml, fun q w => hmod3 q w⟩
              rw [hsplit, replay_go_frame mt coinss ⟨LogType.kPut, toDecimalBytes k, v⟩
                (logBytes ops ++ tail) f (toDecimalBytes_length hlo hhi) hvlen]
              simp only [stoiModel_toDecimalBytes k hlo hhi, hins]
              exact hrest
      | delOp k =>
          obtain ⟨hlo, hhi⟩ := hwfop
          have hsplit : logBytes (SEOp.delOp k :: ops) ++ tail =
              encode_log_record ⟨LogType.kDelete, toDecimalBytes k, []⟩ ++
                (logBytes ops ++ tail) := by
            simp [logBytes, SEOp.frame, List.append_assoc]
          have hflen : (encode_log_record
              (⟨LogType.kDelete, toDecimalBytes k, []⟩ : LogRecord)).length =
              13 + (toDecimalBytes k).length + 0 := encode_log_record_length _
          cases fuel with
          | zero =>
              rw [hsplit, List.length_append, hflen] at hfuel
              omega
          | succ f =>
              obtain ⟨mt', b, hrm, hInv2, hml, hbiff, hiff⟩ := SkipList.remove_spec hInv k
              have hmod2 := modelStep_del_iff k hmod hiff
              obtain ⟨mt2, hrest, hInv3, hml3, hmod3⟩ :=
                ih mt' coinss (modelStep m (SEOp.delOp k)) tail f hInv2
                  (by rw [hml]; exact hm) hmod2 hwfops htail
                  (by rw [hsplit, List.length_append, hflen] at hfuel; omega)
              refine ⟨mt2, ?_, hInv3, by rw [hml3]; exact hml, fun q w => hmod3 q w⟩
              rw [hsplit, replay_go_frame mt coinss ⟨LogType.kDelete, toDecimalBytes k, []⟩
                (logBytes ops ++ tail) f (toDecimalBytes_length hlo hhi) (by simp)]
              simp only [stoiModel_toDecimalBytes k hlo hhi, hrm]
              exact hrest

namespace SkipList

variable {K V : Type} [LinearOrder K] [Inhabited K] [Inhabited V]

/-- `remove` on a key the index does not hold returns the state untouched
and reports `false`. -/
theorem remove_absent {s : SkipList K V} (hInv : Inv s) (key : K)
    (habs : ∀ v, ¬ MapsTo s key v) :
    remove s key = some (s, false) := by
  obtain ⟨upd, fin, cn, hrun, hulen, hpreds, hfp, hcn, hclen⟩ := descend_full hInv key
  obtain ⟨x, hx, hxlaw⟩ := zero_succ hInv hfp hcn hclen
  rcases x with _ | t
  · simp only [remove, hrun, hcn, hx]
  · have hlaw' := hxlaw
    simp only [slotLaw] at hlaw'
    obtain ⟨tn, htn, ht0, htlen, htgt, htmin⟩ := hlaw'
    have hne : tn.key ≠ key := by
      intro he
      exact habs tn.value ⟨t, tn, findNode_mem htn, ht0, he, rfl⟩
    simp only [remove, hrun, hcn, hx, htn, if_pos hne]

end SkipList

/-! ## Running operation sequences against the ordered index itself -/

/-- A client operation against a raw `SkipList` (OI). -/
inductive OIOp (K V : Type) where
  | insOp (key : K) (value : V) (coins : List Bool)
  | rmOp (key : K)

/-- Apply a sequence of `insert`/`remove` calls. -/
def runOI {K V : Type} [LinearOrder K] [Inhabited K] [Inhabited V] :
    SkipList K V → List (OIOp K V) → Option (SkipList K V)
  | s, [] => some s
  | s, OIOp.insOp k v coins :: ops =>
      match SkipList.insert s k v coins with
      | none => none
      | some s2 => runOI s2 ops
  | s, OIOp.rmOp k :: ops =>
      match SkipList.remove s k with
      | none => none
      | some (s2, _) => runOI s2 ops

theorem runOI_spec {K V : Type} [LinearOrder K] [Inhabited K] [Inhabited V]
    (ops : List (OIOp K V)) :
    ∀ s : SkipList K V, SkipList.Inv s → 1 ≤ s.max_level →
      ∃ s2, runOI s ops = some s2 ∧ SkipList.Inv s2 ∧ s2.max_level = s.max_level := by
  induction ops with
  | nil => intro s hInv _; exact ⟨s, rfl, hInv, rfl⟩
  | cons op ops ih =>
      intro s hInv hm
      cases op with
      | insOp k v coins =>
          obtain ⟨s1, hins, hInv1, hml1, -⟩ := SkipList.insert_spec hInv hm k v coins
          obtain ⟨s2, hrun, hInv2, hml2⟩ := ih s1 hInv1 (by rw [hml1]; exact hm)
          refine ⟨s2, ?_, hInv2, by rw [hml2]; exact hml1⟩
          simp only [runOI, hins]
          exact hrun
      | rmOp k =>
          obtain ⟨s1, b, hrm, hInv1, hml1, -, -⟩ := SkipList.remove_spec hInv k
          obtain ⟨s2, hrun, hInv2, hml2⟩ := ih s1 hInv1 (by rw [hml1]; exact hm)
          refine ⟨s2, ?_, hInv2, by rw [hml2]; exact hml1⟩
          simp only [runOI, hrm]
          exact hrun

/-! ## Footer layout of a finished sorted table -/

theorem drop_append_plus {A : Type} (l1 l2 : List A) (n : Nat) :
    (l1 ++ l2).drop (l1.length + n) = l2.drop n := by
  induction l1 with
  | nil => simp
  | cons a t ih => simpa [Nat.succ_add] using ih

/-- Reading the footer fields back out of a file ending in a footer. -/
theorem footer_drop (pre : List Nat) (ho hs : Nat)
    (hoval : ho < 2 ^ 64) (hsval : hs < 2 ^ 64) :
    dec64 ((pre ++ (List.replicate 20 0 ++ le64 ho ++ le64 hs ++ List.replicate 4 0 ++
        le64 kTableMagicNumber)).drop (pre.length + 20)) = ho ∧
    dec64 ((pre ++ (List.replicate 20 0 ++ le64 ho ++ le64 hs ++ List.replicate 4 0 ++
        le64 kTableMagicNumber)).drop (pre.length + 28)) = hs ∧
    dec64 ((pre ++ (List.replicate 20 0 ++ le64 ho ++ le64 hs ++ List.replicate 4 0 ++
        le64 kTableMagicNumber)).drop (pre.length + 40)) = kTableMagicNumber ∧
    (pre ++ (List.replicate 20 0 ++ le64 ho ++ le64 hs ++ List.replicate 4 0 ++
        le64 kTableMagicNumber)).length = pre.length + 48 := by
  have hmagic : kTableMagicNumber < 2 ^ 64 := by norm_num [kTableMagicNumber]
  refine ⟨?_, ?_, ?_, by simp⟩
  · rw [show pre ++ (List.replicate 20 0 ++ le64 ho ++ le64 hs ++ List.replicate 4 0 ++
        le64 kTableMagicNumber) =
      (pre ++ List.replicate 20 0) ++ (le64 ho ++ (le64 hs ++ (List.replicate 4 0 ++
        le64 kTableMagicNumber))) by simp [List.append_assoc]]
    rw [List.drop_left' (by simp : (pre ++ List.replicate 20 (0 : Nat)).length =
      pre.length + 20)]
    exact dec64_le64 ho _ hoval
  · rw [show pre ++ (List.replicate 20 0 ++ le64 ho ++ le64 hs ++ List.replicate 4 0 ++
        le64 kTableMagicNumber) =
      ((pre ++ List.replicate 20 0) ++ le64 ho) ++ (le64 hs ++ (List.replicate 4 0 ++
        le64 kTableMagicNumber)) by simp [List.append_assoc]]
    rw [List.drop_left' (by simp [Nat.add_assoc] :
      ((pre ++ List.replicate 20 (0 : Nat)) ++ le64 ho).length = pre.length + 28)]
    exact dec64_le64 hs _ hsval
  · rw [show pre ++ (List.replicate 20 0 ++ le64 ho ++ le64 hs ++ List.replicate 4 0 ++
        le64 kTableMagicNumber) =
      (((pre ++ List.replicate 20 0) ++ le64 ho) ++ (le64 hs ++ List.replicate 4 0)) ++
        le64 kTableMagicNumber by simp [List.append_assoc]]
    rw [List.drop_left' (by simp [Nat.add_assoc] :
      (((pre ++ List.replicate 20 (0 : Nat)) ++ le64 ho) ++
        (le64 hs ++ List.replicate 4 0)).length = pre.length + 40)]
    rw [show le64 kTableMagicNumber = le64 kTableMagicNumber ++ [] by simp]
    exact dec64_le64 _ _ hmagic

/-- `WriteBlock` on a non-empty buffer, written out. -/
theorem WriteBlock_eq {b : SSTableBuilder} (hd : b.data_block_buffer ≠ []) :
    SSTableBuilder.WriteBlock b = { b with
      file := b.file ++ (b.data_block_buffer ++ le32 (crc32 b.data_block_buffer))
      offset := (b.offset + (b.data_block_buffer.length + 4)) % 2 ^ 64
      index_block_buffer := b.index_block_buffer ++ (le32 b.last_key.length ++
        (b.last_key ++ (le64 b.offset ++ le64 (b.data_block_buffer.length + 4))))
      data_block_buffer := [] } := by
  simp [SSTableBuilder.WriteBlock, SSTableBuilder.AppendUint32, SSTableBuilder.AppendUint64,
    if_neg hd, List.append_assoc, Nat.add_comm]

theorem Add_track {b : SSTableBuilder} (key value : List Nat)
    (h1 : b.offset = b.file.length % 2 ^ 64) :
    (SSTableBuilder.Add b key value).offset =
      (SSTableBuilder.Add b key value).file.length % 2 ^ 64 ∧
    (SSTableBuilder.Add b key value).finished = b.finished := by
  simp only [SSTableBuilder.Add]
  by_cases hfl : 4096 ≤ (SSTableBuilder.AppendUint32 (SSTableBuilder.AppendUint32
      b.data_block_buffer key.length) value.length ++ key ++ value).length
  · rw [if_pos hfl]
    have hne : ¬ (SSTableBuilder.AppendUint32 (SSTableBuilder.AppendUint32
        b.data_block_buffer key.length) value.length ++ key ++ value = []) := by
      intro he
      rw [he] at hfl
      simp at hfl
    rw [SSTableBuilder.WriteBlock]
    dsimp only
    rw [if_neg hne]
    constructor
    · dsimp only
      simp only [SSTableBuilder.AppendUint32, SSTableBuilder.AppendUint64,
        List.length_append, le32_length]
      omega
    · rfl
  · rw [if_neg hfl]
    exact ⟨h1, rfl⟩

/-- The builder's running `offset_` tracks the bytes written (modulo the
`uint64_t` width), and building never sets `finished_`. -/
theorem build_track (kvs : List (List Nat × List Nat)) :
    (SSTableBuilder.build kvs).offset = (SSTableBuilder.build kvs).file.length % 2 ^ 64 ∧
    (SSTableBuilder.build kvs).finished = false := by
  suffices h : ∀ b : SSTableBuilder,
      b.offset = b.file.length % 2 ^ 64 → b.finished = false →
      (kvs.foldl (fun b kv => SSTableBuilder.Add b kv.1 kv.2) b).offset =
        (kvs.foldl (fun b kv => SSTableBuilder.Add b kv.1 kv.2) b).file.length % 2 ^ 64 ∧
      (kvs.foldl (fun b kv => SSTableBuilder.Add b kv.1 kv.2) b).finished = false by
    exact h SSTableBuilder.create rfl rfl
  induction kvs with
  | nil => intro b h1 h2; exact ⟨h1, h2⟩
  | cons kv kvs ih =>
      intro b h1 h2
      simp only [List.foldl_cons]
      obtain ⟨ha1, ha2⟩ := Add_track kv.1 kv.2 h1
      exact ih _ ha1 (by rw [ha2]; exact h2)

/-- `Finish` on an unfinished builder succeeds and leaves a file ending
in a well-formed footer: the magic number in the last 8 bytes, the index
handle's offset at byte `S - 28` and size at byte `S - 20`, the index
block entirely before the footer. -/
theorem Finish_spec {b : SSTableBuilder} (hfin : b.finished = false)
    (hoff : b.offset = b.file.length % 2 ^ 64)
    (hbound : b.file.length + b.data_block_buffer.length +
      b.index_block_buffer.length + b.last_key.length + 100 < 2 ^ 64) :
    ∃ b2, SSTableBuilder.Finish b = Except.ok b2 ∧
      48 ≤ b2.file.length ∧ b2.file.length < 2 ^ 64 ∧
      dec64 (b2.file.drop (b2.file.length - 8)) = kTableMagicNumber ∧
      dec64 (b2.file.drop (b2.file.length - 28)) +
        dec64 (b2.file.drop (b2.file.length - 20)) ≤ b2.file.length - 48 := by
  simp only [SSTableBuilder.Finish]
  rw [hfin, if_neg Bool.false_ne_true]
  by_cases hd : b.data_block_buffer = []
  · rw [if_neg (not_not_intro hd)]
    by_cases hi : b.index_block_buffer = []
    · rw [if_neg (not_not_intro hi)]
      dsimp only [SSTableBuilder.WriteFooter]
      refine ⟨_, rfl, ?_⟩
      dsimp only
      obtain ⟨f1, f2, f3, f4⟩ := footer_drop b.file 0 0 (by norm_num) (by norm_num)
      rw [f4]
      refine ⟨by omega, by omega, ?_, ?_⟩
      · rw [(by omega : b.file.length + 48 - 8 = b.file.length + 40)]
        exact f3
      · rw [(by omega : b.file.length + 48 - 28 = b.file.length + 20),
          (by omega : b.file.length + 48 - 20 = b.file.length + 28), f1, f2]
        omega
    · rw [if_pos hi]
      dsimp only [SSTableBuilder.WriteFooter, SSTableBuilder.AppendUint32]
      refine ⟨_, rfl, ?_⟩
      dsimp only
      have hfl : b.offset = b.file.length :=
        hoff.trans (Nat.mod_eq_of_lt (by omega))
      rw [hfl]
      have hsval : (b.index_block_buffer ++ le32 (crc32 b.index_block_buffer)).length
          < 2 ^ 64 := by
        rw [List.length_append, le32_length]
        omega
      obtain ⟨f1, f2, f3, f4⟩ := footer_drop
        (b.file ++ (b.index_block_buffer ++ le32 (crc32 b.index_block_buffer)))
        b.file.length
        (b.index_block_buffer ++ le32 (crc32 b.index_block_buffer)).length
        (by omega) hsval
      rw [f4]
      have hpre : (b.file ++ (b.index_block_buffer ++
          le32 (crc32 b.index_block_buffer))).length =
          b.file.length + (b.index_block_buffer.length + 4) := by
        simp [List.length_append]
      refine ⟨by omega, by rw [hpre]; omega, ?_, ?_⟩
      · rw [(by omega : (b.file ++ (b.index_block_buffer ++
            le32 (crc32 b.index_block_buffer))).length + 48 - 8 =
            (b.file ++ (b.index_block_buffer ++
            le32 (crc32 b.index_block_buffer))).length + 40)]
        exact f3
      · rw [(by omega : (b.file ++ (b.index_block_buffer ++
            le32 (crc32 b.index_block_buffer))).length + 48 - 28 =
            (b.file ++ (b.index_block_buffer ++
            le32 (crc32 b.index_block_buffer))).length + 20),
          (by omega : (b.file ++ (b.index_block_buffer ++
            le32 (crc32 b.index_block_buffer))).length + 48 - 20 =
            (b.file ++ (b.index_block_buffer ++
            le32 (crc32 b.index_block_buffer))).length + 28), f1, f2]
        rw [hpre, List.length_append, le32_length]
        omega
  · rw [if_pos hd, WriteBlock_eq hd]
    dsimp only
    rw [if_pos (by simp [le32])]
    dsimp only [SSTableBuilder.WriteFooter, SSTableBuilder.AppendUint32]
    refine ⟨_, rfl, ?_⟩
    dsimp only
    have hflc : (b.offset + (b.data_block_buffer.length + 4)) % 2 ^ 64 =
        b.file.length + (b.data_block_buffer.length + 4) := by omega
    rw [hflc]
    set ib := (b.index_block_buffer ++ (le32 b.last_key.length ++
      (b.last_key ++ (le64 b.offset ++ le64 (b.data_block_buffer.length + 4))))) ++
      le32 (crc32 (b.index_block_buffer ++ (le32 b.last_key.length ++
        (b.last_key ++ (le64 b.offset ++ le64 (b.data_block_buffer.length + 4))))))
      with hib
    have hiblen : ib.length = b.index_block_buffer.length + b.last_key.length + 24 := by
      rw [hib]
      simp [List.length_append]
      omega
    have hsval : ib.length < 2 ^ 64 := by omega
    obtain ⟨f1, f2, f3, f4⟩ := footer_drop
      ((b.file ++ (b.data_block_buffer ++ le32 (crc32 b.data_block_buffer))) ++ ib)
      (b.file.length + (b.data_block_buffer.length + 4))
      ib.length (by omega) hsval
    rw [f4]
    have hpre : ((b.file ++ (b.data_block_buffer ++ le32 (crc32 b.data_block_buffer)))
        ++ ib).length =
        b.file.length + b.data_block_buffer.length + 4 + ib.length := by
      simp [List.length_append]
      omega
    refine ⟨by omega, by rw [hpre]; omega, ?_, ?_⟩
    · rw [(by omega : ((b.file ++ (b.data_block_buffer ++
          le32 (crc32 b.data_block_buffer))) ++ ib).length + 48 - 8 =
          ((b.file ++ (b.data_block_buffer ++
          le32 (crc32 b.data_block_buffer))) ++ ib).length + 40)]
      exact f3
    · rw [(by omega : ((b.file ++ (b.data_block_buffer ++
          le32 (crc32 b.data_block_buffer))) ++ ib).length + 48 - 28 =
          ((b.file ++ (b.data_block_buffer ++
          le32 (crc32 b.data_block_buffer))) ++ ib).length + 20),
        (by omega : ((b.file ++ (b.data_block_buffer ++
          le32 (crc32 b.data_block_buffer))) ++ ib).length + 48 - 20 =
          ((b.file ++ (b.data_block_buffer ++
          le32 (crc32 b.data_block_buffer))) ++ ib).length + 28), f1, f2]
      rw [hpre]
      omega

/-- C5: the spec says a verified frame whose kind byte is neither 0 (Put)
nor 1 (Delete) stops replay like a checksum mismatch.  The code does the
opposite: `replay_wal` applies neither insert nor remove for such a frame
and FALLS THROUGH to the next iteration, so replay continues past it (see
the counterexample, where a record after a bad-kind frame is applied).
Amended property, proved here: a checksum-valid frame with kind byte
`kind ∉ {0, 1}` is skipped — the memtable is left alone and the loop
continues with the remaining bytes. -/
theorem C5_bad_kind_skipped (mt : SkipList Int (List Nat)) (coinss : List (List Bool))
    (kind : Nat) (key value rest : List Nat) (fuel : Nat)
    (h0 : kind ≠ 0) (h1 : kind ≠ 1) (hlt : kind < 256)
    (hk : key.length < 2 ^ 32) (hv : value.length < 2 ^ 32) :
    KVStore.replay_go mt coinss (mkFrame kind key value ++ rest) (fuel + 1) =
      KVStore.replay_go mt coinss rest fuel := by
  have hbytes : mkFrame kind key value ++ rest =
      le32 (crc32 (le32 key.length ++ (le32 value.length ++
          ([kind] ++ (key ++ value))))) ++
        (le32 key.length ++ (le32 value.length ++
          ([kind] ++ (key ++ (value ++ rest))))) := by
    simp only [mkFrame, List.append_assoc, Nat.mod_eq_of_lt hlt]
  rw [hbytes]
  simp only [KVStore.replay_go, drop_four_le32, dec32_le32,
    Nat.mod_eq_of_lt hk, Nat.mod_eq_of_lt hv, List.singleton_append,
    List.headD_cons, List.drop_succ_cons, List.drop_zero,
    List.length_append, le32_length, List.length_cons]
  rw [if_neg (by omega), if_neg (by omega), if_neg (by omega), if_neg (by omega)]
  rw [if_neg (by simp), if_neg (by simp)]
  rw [List.take_left, List.drop_left, List.take_left, List.drop_left]
  rw [Nat.mod_eq_of_lt (crc32_lt _)]
  rw [if_neg fun hcc => hcc rfl]
  cases stoiModel key with
  | none => rfl
  | some ki =>
      dsimp only
      rw [if_neg h0, if_neg h1]

/-! ## The claims -/

/-- C1: for every sequence of store-engine operations and every key `k`,
`get k` (modelled as `KVStore.get`, the memtable `search`) returns the
value of the most recent put of `k` unless a later delete removed it, and
nothing (`none`, the empty `std::optional`) when the last operation on
`k` was a delete or `k` was never put — `lastWrite` is exactly that
reading of the operation sequence. -/
theorem C1_get_last_write (ops : List SEOp) (k : Int) :
    ∃ st, KVStore.runOps KVStore.openFresh ops = some st ∧
      KVStore.get st k = some (lastWrite ops k) := by
  have hmod : ∀ q w, SkipList.MapsTo KVStore.openFresh.memtable q w ↔
      (fun _ : Int => (none : Option (List Nat))) q = some w := by
    intro q w
    constructor
    · intro h
      exact absurd h (SkipList.init_mapsTo 6 q w)
    · intro h
      cases h
  obtain ⟨st, hrun, hInv2, hml, hwal, hmod2⟩ :=
    runOps_spec ops KVStore.openFresh (fun _ => none)
      (SkipList.init_inv (by norm_num))
      (by norm_num [KVStore.openFresh, SkipList.init]) hmod
  obtain ⟨r, hsearch, hr⟩ := SkipList.search_spec hInv2 k
  have hre : r = runModel (fun _ => none) ops k :=
    option_eq_of_some_iff fun v => (hr v).trans (hmod2 k v)
  refine ⟨st, hrun, ?_⟩
  show SkipList.search st.memtable k = _
  rw [hsearch, hre, runModel_none_lastWrite]

/-- C2: running any well-formed sequence of puts/deletes against a fresh
store and then replaying the WAL it produced (the close/reopen path)
reconstructs exactly the same key→value mapping: the memtables agree
pointwise, so keys whose last operation was a delete are absent and every
other key carries its latest value (keys are unique in the skip list, so
pointwise agreement is agreement of the association multiset). -/
theorem C2_replay_rebuilds_mapping (ops : List SEOp) (coinss : List (List Bool))
    (hwf : ∀ op ∈ ops, op.wf) :
    ∃ st st2, KVStore.runOps KVStore.openFresh ops = some st ∧
      KVStore.reopen st.wal_file coinss = some st2 ∧
      (∀ k v, SkipList.MapsTo st2.memtable k v ↔ SkipList.MapsTo st.memtable k v) := by
  have hmod : ∀ q w, SkipList.MapsTo KVStore.openFresh.memtable q w ↔
      (fun _ : Int => (none : Option (List Nat))) q = some w := by
    intro q w
    constructor
    · intro h
      exact absurd h (SkipList.init_mapsTo 6 q w)
    · intro h
      cases h
  obtain ⟨st, hrun, hInv2, hml, hwal, hmod2⟩ :=
    runOps_spec ops KVStore.openFresh (fun _ => none)
      (SkipList.init_inv (by norm_num))
      (by norm_num [KVStore.openFresh, SkipList.init]) hmod
  have hwal2 : st.wal_file = logBytes ops := by
    rw [hwal]
    simp [KVStore.openFresh]
  obtain ⟨mt2, hgo, hInv3, hml3, hmod3⟩ :=
    replay_frames ops (SkipList.init 6) coinss (fun _ => none) []
      (logBytes ops ++ []).length (SkipList.init_inv (by norm_num))
      (by norm_num [SkipList.init])
      (fun q w => ⟨fun h => absurd h (SkipList.init_mapsTo 6 q w), fun h => by cases h⟩)
      hwf (by simp) (le_refl _)
  rw [List.append_nil] at hgo
  refine ⟨st, ⟨mt2, st.wal_file⟩, hrun, ?_, ?_⟩
  · simp only [KVStore.reopen, KVStore.replay_wal, hwal2, hgo, Option.map_some']
  · intro k v
    exact (hmod3 k v).trans (hmod2 k v).symm

/-- C3: whichever of the three I/O steps of `append_wal` fails (`fwrite`
to the user buffer, `fflush` to the kernel, `fsync` to media), `put` and
`del` surface the thrown error and the in-memory index is exactly the one
from before the call — fail-stop, no partial commit to the memtable. -/
theorem C3_fail_stop (st : KVStore) (k : Int) (v : List Nat) (coins : List Bool)
    (io : IoOutcome)
    (hio : io.write = false ∨ io.flush = false ∨ io.sync = false) :
    (∃ st2 e, KVStore.put st k v coins io = some (st2, Except.error e) ∧
      st2.memtable = st.memtable) ∧
    (∃ st2 e, KVStore.del st k io = some (st2, Except.error e) ∧
      st2.memtable = st.memtable) := by
  obtain ⟨w, fl, sy⟩ := io
  simp only at hio
  cases w with
  | false =>
      exact ⟨⟨{ st with wal_file := st.wal_file }, "Failed to write to WAL file",
          by simp [KVStore.put, KVStore.append_wal], rfl⟩,
        ⟨{ st with wal_file := st.wal_file }, "Failed to write to WAL file",
          by simp [KVStore.del, KVStore.append_wal], rfl⟩⟩
  | true =>
      cases fl with
      | false =>
          exact ⟨⟨{ st with wal_file := st.wal_file ++
                encode_log_record ⟨LogType.kPut, toDecimalBytes k, v⟩ },
              "WAL flush failed",
              by simp [KVStore.put, KVStore.append_wal], rfl⟩,
            ⟨{ st with wal_file := st.wal_file ++
                encode_log_record ⟨LogType.kDelete, toDecimalBytes k, []⟩ },
              "WAL flush failed",
              by simp [KVStore.del, KVStore.append_wal], rfl⟩⟩
      | true =>
          cases sy with
          | false =>
              exact ⟨⟨{ st with wal_file := st.wal_file ++
                    encode_log_record ⟨LogType.kPut, toDecimalBytes k, v⟩ },
                  "WAL sync (fsync) failed",
                  by simp [KVStore.put, KVStore.append_wal], rfl⟩,
                ⟨{ st with wal_file := st.wal_file ++
                    encode_log_record ⟨LogType.kDelete, toDecimalBytes k, []⟩ },
                  "WAL sync (fsync) failed",
                  by simp [KVStore.del, KVStore.append_wal], rfl⟩⟩
          | true => simp at hio

/-- C3 witness: a failing `fwrite` on a concrete store. -/
theorem C3_fail_stop_witness :
    ((⟨false, true, true⟩ : IoOutcome).write = false ∨
      (⟨false, true, true⟩ : IoOutcome).flush = false ∨
      (⟨false, true, true⟩ : IoOutcome).sync = false) ∧
    ((∃ st2 e, KVStore.put KVStore.openFresh 0 [] [] ⟨false, true, true⟩ =
        some (st2, Except.error e) ∧ st2.memtable = KVStore.openFresh.memtable) ∧
      (∃ st2 e, KVStore.del KVStore.openFresh 0 ⟨false, true, true⟩ =
        some (st2, Except.error e) ∧ st2.memtable = KVStore.openFresh.memtable)) :=
  ⟨Or.inl rfl, C3_fail_stop KVStore.openFresh 0 [] [] ⟨false, true, true⟩ (Or.inl rfl)⟩

/-- C4: appending any torn tail of fewer than 13 bytes (shorter than one
frame header) to the log of a well-formed run and reopening replays
exactly the complete frames: the reopened memtable agrees pointwise with
the one the store had before the torn append. -/
theorem C4_torn_tail_tolerated (ops : List SEOp) (coinss : List (List Bool))
    (tail : List Nat) (hwf : ∀ op ∈ ops, op.wf) (htail : tail.length < 13) :
    ∃ st st2, KVStore.runOps KVStore.openFresh ops = some st ∧
      KVStore.reopen (st.wal_file ++ tail) coinss = some st2 ∧
      (∀ k v, SkipList.MapsTo st2.memtable k v ↔ SkipList.MapsTo st.memtable k v) := by
  have hmod : ∀ q w, SkipList.MapsTo KVStore.openFresh.memtable q w ↔
      (fun _ : Int => (none : Option (List Nat))) q = some w := by
    intro q w
    constructor
    · intro h
      exact absurd h (SkipList.init_mapsTo 6 q w)
    · intro h
      cases h
  obtain ⟨st, hrun, hInv2, hml, hwal, hmod2⟩ :=
    runOps_spec ops KVStore.openFresh (fun _ => none)
      (SkipList.init_inv (by norm_num))
      (by norm_num [KVStore.openFresh, SkipList.init]) hmod
  have hwal2 : st.wal_file = logBytes ops := by
    rw [hwal]
    simp [KVStore.openFresh]
  obtain ⟨mt2, hgo, hInv3, hml3, hmod3⟩ :=
    replay_frames ops (SkipList.init 6) coinss (fun _ => none) tail
      (logBytes ops ++ tail).length (SkipList.init_inv (by norm_num))
      (by norm_num [SkipList.init])
      (fun q w => ⟨fun h => absurd h (SkipList.init_mapsTo 6 q w), fun h => by cases h⟩)
      hwf htail (le_refl _)
  refine ⟨st, ⟨mt2, st.wal_file ++ tail⟩, hrun, ?_, ?_⟩
  · simp only [KVStore.reopen, KVStore.replay_wal, hwal2, hgo, Option.map_some']
  · intro k v
    exact (hmod3 k v).trans (hmod2 k v).symm

/-- C4 witness: one put, then a 1-byte torn tail. -/
theorem C4_torn_tail_witness :
    (∀ op ∈ [SEOp.putOp 1 [97] []], op.wf) ∧ ([0].length < 13) ∧
    (∃ st st2, KVStore.runOps KVStore.openFresh [SEOp.putOp 1 [97] []] = some st ∧
      KVStore.reopen (st.wal_file ++ [0]) [] = some st2 ∧
      (∀ k v, SkipList.MapsTo st2.memtable k v ↔ SkipList.MapsTo st.memtable k v)) := by
  have hwf : ∀ op ∈ [SEOp.putOp 1 [97] []], op.wf := by
    intro op hop
    rcases List.mem_cons.mp hop with rfl | hop
    · exact ⟨by norm_num, by norm_num, by norm_num⟩
    · cases hop
  exact ⟨hwf, by norm_num,
    C4_torn_tail_tolerated [SEOp.putOp 1 [97] []] [] [0] hwf (by norm_num)⟩

/-- C2 witness: one put and one delete on distinct keys. -/
theorem C2_replay_witness :
    (∀ op ∈ [SEOp.putOp 1 [97] [], SEOp.delOp 2], op.wf) ∧
    (∃ st st2, KVStore.runOps KVStore.openFresh
        [SEOp.putOp 1 [97] [], SEOp.delOp 2] = some st ∧
      KVStore.reopen st.wal_file [] = some st2 ∧
      (∀ k v, SkipList.MapsTo st2.memtable k v ↔ SkipList.MapsTo st.memtable k v)) := by
  have hwf : ∀ op ∈ [SEOp.putOp 1 [97] [], SEOp.delOp 2], op.wf := by
    intro op hop
    rcases List.mem_cons.mp hop with rfl | hop
    · exact ⟨by norm_num, by norm_num, by norm_num⟩
    rcases List.mem_cons.mp hop with rfl | hop
    · exact ⟨by norm_num, by norm_num⟩
    · cases hop
  exact ⟨hwf,
    C2_replay_rebuilds_mapping [SEOp.putOp 1 [97] [], SEOp.delOp 2] [] hwf⟩

/-- C5 witness: a kind-5 frame with key "1" is skipped over. -/
theorem C5_bad_kind_witness :
    ((5 : Nat) ≠ 0) ∧ ((5 : Nat) ≠ 1) ∧ ((5 : Nat) < 256) ∧
    (([49] : List Nat).length < 2 ^ 32) ∧ (([] : List Nat).length < 2 ^ 32) ∧
    KVStore.replay_go (SkipList.init 6) [] (mkFrame 5 [49] [] ++ []) 1 =
      KVStore.replay_go (SkipList.init 6) [] [] 0 :=
  ⟨by norm_num, by norm_num, by norm_num, by norm_num, by norm_num,
    C5_bad_kind_skipped (SkipList.init 6) [] 5 [49] [] [] 0 (by norm_num) (by norm_num)
      (by norm_num) (by norm_num) (by norm_num)⟩

/-- C5 counterexample to the claim as stated: replay does NOT stop at a
checksum-valid bad-kind frame.  A kind-5 frame (key "1") followed by a
valid Put of key "7" ↦ "a": replay succeeds and the record AFTER the
bad-kind frame is applied — the reopened index maps 7 to "a". -/
theorem C5_stop_counterexample :
    (KVStore.replay_wal (mkFrame 5 [49] [] ++
        encode_log_record ⟨LogType.kPut, [55], [97]⟩) [[]]).bind
      (fun mt => SkipList.search mt 7) = some (some [97]) := by
  set_option maxRecDepth 100000 in decide

/-- C6: for every OI instance — any `max_level ≥ 1` and any probability
parameter `p` (the constructor takes `p` but no operation's outcome
depends on it once the promotion coins are made explicit) — and every
sequence of insert/remove operations, the run succeeds, `current_level ≥ 1`
holds, and at every level the key chain reachable from the head through
the forward pointers is strictly increasing.  Every prefix of `ops` is
itself such a sequence, so the two invariants hold after each operation. -/
theorem C6_level_invariant {K V : Type} [LinearOrder K] [Inhabited K] [Inhabited V]
    (max_level : Nat) (hm : 1 ≤ max_level) (p : ℚ) (ops : List (OIOp K V)) :
    ∃ s2, runOI (SkipList.construct max_level p) ops = some s2 ∧
      1 ≤ s2.current_level ∧
      ∀ i, List.Chain' (· < ·) (SkipList.levelChain s2 i) := by
  obtain ⟨s2, hrun, hInv2, hml2⟩ :=
    runOI_spec ops (SkipList.construct max_level p)
      (SkipList.init_inv hm) (by simpa [SkipList.construct, SkipList.init] using hm)
  exact ⟨s2, hrun, hInv2.one_le, fun i => SkipList.levelChain_sorted hInv2 i⟩

/-- C6 witness: `max_level = 1`, `p = 1/2`, one insert. -/
theorem C6_level_witness :
    1 ≤ 1 ∧
    (∃ s2, runOI (SkipList.construct (K := Int) (V := List Nat) 1 (1/2))
        [OIOp.insOp 0 [] []] = some s2 ∧
      1 ≤ s2.current_level ∧
      ∀ i, List.Chain' (· < ·) (SkipList.levelChain s2 i)) :=
  ⟨le_refl 1, C6_level_invariant 1 (le_refl 1) (1/2) [OIOp.insOp 0 [] []]⟩

/-- C7: the spec puts the index handle at bytes `[S-16, S-8)`; the code
(`WriteFooter`) writes the handle's offset at byte `S-28` and its size at
byte `S-20` (footer offsets 20 and 28 of 48).  Corrected property, proved
here: for every finished build, the last 8 bytes are the magic number,
`S ≥ 48`, and the handle decoded from bytes `S-28` (offset, u64 LE) and
`S-20` (size, u64 LE) satisfies `offset + size ≤ S - 48` — the index
block lies entirely before the footer. -/
theorem C7_footer_index_handle (kvs : List (List Nat × List Nat))
    (hbound : (SSTableBuilder.build kvs).file.length +
      (SSTableBuilder.build kvs).data_block_buffer.length +
      (SSTableBuilder.build kvs).index_block_buffer.length +
      (SSTableBuilder.build kvs).last_key.length + 100 < 2 ^ 64) :
    ∃ b2, SSTableBuilder.Finish (SSTableBuilder.build kvs) = Except.ok b2 ∧
      48 ≤ b2.file.length ∧ b2.file.length < 2 ^ 64 ∧
      dec64 (b2.file.drop (b2.file.length - 8)) = kTableMagicNumber ∧
      dec64 (b2.file.drop (b2.file.length - 28)) +
        dec64 (b2.file.drop (b2.file.length - 20)) ≤ b2.file.length - 48 := by
  obtain ⟨h1, h2⟩ := build_track kvs
  exact Finish_spec h2 h1 hbound

/-- C7 witness: the one-entry table "k" ↦ "v". -/
theorem C7_footer_witness :
    ((SSTableBuilder.build [([107], [118])]).file.length +
      (SSTableBuilder.build [([107], [118])]).data_block_buffer.length +
      (SSTableBuilder.build [([107], [118])]).index_block_buffer.length +
      (SSTableBuilder.build [([107], [118])]).last_key.length + 100 < 2 ^ 64) ∧
    (∃ b2, SSTableBuilder.Finish (SSTableBuilder.build [([107], [118])]) =
        Except.ok b2 ∧
      48 ≤ b2.file.length ∧ b2.file.length < 2 ^ 64 ∧
      dec64 (b2.file.drop (b2.file.length - 8)) = kTableMagicNumber ∧
      dec64 (b2.file.drop (b2.file.length - 28)) +
        dec64 (b2.file.drop (b2.file.length - 20)) ≤ b2.file.length - 48) :=
  ⟨by decide, C7_footer_index_handle [([107], [118])] (by decide)⟩

/-- C7 counterexample to the claimed location: on the finished one-entry
table, decoding a u64 offset at byte `S-16` and a u64 size at byte `S-8`
(the spec's `[S-16, S-8)` handle position) violates
`offset + size ≤ S - 48` — the u64 at `S-8` is the magic number, so the
sum is astronomically larger than the file. -/
theorem C7_location_counterexample :
    (SSTableBuilder.Finish (SSTableBuilder.build [([107], [118])])).toOption.map
      (fun b2 => decide (dec64 (b2.file.drop (b2.file.length - 16)) +
        dec64 (b2.file.drop (b2.file.length - 8)) ≤ b2.file.length - 48)) =
      some false := by
  set_option maxRecDepth 100000 in decide

/-- C8: of the three claimed precondition checks only the sorted-table
builder's double-`Finish` exists: a second `Finish` on a finished builder
throws "Finish() called twice".  The `SkipList` constructor checks
nothing: for every `max_level` (0 included) and every `p` (values outside
`(0,1)` included) it returns the same ordinary object the valid
parameters produce — `construct max_level p = init max_level`
unconditionally. -/
theorem C8_precondition_checks :
    (∀ b b2 : SSTableBuilder, SSTableBuilder.Finish b = Except.ok b2 →
      SSTableBuilder.Finish b2 = Except.error "Finish() called twice") ∧
    (∀ (ml : Nat) (p : ℚ),
      SkipList.construct (K := Int) (V := List Nat) ml p = SkipList.init ml) := by
  constructor
  · intro b b2 h
    have hb2 : b2.finished = true := by
      simp only [SSTableBuilder.Finish] at h
      by_cases hf : b.finished = true
      · rw [if_pos hf] at h
        cases h
      · rw [if_neg hf] at h
        injection h with h2
        rw [← h2]
    simp only [SSTableBuilder.Finish]
    rw [hb2, if_pos rfl]
  · intro ml p
    rfl

/-- C8 witness: finishing a fresh builder once succeeds; finishing its
result again throws. -/
theorem C8_double_finish_witness :
    SSTableBuilder.Finish ((SSTableBuilder.Finish SSTableBuilder.create).toOption.getD
      SSTableBuilder.create) = Except.error "Finish() called twice" :=
  C8_precondition_checks.1 SSTableBuilder.create _ (by rfl)

/-- C8 counterexample to the claim as stated: constructing the OI with
`max_level = 0` and `p = 7/2 ∉ (0,1)` does not fail — the constructor
performs no validation and yields the ordinary zero-level object with
`current_level = 1`. -/
theorem C8_constructor_counterexample :
    SkipList.construct (K := Int) (V := List Nat) 0 (7/2) = SkipList.init 0 ∧
    (SkipList.construct (K := Int) (V := List Nat) 0 (7/2)).current_level = 1 :=
  ⟨rfl, rfl⟩

/-- C9: the CRC-32 of `wal_record.h` (reflected polynomial 0xEDB88320,
init and final XOR 0xFFFFFFFF, byte-by-byte) matches the two reference
values: empty input gives 0 and the ASCII bytes of "123456789" give
0xCBF43926. -/
theorem C9_crc32_reference :
    crc32 [] = 0 ∧ crc32 [49, 50, 51, 52, 53, 54, 55, 56, 57] = 0xCBF43926 := by
  constructor
  · rfl
  · set_option maxRecDepth 100000 in decide

/-- C10: deleting a key not present in the index still runs the whole
WAL path before touching the memtable: with all I/O succeeding, `del`
appends the encoded Delete frame — the log grows by exactly
`13 + |to_string(k)|` bytes — returns `false` from the memtable remove,
and leaves the in-memory index untouched; and when the `fwrite` step
fails the same call surfaces the I/O error (with nothing to delete), the
memtable again untouched. -/
theorem C10_del_absent_appends (st : KVStore) (k : Int)
    (hInv : SkipList.Inv st.memtable)
    (habs : ∀ v, ¬ SkipList.MapsTo st.memtable k v) :
    (KVStore.del st k ioOk = some
      ({ memtable := st.memtable, wal_file := st.wal_file ++
          encode_log_record ⟨LogType.kDelete, toDecimalBytes k, []⟩ },
        Except.ok false) ∧
      (st.wal_file ++ encode_log_record ⟨LogType.kDelete, toDecimalBytes k, []⟩).length =
        st.wal_file.length + 13 + (toDecimalBytes k).length) ∧
    (∃ st2 e, KVStore.del st k ⟨false, true, true⟩ = some (st2, Except.error e) ∧
      st2.memtable = st.memtable) := by
  refine ⟨⟨?_, ?_⟩, ?_⟩
  · have hrm := SkipList.remove_absent hInv k habs
    simp [KVStore.del, KVStore.append_wal, ioOk, hrm]
  · rw [List.length_append, encode_log_record_length]
    simp only [List.length_nil]
    omega
  · exact ⟨{ st with wal_file := st.wal_file }, "Failed to write to WAL file",
      by simp [KVStore.del, KVStore.append_wal], rfl⟩

/-- C10 witness: deleting key 3 from a fresh store. -/
theorem C10_del_absent_witness :
    (∀ v, ¬ SkipList.MapsTo KVStore.openFresh.memtable 3 v) ∧
    ((KVStore.del KVStore.openFresh 3 ioOk = some
      ({ memtable := KVStore.openFresh.memtable,
         wal_file := KVStore.openFresh.wal_file ++
          encode_log_record ⟨LogType.kDelete, toDecimalBytes 3, []⟩ },
        Except.ok false) ∧
      (KVStore.openFresh.wal_file ++
        encode_log_record ⟨LogType.kDelete, toDecimalBytes 3, []⟩).length =
        KVStore.openFresh.wal_file.length + 13 + (toDecimalBytes 3).length) ∧
    (∃ st2 e, KVStore.del KVStore.openFresh 3 ⟨false, true, true⟩ =
        some (st2, Except.error e) ∧
      st2.memtable = KVStore.openFresh.memtable)) :=
  ⟨fun v => SkipList.init_mapsTo 6 3 v,
    C10_del_absent_appends KVStore.openFresh 3 (SkipList.init_inv (by norm_num))
      (fun v => SkipList.init_mapsTo 6 3 v)⟩
